import Mathlib

/-!
# Transfer-transaction builder of `sdk/sdk.go`

A shallow embedding of `MakeTransferTransaction` and of the helpers it calls
(`getTransferTxnPerOutputFee`, `sortCoinsByValue`, the two `Less` methods,
`newContractContextWithoutProgramHashes`), and of `signTransaction` with the
two builders that use it, followed by theorems about the coin selection, the
fee accounting, the change output, the signer list and the verification slots.

Conventions of the embedding.

* `Fixed64` is Go's `int64`: its values are kept in `Int` and every `+`, `-`, `/`
  of the source is followed by `wrap64`, the reduction to the signed 64-bit
  range.
* A Go call returns a value, an `error`, or panics; `Failure` keeps the last
  two apart and the functions run in `Except Failure`.
* What the file imports from other packages (the fixed-point reader, the
  address codec, the configuration, the hash comparison, the signing and
  contract services, the random source) is collected in `Env`; the wallet is
  `Client`.
* A Go map is listed in the order a `range` statement visits it.
* `sort.Sort` is the insertion sort that the Go library runs on slices of at
  most twelve elements, driven by the `Less` method of the source.
-/

namespace Sdk

/-! ## Fixed-point values -/

/-- Reduction of an integer to the signed 64-bit range, as Go arithmetic on
`int64` wraps around. -/
def wrap64 (x : Int) : Int := (x + 2 ^ 63) % 2 ^ 64 - 2 ^ 63

/-- Membership in the range of `int64`. -/
def IsFixed64 (x : Int) : Prop := -(2 ^ 63) ≤ x ∧ x < 2 ^ 63

instance (x : Int) : Decidable (IsFixed64 x) := by
  unfold IsFixed64
  exact inferInstance

/-- Go `a + b` on `Fixed64`. -/
def fixedAdd (a b : Int) : Int := wrap64 (a + b)

/-- Go `a - b` on `Fixed64`. -/
def fixedSub (a b : Int) : Int := wrap64 (a - b)

/-- Go `a / b` on `Fixed64` for a non-zero divisor: truncated division. -/
def fixedDiv (a b : Int) : Int := wrap64 (Int.tdiv a b)

/-! ## Data model -/

/-- A 32-byte identifier (asset ID, transaction ID). -/
abbrev Uint256 := Nat

/-- A 20-byte program hash. -/
abbrev Uint160 := Nat

/-- The two ways a Go call can fail. -/
inductive Failure where
  | error (msg : String)
  | panic (msg : String)
  deriving DecidableEq

/-- The run-time panic of a nil pointer dereference. -/
def nilDereference : Failure := Failure.panic "nil pointer dereference"

structure BatchOut where
  Address : String
  Value : String
  deriving DecidableEq

structure TxOutput where
  AssetID : Uint256
  Value : Int
  ProgramHash : Uint160
  deriving DecidableEq

structure UTXOTxInput where
  ReferTxID : Uint256
  ReferTxOutputIndex : Nat
  deriving DecidableEq

structure Coin where
  Output : TxOutput
  deriving DecidableEq

structure Account where
  ProgramHash : Uint160
  PublicKey : Nat
  deriving DecidableEq

structure sortedCoinsItem where
  input : UTXOTxInput
  coin : Coin
  deriving DecidableEq

inductive TransactionType where
  | RegisterAsset
  | IssueAsset
  | TransferAsset
  deriving DecidableEq

inductive TransactionAttributeUsage where
  | Nonce
  deriving DecidableEq

structure TxAttribute where
  Usage : TransactionAttributeUsage
  Data : String
  deriving DecidableEq

/-- A verification program: a script and its parameters. -/
structure Program where
  Code : List Nat
  Parameter : List (List Nat)
  deriving DecidableEq

structure Transaction where
  TxType : TransactionType
  UTXOInputs : List UTXOTxInput
  Outputs : List TxOutput
  Attributes : List TxAttribute
  Programs : List Program
  deriving DecidableEq

structure Contract where
  Code : List Nat
  deriving DecidableEq

structure ContractContext where
  Data : Transaction
  Codes : List (List Nat)
  Parameters : List (List (List Nat))
  deriving DecidableEq

/-- The value stored under `config.Parameters.TransactionFee["Transfer"]`. The
`float64` is kept abstract: the source only compares it with `-1` and renders
it with `strconv.FormatFloat(v, 'f', 4, 64)`. -/
structure ConfigFee where
  isMinusOne : Bool
  formatted : String
  deriving DecidableEq

/-- The wallet, `account.Client`. `GetCoins` lists the coin map in the order in
which the `range` of `sortCoinsByValue` visits it. -/
structure Client where
  GetDefaultAccount : Except String Account
  GetCoins : List (UTXOTxInput × Coin)
  GetAccountByProgramHash : Uint160 → Option Account

/-- The collaborators of the file that live in other packages. -/
structure Env where
  /-- The function `common.StringToFixed64` -/
  StringToFixed64 : String → Except String Int
  /-- The function `common.ToScriptHash` -/
  ToScriptHash : String → Except String Uint160
  /-- The lookup `config.Parameters.TransactionFee["Transfer"]` -/
  TransferFee : Option ConfigFee
  /-- The method `Uint160.CompareTo` -/
  CompareTo : Uint160 → Uint160 → Int
  /-- The error, if any, of `transaction.NewTransferAssetTransaction` -/
  newTransferError : List UTXOTxInput → List TxOutput → Option String
  /-- The draw of `rand.Int63()` -/
  randInt63 : Nat
  /-- The order in which the second `range` over the coin map visits it, given
  the order of the first. -/
  rangeAgain : List (UTXOTxInput × Coin) → List (UTXOTxInput × Coin)
  /-- The function `signature.SignBySigner` -/
  SignBySigner : Transaction → Account → Except String (List Nat)
  /-- The function `contract.CreateSignatureContract` -/
  CreateSignatureContract : Nat → Except String Contract
  /-- The error, if any, of `ContractContext.AddContract` -/
  addContractError : Contract → Option String := fun _ => none
  /-- The error, if any, of `transaction.NewIssueAssetTransaction` -/
  newIssueError : List TxOutput → Option String := fun _ => none
  /-- The error, if any, of `transaction.NewRegisterAssetTransaction` -/
  newRegisterError : String → Int → Option String := fun _ _ => none

/-! ## Sorting -/

/-- The inner loop of the Go library's `insertionSort`: the element `x` at
index `j` is swapped with its left neighbour while `Less(j, j-1)`. The sorted
part to the left of `x` is given last element first. -/
def insertLeft {α : Type} (less : α → α → Bool) (x : α) : List α → List α
  | [] => [x]
  | p :: ps => if less x p then p :: insertLeft less x ps else x :: p :: ps

/-- The Go library's `insertionSort`, the body of `sort.Sort` on short slices:
elements are taken left to right and moved into the sorted part. -/
def sortSort {α : Type} (less : α → α → Bool) (data : List α) : List α :=
  (data.foldl (fun done x => insertLeft less x done) []).reverse

/-- The method `sortedAccounts.Less` (lines 29-35). -/
def sortedAccounts.Less (env : Env) (a b : Account) : Bool :=
  if env.CompareTo a.ProgramHash b.ProgramHash > 0 then false else true

/-- The method `sortedCoins.Less` (lines 47-53). -/
def sortedCoins.Less (a b : sortedCoinsItem) : Bool :=
  if a.coin.Output.Value > b.coin.Output.Value then false else true

/-- The function `sortCoinsByValue` (lines 55-66): the map entries are appended
in the order the `range` visits them and the list is sorted. -/
def sortCoinsByValue (coins : List (UTXOTxInput × Coin)) : List sortedCoinsItem :=
  let coinList := coins.foldl
    (fun coinList entry => coinList ++ [{ input := entry.1, coin := entry.2 }]) []
  sortSort sortedCoins.Less coinList

/-! ## Fee -/

/-- The function `getTransferTxnPerOutputFee` (lines 126-142). A zero
`outputNum` makes the division of line 141 panic. -/
def getTransferTxnPerOutputFee (env : Env) (outputNum : Int) : Except Failure Int := do
  let txnFee ← match env.TransferFee with
    | none => pure (0 : Int)
    | some v =>
      if v.isMinusOne then
        pure (0 : Int)
      else
        match env.StringToFixed64 v.formatted with
        | .error _ => throw (Failure.error "invalid transaction fee")
        | .ok fee => pure fee
  if outputNum = 0 then
    throw (Failure.panic "integer divide by zero")
  else
    pure (fixedDiv txnFee outputNum)

/-! ## Transfer -/

/-- The loop of lines 165-184 with its two accumulators `expected` and
`output`. -/
def outputLoop (env : Env) (assetID : Uint256) (perOutputFee : Int) :
    List BatchOut → Int → List TxOutput → Except Failure (Int × List TxOutput)
  | [], expected, output => pure (expected, output)
  | o :: rest, expected, output =>
    match env.StringToFixed64 o.Value with
    | .error e => throw (Failure.error e)
    | .ok outputValue =>
      if outputValue ≤ perOutputFee then
        throw (Failure.error "token is not enough for transaction fee")
      else
        match env.ToScriptHash o.Address with
        | .error _ => throw (Failure.error "invalid address")
        | .ok address =>
          outputLoop env assetID perOutputFee rest (fixedAdd expected outputValue)
            (output ++ [{ AssetID := assetID,
                          Value := fixedSub outputValue perOutputFee,
                          ProgramHash := address }])

/-- The variables the loop of lines 189-212 changes. -/
structure Selection where
  input : List UTXOTxInput
  output : List TxOutput
  transferred : Int
  expected : Int
  deriving DecidableEq

/-- The loop of lines 189-212; a `break` is a return. -/
def coinLoop (assetID : Uint256) (mainAccount : Account) :
    List sortedCoinsItem → Selection → Selection
  | [], s => s
  | coinItem :: rest, s =>
    if coinItem.coin.Output.AssetID = assetID then
      let input := s.input ++ [coinItem.input]
      if coinItem.coin.Output.Value > s.expected then
        { input := input,
          output := s.output ++ [{ AssetID := assetID,
                                   Value := fixedSub coinItem.coin.Output.Value s.expected,
                                   ProgramHash := mainAccount.ProgramHash }],
          transferred := fixedAdd s.transferred s.expected,
          expected := 0 }
      else if coinItem.coin.Output.Value = s.expected then
        { input := input,
          output := s.output,
          transferred := fixedAdd s.transferred s.expected,
          expected := 0 }
      else if coinItem.coin.Output.Value < s.expected then
        coinLoop assetID mainAccount rest
          { input := input,
            output := s.output,
            transferred := fixedAdd s.transferred coinItem.coin.Output.Value,
            expected := fixedSub s.expected coinItem.coin.Output.Value }
      else
        coinLoop assetID mainAccount rest { s with input := input }
    else
      coinLoop assetID mainAccount rest s

/-- Modelled from the spec: `transaction.NewTransferAssetTransaction`, which is
not part of the file. It yields a transaction of kind transfer that holds the
given inputs and outputs, or the error of `Env.newTransferError`. -/
def NewTransferAssetTransaction (env : Env) (inputs : List UTXOTxInput)
    (outputs : List TxOutput) : Except String Transaction :=
  match env.newTransferError inputs outputs with
  | some e => .error e
  | none => .ok { TxType := TransactionType.TransferAsset,
                  UTXOInputs := inputs,
                  Outputs := outputs,
                  Attributes := [],
                  Programs := [] }

/-- The test of lines 231-238: whether `programHash` is the hash of an account
already collected. A nil account met on the way is dereferenced. -/
def foundDuplicate (programHash : Uint160) : List (Option Account) → Except Failure Bool
  | [] => pure false
  | none :: _ => throw nilDereference
  | some tmp :: rest =>
    if programHash = tmp.ProgramHash then pure true else foundDuplicate programHash rest

/-- The loop of lines 229-243 for one entry `ref, coin` of the coin map. -/
def matchInputs (wallet : Client) (ref : UTXOTxInput) (coin : Coin) :
    List UTXOTxInput → List (Option Account) → Except Failure (List (Option Account))
  | [], accounts => pure accounts
  | inp :: rest, accounts =>
    if inp.ReferTxID = ref.ReferTxID ∧ inp.ReferTxOutputIndex = ref.ReferTxOutputIndex then do
      let dup ← foundDuplicate coin.Output.ProgramHash accounts
      if !dup then
        matchInputs wallet ref coin rest
          (accounts ++ [wallet.GetAccountByProgramHash coin.Output.ProgramHash])
      else
        matchInputs wallet ref coin rest accounts
    else
      matchInputs wallet ref coin rest accounts

/-- The loop of lines 228-244 over the coin map. -/
def collectAccounts (wallet : Client) (input : List UTXOTxInput) :
    List (UTXOTxInput × Coin) → List (Option Account) → Except Failure (List (Option Account))
  | [], accounts => pure accounts
  | (ref, coin) :: rest, accounts => do
    let accounts ← matchInputs wallet ref coin input accounts
    collectAccounts wallet input rest accounts

/-- The accounts behind the collected pointers. A nil pointer among them is
dereferenced by `Less` (line 30) when there is something to sort and by
`account.PublicKey` (line 252) in every case, so such a run panics. -/
def derefAccounts : List (Option Account) → Except Failure (List Account)
  | [] => pure []
  | none :: _ => throw nilDereference
  | some a :: rest => do
    let tail ← derefAccounts rest
    pure (a :: tail)

/-- The function `newContractContextWithoutProgramHashes` (lines 281-287); `make` fills
the slices with nil entries. -/
def newContractContextWithoutProgramHashes (data : Transaction) (length : Nat) :
    ContractContext :=
  { Data := data,
    Codes := List.replicate length [],
    Parameters := List.replicate length [] }

/-- Modelled from the spec: `ContractContext.MyAdd`, which is not part of the
file. It stores the script of the contract and the signature at slot `index`;
a nil contract or a slot outside the context is a panic. -/
def ContractContext.MyAdd (ctx : ContractContext) (contract : Option Contract) (index : Nat)
    (signature : List Nat) : Except Failure ContractContext :=
  match contract with
  | none => throw nilDereference
  | some c =>
    if index < ctx.Codes.length ∧ index < ctx.Parameters.length then
      pure { ctx with Codes := ctx.Codes.set index c.Code,
                      Parameters := ctx.Parameters.set index [signature] }
    else
      throw (Failure.panic "index out of range")

/-- Modelled from the spec: `ContractContext.GetPrograms`, which is not part of
the file. One verification program per slot, in slot order. -/
def ContractContext.GetPrograms (ctx : ContractContext) : List Program :=
  List.zipWith (fun code parameter => { Code := code, Parameter := parameter })
    ctx.Codes ctx.Parameters

/-- The loop of lines 250-255. The errors of `SignBySigner` and of
`CreateSignatureContract` are dropped by the source: a failed call leaves a nil
signature, respectively a nil contract. -/
def signLoop (env : Env) (txn : Transaction) :
    List Account → Nat → ContractContext → Except Failure ContractContext
  | [], _, ctx => pure ctx
  | account :: rest, i, ctx => do
    let signature := match env.SignBySigner txn account with
      | .ok s => s
      | .error _ => []
    let contract := match env.CreateSignatureContract account.PublicKey with
      | .ok c => some c
      | .error _ => none
    let ctx ← ctx.MyAdd contract i signature
    signLoop env txn rest (i + 1) ctx

/-- The signer accounts of lines 226-245, sorted. -/
def signerAccounts (env : Env) (wallet : Client) (input : List UTXOTxInput) :
    Except Failure (List Account) := do
  let accounts ← collectAccounts wallet input (env.rangeAgain wallet.GetCoins) []
  let accounts ← derefAccounts accounts
  pure (sortSort (sortedAccounts.Less env) accounts)

/-- The verification context of lines 247-255. -/
def signingContext (env : Env) (txn : Transaction) (accounts : List Account) :
    Except Failure ContractContext :=
  signLoop env txn accounts 0 (newContractContextWithoutProgramHashes txn accounts.length)

/-- The function `MakeTransferTransaction` (lines 143-259). -/
def MakeTransferTransaction (env : Env) (wallet : Client) (assetID : Uint256)
    (batchOut : List BatchOut) : Except Failure Transaction := do
  let outputNum := batchOut.length
  if outputNum = 0 then
    throw (Failure.error "nil outputs")
  let mainAccount ← match wallet.GetDefaultAccount with
    | .error e => throw (Failure.error e)
    | .ok a => pure a
  let perOutputFee ← getTransferTxnPerOutputFee env batchOut.length
  let (expected, output) ← outputLoop env assetID perOutputFee batchOut 0 []
  let coins := wallet.GetCoins
  let sorted := sortCoinsByValue coins
  let s := coinLoop assetID mainAccount sorted
    { input := [], output := output, transferred := 0, expected := expected }
  if s.expected > 0 then
    throw (Failure.error "token is not enough")
  let txn ← match NewTransferAssetTransaction env s.input s.output with
    | .error e => throw (Failure.error e)
    | .ok t => pure t
  let txAttr : TxAttribute :=
    { Usage := TransactionAttributeUsage.Nonce, Data := toString env.randInt63 }
  let txn := { txn with Attributes := [] ++ [txAttr] }
  let accounts ← signerAccounts env wallet s.input
  let ctx ← signingContext env txn accounts
  pure { txn with Programs := ctx.GetPrograms }

/-! ## Register and issue -/

/-- Modelled from the spec: `ContractContext.AddContract`, which is not part of
the file. It stores the script of the contract and the signature at the slot of
the single signer, slot 0, or fails with the error of `Env.addContractError`. -/
def ContractContext.AddContract (env : Env) (ctx : ContractContext) (contract : Contract)
    (_pubkey : Nat) (signature : List Nat) : Except String ContractContext :=
  match env.addContractError contract with
  | some e => .error e
  | none => .ok { ctx with Codes := ctx.Codes.set 0 contract.Code,
                           Parameters := ctx.Parameters.set 0 [signature] }

/-- The verification context of `signTransaction` (lines 262-276): every
error is returned. -/
def signTransactionContext (env : Env) (signer : Account) (tx : Transaction) :
    Except Failure ContractContext :=
  match env.SignBySigner tx signer with
  | .error e => .error (Failure.error e)
  | .ok signature =>
    match env.CreateSignatureContract signer.PublicKey with
    | .error e => .error (Failure.error e)
    | .ok transactionContract =>
      match (newContractContextWithoutProgramHashes tx 1).AddContract env transactionContract
          signer.PublicKey signature with
      | .error e => .error (Failure.error e)
      | .ok transactionContractContext => .ok transactionContractContext

/-- The function `signTransaction` (lines 261-279); the transaction it changes
in place is returned. -/
def signTransaction (env : Env) (signer : Account) (tx : Transaction) :
    Except Failure Transaction := do
  let transactionContractContext ← signTransactionContext env signer tx
  pure { tx with Programs := transactionContractContext.GetPrograms }

/-- Modelled from the spec: `transaction.NewRegisterAssetTransaction`, which is
not part of the file. It yields a transaction of kind register without inputs
and outputs; the registration payload is not kept. The source drops its error,
so a failed call leaves a nil transaction. -/
def NewRegisterAssetTransaction (env : Env) (name : String) (fixedValue : Int) :
    Option Transaction :=
  match env.newRegisterError name fixedValue with
  | some _ => none
  | none => some { TxType := TransactionType.RegisterAsset,
                   UTXOInputs := [],
                   Outputs := [],
                   Attributes := [],
                   Programs := [] }

/-- Modelled from the spec: `transaction.NewIssueAssetTransaction`, which is
not part of the file. It yields a transaction of kind issue that holds the
given outputs. The source drops its error, so a failed call leaves a nil
transaction. -/
def NewIssueAssetTransaction (env : Env) (outputs : List TxOutput) : Option Transaction :=
  match env.newIssueError outputs with
  | some _ => none
  | none => some { TxType := TransactionType.IssueAsset,
                   UTXOInputs := [],
                   Outputs := outputs,
                   Attributes := [],
                   Programs := [] }

/-- The function `MakeRegTransaction` (lines 68-94). -/
def MakeRegTransaction (env : Env) (wallet : Client) (name : String) (value : String) :
    Except Failure Transaction := do
  let admin ← match wallet.GetDefaultAccount with
    | .error e => throw (Failure.error e)
    | .ok a => pure a
  let issuer := admin
  let _ ← match env.CreateSignatureContract admin.PublicKey with
    | .error e => throw (Failure.error e)
    | .ok c => pure c
  let fixedValue ← match env.StringToFixed64 value with
    | .error e => throw (Failure.error e)
    | .ok v => pure v
  let tx ← match NewRegisterAssetTransaction env name fixedValue with
    | none => throw nilDereference
    | some t => pure t
  let txAttr : TxAttribute :=
    { Usage := TransactionAttributeUsage.Nonce, Data := toString env.randInt63 }
  let tx := { tx with Attributes := [] ++ [txAttr] }
  signTransaction env issuer tx

/-- The function `MakeIssueTransaction` (lines 96-124). -/
def MakeIssueTransaction (env : Env) (wallet : Client) (assetID : Uint256) (address : String)
    (value : String) : Except Failure Transaction := do
  let admin ← match wallet.GetDefaultAccount with
    | .error e => throw (Failure.error e)
    | .ok a => pure a
  let programHash ← match env.ToScriptHash address with
    | .error e => throw (Failure.error e)
    | .ok h => pure h
  let fixedValue ← match env.StringToFixed64 value with
    | .error e => throw (Failure.error e)
    | .ok v => pure v
  let issueTxOutput : TxOutput :=
    { AssetID := assetID, Value := fixedValue, ProgramHash := programHash }
  let outputs := [issueTxOutput]
  let tx ← match NewIssueAssetTransaction env outputs with
    | none => throw nilDereference
    | some t => pure t
  let txAttr : TxAttribute :=
    { Usage := TransactionAttributeUsage.Nonce, Data := toString env.randInt63 }
  let tx := { tx with Attributes := [] ++ [txAttr] }
  signTransaction env admin tx

/-! ## Vocabulary of the statements -/

/-- The fixed-point value a payment asks for, `0` when its text is not
readable. -/
def parsedValue (env : Env) (o : BatchOut) : Int :=
  match env.StringToFixed64 o.Value with
  | .ok v => v
  | .error _ => 0

/-- The script hash a payment is addressed to, `0` when its address is not
readable. -/
def scriptHash (env : Env) (o : BatchOut) : Uint160 :=
  match env.ToScriptHash o.Address with
  | .ok h => h
  | .error _ => 0

/-- A payment that passes the three tests of the output loop for the fee `f`. -/
def ValidPayment (env : Env) (f : Int) (o : BatchOut) : Prop :=
  ∃ v h, env.StringToFixed64 o.Value = .ok v ∧ f < v ∧ env.ToScriptHash o.Address = .ok h

/-- The total of the requested values, as an integer. -/
def requestedTotal (env : Env) (batchOut : List BatchOut) : Int :=
  (batchOut.map (parsedValue env)).sum

/-- The total value of a list of coins, as an integer. -/
def coinTotal (l : List sortedCoinsItem) : Int :=
  (l.map (fun c => c.coin.Output.Value)).sum

/-- The total value of the outputs of a transaction, as an integer. -/
def outputTotal (txn : Transaction) : Int :=
  (txn.Outputs.map (fun o => o.Value)).sum

/-- The total value of the wallet coins of one asset, as an integer. -/
def walletTotal (wallet : Client) (assetID : Uint256) : Int :=
  ((wallet.GetCoins.filter (fun e => decide (e.2.Output.AssetID = assetID))).map
    (fun e => e.2.Output.Value)).sum

/-- The wallet coins in the order `sortCoinsByValue` gives them, restricted to
the coins of one asset: the coins the selection loop acts on. -/
def assetCoins (wallet : Client) (assetID : Uint256) : List sortedCoinsItem :=
  (sortCoinsByValue wallet.GetCoins).filter (fun c => decide (c.coin.Output.AssetID = assetID))

/-- The wallet coins behind the inputs of a transfer: the loop takes its inputs
from the front of `assetCoins`, one input per coin. -/
def selectedCoins (wallet : Client) (assetID : Uint256) (txn : Transaction) :
    List sortedCoinsItem :=
  (assetCoins wallet assetID).take txn.UTXOInputs.length

/-- An input names the reference of a map entry (the test of line 230). -/
def RefersTo (inp ref : UTXOTxInput) : Prop :=
  inp.ReferTxID = ref.ReferTxID ∧ inp.ReferTxOutputIndex = ref.ReferTxOutputIndex

/-- The outputs the output loop builds for the payments, for the fee `f`. -/
def paymentOutputs (env : Env) (assetID : Uint256) (f : Int) (batchOut : List BatchOut) :
    List TxOutput :=
  batchOut.map (fun o =>
    { AssetID := assetID,
      Value := fixedSub (parsedValue env o) f,
      ProgramHash := scriptHash env o })

/-- The variables of the selection loop when it is left, for the requirement
`expected` and the payment outputs `output` that the output loop produced. -/
def selection (wallet : Client) (assetID : Uint256) (mainAccount : Account) (expected : Int)
    (output : List TxOutput) : Selection :=
  coinLoop assetID mainAccount (sortCoinsByValue wallet.GetCoins)
    { input := [], output := output, transferred := 0, expected := expected }

/-- The transaction of lines 218-224, before it is signed. -/
def unsignedTransfer (env : Env) (s : Selection) : Transaction :=
  { TxType := TransactionType.TransferAsset,
    UTXOInputs := s.input,
    Outputs := s.output,
    Attributes := [{ Usage := TransactionAttributeUsage.Nonce, Data := toString env.randInt63 }],
    Programs := [] }

/-- What the collection loop keeps true of its list: every entry is an account
the wallet returns for its own program hash, and no two entries carry the same
program hash. -/
def Collected (wallet : Client) (accounts : List (Option Account)) : Prop :=
  (∀ x ∈ accounts, ∃ a, x = some a ∧ wallet.GetAccountByProgramHash a.ProgramHash = some a) ∧
  accounts.Pairwise (fun x y => ∀ a b, x = some a → y = some b → a.ProgramHash ≠ b.ProgramHash)

instance (inp ref : UTXOTxInput) : Decidable (RefersTo inp ref) := by
  unfold RefersTo
  exact inferInstance

/-- The distinct owner program hashes of the wallet coins that an input of the
list refers to. -/
def referredOwners (wallet : Client) (input : List UTXOTxInput) : List Uint160 :=
  ((wallet.GetCoins.filter (fun e => input.any (fun inp => decide (RefersTo inp e.1)))).map
    (fun e => e.2.Output.ProgramHash)).dedup

/-- The distinct owner program hashes of the selected coins. -/
def selectedOwners (wallet : Client) (assetID : Uint256) (txn : Transaction) : List Uint160 :=
  ((selectedCoins wallet assetID txn).map (fun c => c.coin.Output.ProgramHash)).dedup

/-! ## A sample environment -/

/-- Value of a string of decimal digits. -/
def readNat (cs : List Char) : Option Nat :=
  if cs = [] then none else
  cs.foldl (fun acc c => match acc with
    | none => none
    | some n => if c.isDigit then some (10 * n + (c.toNat - 48)) else none) (some 0)

/-- Value of an optionally signed string of decimal digits. -/
def readInt (s : String) : Option Int :=
  match s.toList with
  | '-' :: cs => (readNat cs).map (fun n => -(n : Int))
  | cs => (readNat cs).map (fun n => (n : Int))

/-- A sample environment: amounts are written in units of the fixed-point
type, addresses are written as the number of their script hash, hashes are
compared as numbers, and signing and contract creation succeed. -/
def sampleEnv (fee : Option ConfigFee) : Env :=
  { StringToFixed64 := fun s =>
      match readInt s with
      | some v => if IsFixed64 v then .ok v else .error "value out of range"
      | none => .error "invalid syntax",
    ToScriptHash := fun s =>
      match readNat s.toList with
      | some h => .ok h
      | none => .error "invalid address",
    TransferFee := fee,
    CompareTo := fun a b => if a < b then -1 else if a = b then 0 else 1,
    newTransferError := fun _ _ => none,
    randInt63 := 7,
    rangeAgain := fun l => l,
    SignBySigner := fun _ a => .ok [a.PublicKey],
    CreateSignatureContract := fun k => .ok { Code := [k] } }

/-- A sample wallet over a given coin map: its default account has program hash
`900` and it holds an account for every program hash. -/
def sampleWallet (coins : List (UTXOTxInput × Coin)) : Client :=
  { GetDefaultAccount := .ok { ProgramHash := 900, PublicKey := 9 },
    GetCoins := coins,
    GetAccountByProgramHash := fun h => some { ProgramHash := h, PublicKey := h + 1 } }

/-- A wallet without default account. -/
def lockedWallet (coins : List (UTXOTxInput × Coin)) : Client :=
  { sampleWallet coins with GetDefaultAccount := .error "no default account" }

/-- Coin `A` of the examples: value 100 of asset 77, owned by hash 900. -/
def coinA : UTXOTxInput × Coin :=
  ({ ReferTxID := 1, ReferTxOutputIndex := 0 },
   { Output := { AssetID := 77, Value := 100, ProgramHash := 900 } })

/-- Coin `B` of the examples: value 5 of asset 77, owned by hash 900. -/
def coinB : UTXOTxInput × Coin :=
  ({ ReferTxID := 2, ReferTxOutputIndex := 0 },
   { Output := { AssetID := 77, Value := 5, ProgramHash := 900 } })

/-- A coin of value 1 of asset 77. -/
def coinOne : UTXOTxInput × Coin :=
  ({ ReferTxID := 3, ReferTxOutputIndex := 0 },
   { Output := { AssetID := 77, Value := 1, ProgramHash := 900 } })

/-- A coin of value 20 of asset 77, owned by hash 800. -/
def coinC : UTXOTxInput × Coin :=
  ({ ReferTxID := 4, ReferTxOutputIndex := 1 },
   { Output := { AssetID := 77, Value := 20, ProgramHash := 800 } })

/-- The transfer the sample wallet with the coins `A`, `B` and `C` builds for
`payFifty` and a fee of one unit: it spends all three coins, which have two
owners. -/
def transferTwoOwners : Transaction :=
  { TxType := TransactionType.TransferAsset,
    UTXOInputs := [coinB.1, coinC.1, coinA.1],
    Outputs := [{ AssetID := 77, Value := 49, ProgramHash := 500 },
                { AssetID := 77, Value := 75, ProgramHash := 900 }],
    Attributes := [{ Usage := TransactionAttributeUsage.Nonce, Data := "7" }],
    Programs := [{ Code := [801], Parameter := [[801]] },
                 { Code := [901], Parameter := [[901]] }] }

/-- A configured total fee of one unit. -/
def feeOne : Option ConfigFee := some { isMinusOne := false, formatted := "1" }

/-- A configured total fee of two units. -/
def feeTwo : Option ConfigFee := some { isMinusOne := false, formatted := "2" }

/-- A configured total fee of minus two units. -/
def feeMinusTwo : Option ConfigFee := some { isMinusOne := false, formatted := "-2" }

/-- One payment of 50 to the script hash 500. -/
def payFifty : List BatchOut := [{ Address := "500", Value := "50" }]

/-- Two payments, of 30 and of 20. -/
def payThirtyTwenty : List BatchOut :=
  [{ Address := "500", Value := "30" }, { Address := "501", Value := "20" }]

/-- Two payments whose values, the largest fixed-point value and 1, add up to
`2 ^ 63`. -/
def payTooMuch : List BatchOut :=
  [{ Address := "500", Value := "9223372036854775807" }, { Address := "501", Value := "1" }]

/-- One payment of the value -1. -/
def payMinusOne : List BatchOut := [{ Address := "500", Value := "-1" }]

/-- A payment of 50 followed by a payment of 1. -/
def payFiftyOne : List BatchOut :=
  [{ Address := "500", Value := "50" }, { Address := "501", Value := "1" }]

/-- The nonce attribute of the sample environment. -/
def sampleNonce : TxAttribute := { Usage := TransactionAttributeUsage.Nonce, Data := "7" }

/-- The verification program of the account with program hash 900 in the
sample environment. -/
def sampleProgram : Program := { Code := [901], Parameter := [[901]] }

/-- The transfer the sample wallet with the coins `A` and `B` builds for
`payFifty` and a fee of one unit. -/
def transferFifty : Transaction :=
  { TxType := TransactionType.TransferAsset,
    UTXOInputs := [coinB.1, coinA.1],
    Outputs := [{ AssetID := 77, Value := 49, ProgramHash := 500 },
                { AssetID := 77, Value := 55, ProgramHash := 900 }],
    Attributes := [sampleNonce],
    Programs := [sampleProgram] }

/-- The transfer the sample wallet with the coins `A` and `B` builds for
`payThirtyTwenty` and a fee of one unit per output. -/
def transferThirtyTwenty : Transaction :=
  { TxType := TransactionType.TransferAsset,
    UTXOInputs := [coinB.1, coinA.1],
    Outputs := [{ AssetID := 77, Value := 29, ProgramHash := 500 },
                { AssetID := 77, Value := 19, ProgramHash := 501 },
                { AssetID := 77, Value := 55, ProgramHash := 900 }],
    Attributes := [sampleNonce],
    Programs := [sampleProgram] }

/-- The transaction an empty wallet returns for `payTooMuch` without fee. -/
def transferFromNothing : Transaction :=
  { TxType := TransactionType.TransferAsset,
    UTXOInputs := [],
    Outputs := [{ AssetID := 77, Value := 9223372036854775807, ProgramHash := 500 },
                { AssetID := 77, Value := 1, ProgramHash := 501 }],
    Attributes := [sampleNonce],
    Programs := [] }

/-- The transaction a wallet that holds `coin` alone returns for `payTooMuch`
without fee, with the change `change`. -/
def transferOverdrawn (coin : UTXOTxInput × Coin) (change : Int) : Transaction :=
  { TxType := TransactionType.TransferAsset,
    UTXOInputs := [coin.1],
    Outputs := [{ AssetID := 77, Value := 9223372036854775807, ProgramHash := 500 },
                { AssetID := 77, Value := 1, ProgramHash := 501 },
                { AssetID := 77, Value := change, ProgramHash := 900 }],
    Attributes := [sampleNonce],
    Programs := [sampleProgram] }

/-- The transaction an empty wallet returns for `payMinusOne` and a fee of
minus two units. -/
def transferMinusOne : Transaction :=
  { TxType := TransactionType.TransferAsset,
    UTXOInputs := [],
    Outputs := [{ AssetID := 77, Value := 1, ProgramHash := 500 }],
    Attributes := [sampleNonce],
    Programs := [] }

/-- The sample environment with the second `range` running backwards. -/
def reversedEnv (fee : Option ConfigFee) : Env :=
  { sampleEnv fee with rangeAgain := List.reverse }

/-- The sample environment with a signing service that always fails. -/
def failingSignerEnv (fee : Option ConfigFee) : Env :=
  { sampleEnv fee with SignBySigner := fun _ _ => .error "signing failed" }

/-- An environment whose configured transfer fee is the value `-1`, rendered
`-1.0000`, which the fixed-point reader takes for `-100000000`. -/
def sentinelEnv : Env :=
  { sampleEnv (some { isMinusOne := true, formatted := "-1.0000" }) with
    StringToFixed64 := fun s =>
      if s = "-1.0000" then .ok (-100000000) else .error "invalid syntax" }

/-- The account with program hash 2. -/
def accountX : Account := { ProgramHash := 2, PublicKey := 3 }

/-- A wallet in which every program hash is resolved to the account `X`, whose
own program hash is 2. -/
def aliasWallet (coins : List (UTXOTxInput × Coin)) : Client :=
  { sampleWallet coins with GetAccountByProgramHash := fun _ => some accountX }

/-- A wallet that resolves no program hash. -/
def strangerWallet (coins : List (UTXOTxInput × Coin)) : Client :=
  { sampleWallet coins with GetAccountByProgramHash := fun _ => none }

/-- A coin of value 5 of asset 77, owned by hash 1. -/
def coinP : UTXOTxInput × Coin :=
  ({ ReferTxID := 5, ReferTxOutputIndex := 0 },
   { Output := { AssetID := 77, Value := 5, ProgramHash := 1 } })

/-- A coin of value 100 of asset 77, owned by hash 2. -/
def coinQ : UTXOTxInput × Coin :=
  ({ ReferTxID := 6, ReferTxOutputIndex := 0 },
   { Output := { AssetID := 77, Value := 100, ProgramHash := 2 } })

/-- A second coin of value 100 of asset 77, owned by hash 900. -/
def coinTwin : UTXOTxInput × Coin :=
  ({ ReferTxID := 7, ReferTxOutputIndex := 0 },
   { Output := { AssetID := 77, Value := 100, ProgramHash := 900 } })

/-! ## Fixed-point arithmetic -/

theorem wrap64_of_range {x : Int} (h : IsFixed64 x) : wrap64 x = x := by
  unfold IsFixed64 at h
  unfold wrap64
  have h1 : (x + 2 ^ 63) % 2 ^ 64 = x + 2 ^ 63 := Int.emod_eq_of_lt (by omega) (by omega)
  omega

theorem wrap64_add_wrap64 (a b : Int) : wrap64 (wrap64 a + b) = wrap64 (a + b) := by
  unfold wrap64
  omega

theorem fixedSub_exact {a b : Int} (h1 : 0 ≤ a - b) (h2 : a - b < 2 ^ 63) :
    fixedSub a b = a - b :=
  wrap64_of_range ⟨by omega, h2⟩

/-! ## Sorting is a sorted rearrangement -/

theorem insertLeft_perm {α : Type} (less : α → α → Bool) (x : α) :
    ∀ l : List α, (insertLeft less x l).Perm (x :: l)
  | [] => by simp [insertLeft]
  | p :: ps => by
    unfold insertLeft
    split
    · exact ((insertLeft_perm less x ps).cons p).trans (List.Perm.swap x p ps)
    · exact List.Perm.refl _

theorem foldl_insertLeft_perm {α : Type} (less : α → α → Bool) :
    ∀ (data done : List α),
      (data.foldl (fun done x => insertLeft less x done) done).Perm (data ++ done)
  | [], done => by simp
  | x :: xs, done => by
    simp only [List.foldl_cons]
    refine (foldl_insertLeft_perm less xs _).trans ?_
    refine ((insertLeft_perm less x done).append_left xs).trans ?_
    simp only [List.cons_append]
    exact List.perm_middle

theorem sortSort_perm {α : Type} (less : α → α → Bool) (data : List α) :
    (sortSort less data).Perm data := by
  unfold sortSort
  refine (List.reverse_perm _).trans ?_
  simpa using foldl_insertLeft_perm less data []

/-- Moving an element into a part that descends along a total, transitive
order keeps it descending. -/
theorem insertLeft_pairwise {α : Type} (less : α → α → Bool) (r : α → α → Prop)
    (hno : ∀ a b, less a b = false → r b a) (hyes : ∀ a b, less a b = true → r a b)
    (htrans : ∀ a b c, r a b → r b c → r a c) (x : α) :
    ∀ l : List α, l.Pairwise (fun a b => r b a) →
      (insertLeft less x l).Pairwise (fun a b => r b a)
  | [], _ => by simp [insertLeft]
  | p :: ps, h => by
    unfold insertLeft
    rw [List.pairwise_cons] at h
    cases hl : less x p with
    | true =>
      simp only [if_true]
      rw [List.pairwise_cons]
      refine ⟨?_, insertLeft_pairwise less r hno hyes htrans x ps h.2⟩
      intro b hb
      have hb2 := (insertLeft_perm less x ps).mem_iff.1 hb
      rw [List.mem_cons] at hb2
      rcases hb2 with hb2 | hb2
      · subst hb2 ; exact hyes _ _ hl
      · exact h.1 b hb2
    | false =>
      simp only [Bool.false_eq_true, if_false]
      rw [List.pairwise_cons, List.pairwise_cons]
      refine ⟨?_, h⟩
      intro b hb
      rw [List.mem_cons] at hb
      rcases hb with hb | hb
      · subst hb ; exact hno _ _ hl
      · exact htrans _ _ _ (h.1 b hb) (hno _ _ hl)

theorem sortSort_pairwise {α : Type} (less : α → α → Bool) (r : α → α → Prop)
    (hno : ∀ a b, less a b = false → r b a) (hyes : ∀ a b, less a b = true → r a b)
    (htrans : ∀ a b c, r a b → r b c → r a c) (data : List α) :
    (sortSort less data).Pairwise r := by
  unfold sortSort
  rw [List.pairwise_reverse]
  have key : ∀ (data done : List α), done.Pairwise (fun a b => r b a) →
      (data.foldl (fun done x => insertLeft less x done) done).Pairwise (fun a b => r b a) := by
    intro data
    induction data with
    | nil => intro done h ; simpa using h
    | cons x xs ih =>
      intro done h
      simp only [List.foldl_cons]
      exact ih _ (insertLeft_pairwise less r hno hyes htrans x done h)
  exact key data [] List.Pairwise.nil

/-! ## The output loop -/

theorem parsedValue_of_ok {env : Env} {o : BatchOut} {v : Int}
    (h : env.StringToFixed64 o.Value = .ok v) : parsedValue env o = v := by
  simp [parsedValue, h]

theorem scriptHash_of_ok {env : Env} {o : BatchOut} {h : Uint160}
    (hh : env.ToScriptHash o.Address = .ok h) : scriptHash env o = h := by
  simp [scriptHash, hh]

/-- The output a valid payment gives rise to. -/
theorem outputLoop_valid (env : Env) (assetID : Uint256) (f : Int) :
    ∀ (l : List BatchOut) (expected : Int) (output : List TxOutput),
      (∀ o ∈ l, ValidPayment env f o) →
      outputLoop env assetID f l expected output =
        .ok (l.foldl (fun acc o => fixedAdd acc (parsedValue env o)) expected,
             output ++ paymentOutputs env assetID f l)
  | [], expected, output, _ => by simp [outputLoop, paymentOutputs, pure, Except.pure]
  | o :: rest, expected, output, h => by
    obtain ⟨v, a, hv, hfv, ha⟩ := h o (List.mem_cons_self _ _)
    have hrest : ∀ o ∈ rest, ValidPayment env f o :=
      fun o ho => h o (List.mem_cons_of_mem _ ho)
    have hnot : ¬ v ≤ f := by omega
    unfold outputLoop
    simp only [hv, ha, hnot, if_false]
    rw [outputLoop_valid env assetID f rest _ _ hrest]
    simp [paymentOutputs, parsedValue_of_ok hv, scriptHash_of_ok ha]

/-- A run of the output loop that returns has met valid payments only. -/
theorem outputLoop_ok_valid (env : Env) (assetID : Uint256) (f : Int) :
    ∀ (l : List BatchOut) (expected : Int) (output : List TxOutput)
      (r : Int × List TxOutput),
      outputLoop env assetID f l expected output = .ok r →
      ∀ o ∈ l, ValidPayment env f o
  | [], _, _, _, _ => by simp
  | o :: rest, expected, output, r, h => by
    unfold outputLoop at h
    cases hv : env.StringToFixed64 o.Value with
    | error e => simp [hv, throw, throwThe, MonadExceptOf.throw] at h
    | ok v =>
      simp only [hv] at h
      by_cases hfv : v ≤ f
      · simp [hfv, throw, throwThe, MonadExceptOf.throw] at h
      · simp only [hfv, if_false] at h
        cases ha : env.ToScriptHash o.Address with
        | error e => simp [ha, throw, throwThe, MonadExceptOf.throw] at h
        | ok a =>
          simp only [ha] at h
          intro o2 ho2
          rw [List.mem_cons] at ho2
          rcases ho2 with ho2 | ho2
          · subst ho2
            exact ⟨v, a, hv, by omega, ha⟩
          · exact outputLoop_ok_valid env assetID f rest _ _ r h o2 ho2

/-- The first payment that does not exceed the fee stops the output loop. -/
theorem outputLoop_fee (env : Env) (assetID : Uint256) (f : Int) :
    ∀ (pre : List BatchOut) (bad : BatchOut) (post : List BatchOut) (v : Int)
      (expected : Int) (output : List TxOutput),
      (∀ o ∈ pre, ValidPayment env f o) →
      env.StringToFixed64 bad.Value = .ok v → v ≤ f →
      outputLoop env assetID f (pre ++ bad :: post) expected output =
        .error (Failure.error "token is not enough for transaction fee")
  | [], bad, post, v, expected, output, _, hv, hfv => by
    simp only [List.nil_append]
    unfold outputLoop
    simp [hv, hfv, throw, throwThe, MonadExceptOf.throw]
  | o :: pre, bad, post, v, expected, output, h, hv, hfv => by
    obtain ⟨w, a, hw, hfw, ha⟩ := h o (List.mem_cons_self _ _)
    have hnot : ¬ w ≤ f := by omega
    simp only [List.cons_append]
    unfold outputLoop
    simp only [hw, ha, hnot, if_false]
    exact outputLoop_fee env assetID f pre bad post v _ _
      (fun o ho => h o (List.mem_cons_of_mem _ ho)) hv hfv

/-- Accumulating with wrap-around is the wrap-around of the sum. -/
theorem foldl_fixedAdd (env : Env) :
    ∀ (l : List BatchOut) (e : Int),
      l.foldl (fun acc o => fixedAdd acc (parsedValue env o)) (wrap64 e) =
        wrap64 (e + requestedTotal env l)
  | [], e => by simp [requestedTotal]
  | o :: rest, e => by
    have h := foldl_fixedAdd env rest (e + parsedValue env o)
    simp only [List.foldl_cons]
    rw [show fixedAdd (wrap64 e) (parsedValue env o) = wrap64 (e + parsedValue env o) from
      wrap64_add_wrap64 e (parsedValue env o), h]
    simp [requestedTotal, add_assoc]

theorem wrap64_zero : wrap64 0 = 0 := by decide

/-- Every valid payment for a non-negative fee asks for a positive value, so a
value is at most the total. -/
theorem parsedValue_pos {env : Env} {f : Int} {o : BatchOut} (hf : 0 ≤ f)
    (h : ValidPayment env f o) : 0 < parsedValue env o := by
  obtain ⟨v, a, hv, hfv, _⟩ := h
  rw [parsedValue_of_ok hv]
  omega

theorem requestedTotal_nonneg (env : Env) (f : Int) (hf : 0 ≤ f) :
    ∀ l : List BatchOut, (∀ o ∈ l, ValidPayment env f o) → 0 ≤ requestedTotal env l
  | [], _ => by simp [requestedTotal]
  | o :: rest, h => by
    have h1 := parsedValue_pos hf (h o (List.mem_cons_self _ _))
    have h2 := requestedTotal_nonneg env f hf rest (fun o ho => h o (List.mem_cons_of_mem _ ho))
    simp only [requestedTotal, List.map_cons, List.sum_cons] at h2 ⊢
    omega

theorem parsedValue_le_total (env : Env) (f : Int) (hf : 0 ≤ f) :
    ∀ l : List BatchOut, (∀ o ∈ l, ValidPayment env f o) →
      ∀ o ∈ l, parsedValue env o ≤ requestedTotal env l
  | [], _ => by simp
  | p :: rest, h => by
    intro o ho
    have h1 := parsedValue_pos hf (h p (List.mem_cons_self _ _))
    have hrest : ∀ o ∈ rest, ValidPayment env f o :=
      fun o ho => h o (List.mem_cons_of_mem _ ho)
    have h2 := requestedTotal_nonneg env f hf rest hrest
    simp only [requestedTotal, List.map_cons, List.sum_cons] at h2 ⊢
    rw [List.mem_cons] at ho
    rcases ho with ho | ho
    · subst ho ; omega
    · have h3 := parsedValue_le_total env f hf rest hrest o ho
      simp only [requestedTotal] at h3
      omega

theorem requestedTotal_pos (env : Env) (f : Int) (hf : 0 ≤ f) (l : List BatchOut)
    (hne : l ≠ []) (h : ∀ o ∈ l, ValidPayment env f o) : 0 < requestedTotal env l := by
  cases l with
  | nil => exact absurd rfl hne
  | cons p rest =>
    have h1 := parsedValue_pos hf (h p (List.mem_cons_self _ _))
    have h2 := requestedTotal_nonneg env f hf rest (fun o ho => h o (List.mem_cons_of_mem _ ho))
    simp only [requestedTotal, List.map_cons, List.sum_cons] at h2 ⊢
    omega

/-- Without overflow the payment outputs total the requested values less one
fee each. -/
theorem sum_payment_outputs (env : Env) (assetID : Uint256) (f : Int) :
    ∀ l : List BatchOut, (∀ o ∈ l, fixedSub (parsedValue env o) f = parsedValue env o - f) →
      ((paymentOutputs env assetID f l).map (fun o => o.Value)).sum =
        requestedTotal env l - l.length * f
  | [], _ => by simp [requestedTotal, paymentOutputs]
  | o :: rest, h => by
    have h1 := h o (List.mem_cons_self _ _)
    have h2 := sum_payment_outputs env assetID f rest
      (fun o ho => h o (List.mem_cons_of_mem _ ho))
    simp only [requestedTotal, paymentOutputs, List.map_cons, List.sum_cons, List.length_cons,
      h1] at h2 ⊢
    rw [h2]
    push_cast
    ring

/-! ## The selection loop -/

theorem coinTotal_nil : coinTotal [] = 0 := rfl

theorem coinTotal_cons (c : sortedCoinsItem) (l : List sortedCoinsItem) :
    coinTotal (c :: l) = c.coin.Output.Value + coinTotal l := by
  simp [coinTotal]

/-- Coins of another asset do not move the selection loop. -/
theorem coinLoop_filter (assetID : Uint256) (mainAccount : Account) :
    ∀ (l : List sortedCoinsItem) (s : Selection),
      coinLoop assetID mainAccount l s =
        coinLoop assetID mainAccount
          (l.filter (fun c => decide (c.coin.Output.AssetID = assetID))) s
  | [], s => by simp
  | c :: rest, s => by
    by_cases hc : c.coin.Output.AssetID = assetID
    · rw [List.filter_cons_of_pos (by simpa using hc)]
      unfold coinLoop
      simp only [hc, if_true]
      rw [coinLoop_filter assetID mainAccount rest, coinLoop_filter assetID mainAccount rest]
    · rw [List.filter_cons_of_neg (by simpa using hc)]
      conv => lhs ; unfold coinLoop
      simp only [hc, if_false]
      exact coinLoop_filter assetID mainAccount rest s

/-- The inputs of the selection loop are taken from the front of the coins of
the asset, and at most one output, a change to the main account, is added. -/
theorem coinLoop_shape (assetID : Uint256) (mainAccount : Account) :
    ∀ (l : List sortedCoinsItem) (s : Selection),
      (∀ c ∈ l, c.coin.Output.AssetID = assetID) →
      ∃ k, k ≤ l.length ∧
        (coinLoop assetID mainAccount l s).input = s.input ++ (l.take k).map (fun c => c.input) ∧
        ((coinLoop assetID mainAccount l s).output = s.output ∨
          ∃ v, (coinLoop assetID mainAccount l s).output =
            s.output ++ [{ AssetID := assetID, Value := v,
                           ProgramHash := mainAccount.ProgramHash }])
  | [], s, _ => ⟨0, by simp [coinLoop]⟩
  | c :: rest, s, h => by
    have hc := h c (List.mem_cons_self _ _)
    have hrest : ∀ c ∈ rest, c.coin.Output.AssetID = assetID :=
      fun c hc => h c (List.mem_cons_of_mem _ hc)
    unfold coinLoop
    simp only [hc, if_true]
    split
    · exact ⟨1, by simp, by simp, Or.inr ⟨_, rfl⟩⟩
    · split
      · exact ⟨1, by simp, by simp, Or.inl rfl⟩
      · split
        · obtain ⟨k, hk, hin, hout⟩ := coinLoop_shape assetID mainAccount rest
            { input := s.input ++ [c.input], output := s.output,
              transferred := fixedAdd s.transferred c.coin.Output.Value,
              expected := fixedSub s.expected c.coin.Output.Value } hrest
          exact ⟨k + 1, by simpa using hk, by simpa using hin, hout⟩
        · obtain ⟨k, hk, hin, hout⟩ := coinLoop_shape assetID mainAccount rest
            { s with input := s.input ++ [c.input] } hrest
          exact ⟨k + 1, by simpa using hk, by simpa using hin, hout⟩

/-- The selection loop on non-negative coins and a positive requirement, in
exact arithmetic: it stops at the first coin whose cumulative value reaches
the requirement. -/
theorem coinLoop_exact (assetID : Uint256) (mainAccount : Account) :
    ∀ (l : List sortedCoinsItem) (s : Selection),
      (∀ c ∈ l, c.coin.Output.AssetID = assetID ∧ 0 ≤ c.coin.Output.Value ∧
        c.coin.Output.Value < 2 ^ 63) →
      0 < s.expected → s.expected < 2 ^ 63 →
      ∃ k, k ≤ l.length ∧
        (coinLoop assetID mainAccount l s).input = s.input ++ (l.take k).map (fun c => c.input) ∧
        (∀ j, j < k → coinTotal (l.take j) < s.expected) ∧
        ((s.expected < coinTotal (l.take k) ∧
            (coinLoop assetID mainAccount l s).expected = 0 ∧
            (coinLoop assetID mainAccount l s).output =
              s.output ++ [{ AssetID := assetID,
                             Value := coinTotal (l.take k) - s.expected,
                             ProgramHash := mainAccount.ProgramHash }]) ∨
         (coinTotal (l.take k) = s.expected ∧
            (coinLoop assetID mainAccount l s).expected = 0 ∧
            (coinLoop assetID mainAccount l s).output = s.output) ∨
         (k = l.length ∧ coinTotal l < s.expected ∧
            (coinLoop assetID mainAccount l s).expected = s.expected - coinTotal l ∧
            (coinLoop assetID mainAccount l s).output = s.output))
  | [], s, _, hpos, _ => by
    refine ⟨0, le_refl _, by simp [coinLoop], fun j hj => absurd hj (Nat.not_lt_zero j), ?_⟩
    exact Or.inr (Or.inr ⟨rfl, by simpa [coinTotal] using hpos, by simp [coinLoop, coinTotal],
      by simp [coinLoop]⟩)
  | c :: rest, s, h, hpos, hlt => by
    obtain ⟨hc, hc0, hc1⟩ := h c (List.mem_cons_self _ _)
    have hrest : ∀ c ∈ rest, c.coin.Output.AssetID = assetID ∧ 0 ≤ c.coin.Output.Value ∧
        c.coin.Output.Value < 2 ^ 63 := fun c hc => h c (List.mem_cons_of_mem _ hc)
    have hzero : ∀ j, j < 1 → coinTotal ((c :: rest).take j) < s.expected := by
      intro j hj
      have : j = 0 := by omega
      subst this
      simpa [coinTotal] using hpos
    unfold coinLoop
    simp only [hc, if_true]
    by_cases hgt : c.coin.Output.Value > s.expected
    · simp only [hgt, if_true]
      have hx : fixedSub c.coin.Output.Value s.expected = c.coin.Output.Value - s.expected :=
        fixedSub_exact (by omega) (by omega)
      refine ⟨1, by simp, by simp, hzero, Or.inl ⟨?_, ?_, ?_⟩⟩
      · simpa [coinTotal] using hgt
      · simp
      · simp [coinTotal, hx]
    · simp only [hgt, if_false]
      by_cases heq : c.coin.Output.Value = s.expected
      · simp only [heq, if_true]
        refine ⟨1, by simp, by simp, hzero, Or.inr (Or.inl ⟨?_, ?_, ?_⟩)⟩
        · simpa [coinTotal] using heq
        · simp
        · simp
      · simp only [heq, if_false]
        have hless : c.coin.Output.Value < s.expected := by omega
        simp only [hless, if_true]
        have hx : fixedSub s.expected c.coin.Output.Value = s.expected - c.coin.Output.Value :=
          fixedSub_exact (by omega) (by omega)
        simp only [hx]
        obtain ⟨k, hk, hin, hpre, hcase⟩ := coinLoop_exact assetID mainAccount rest
          { input := s.input ++ [c.input], output := s.output,
            transferred := fixedAdd s.transferred c.coin.Output.Value,
            expected := s.expected - c.coin.Output.Value } hrest
          (by simp only ; omega) (by simp only ; omega)
        simp only at hpre hcase
        refine ⟨k + 1, by simpa using hk, by simpa using hin, ?_, ?_⟩
        · intro j hj
          cases j with
          | zero => simpa [coinTotal] using hpos
          | succ i =>
            have := hpre i (by omega)
            rw [List.take_succ_cons, coinTotal_cons]
            omega
        · rw [List.take_succ_cons, coinTotal_cons, coinTotal_cons]
          rcases hcase with ⟨h1, h2, h3⟩ | ⟨h1, h2, h3⟩ | ⟨h1, h2, h3, h4⟩
          · refine Or.inl ⟨by omega, h2, ?_⟩
            rw [h3]
            congr 3
            omega
          · exact Or.inr (Or.inl ⟨by omega, h2, h3⟩)
          · refine Or.inr (Or.inr ⟨by simp [h1], by omega, ?_, h4⟩)
            rw [h3]
            omega

/-! ## The stages of a transfer -/

/-- Once the default account, the fee and the payment outputs are there, the
transfer is decided by the selection loop and the signing. -/
theorem MakeTransferTransaction_stages {env : Env} {wallet : Client} {assetID : Uint256}
    {batchOut : List BatchOut} {mainAccount : Account} {f expected : Int}
    {output : List TxOutput} (hne : batchOut ≠ [])
    (hmain : wallet.GetDefaultAccount = .ok mainAccount)
    (hfee : getTransferTxnPerOutputFee env batchOut.length = .ok f)
    (hout : outputLoop env assetID f batchOut 0 [] = .ok (expected, output)) :
    MakeTransferTransaction env wallet assetID batchOut =
      (if (selection wallet assetID mainAccount expected output).expected > 0 then
        .error (Failure.error "token is not enough")
      else
        match env.newTransferError (selection wallet assetID mainAccount expected output).input
          (selection wallet assetID mainAccount expected output).output with
        | some e => .error (Failure.error e)
        | none =>
          match signerAccounts env wallet
            (selection wallet assetID mainAccount expected output).input with
          | .error err => .error err
          | .ok accounts =>
            match signingContext env
              (unsignedTransfer env (selection wallet assetID mainAccount expected output))
              accounts with
            | .error err => .error err
            | .ok ctx =>
              .ok { unsignedTransfer env (selection wallet assetID mainAccount expected output)
                    with Programs := ctx.GetPrograms }) := by
  have hlen : batchOut.length ≠ 0 := by simpa using hne
  unfold MakeTransferTransaction
  simp only [hlen, hmain, hfee, hout, if_false, bind, Except.bind, pure, Except.pure]
  unfold selection
  split
  · rfl
  · unfold NewTransferAssetTransaction
    cases env.newTransferError _ _ with
    | some e => rfl
    | none =>
      simp only [unsignedTransfer, List.nil_append]
      generalize signerAccounts env wallet _ = r
      cases r with
      | error err => rfl
      | ok accounts =>
        simp only
        generalize signingContext env _ accounts = c
        cases c with
        | error err => rfl
        | ok ctx => rfl

/-- What a transfer that returns a transaction has gone through. -/
theorem MakeTransferTransaction_ok {env : Env} {wallet : Client} {assetID : Uint256}
    {batchOut : List BatchOut} {txn : Transaction}
    (h : MakeTransferTransaction env wallet assetID batchOut = .ok txn) :
    batchOut ≠ [] ∧ ∃ mainAccount f expected output accounts ctx,
      wallet.GetDefaultAccount = .ok mainAccount ∧
      getTransferTxnPerOutputFee env batchOut.length = .ok f ∧
      outputLoop env assetID f batchOut 0 [] = .ok (expected, output) ∧
      (selection wallet assetID mainAccount expected output).expected ≤ 0 ∧
      signerAccounts env wallet (selection wallet assetID mainAccount expected output).input =
        .ok accounts ∧
      signingContext env
        (unsignedTransfer env (selection wallet assetID mainAccount expected output))
        accounts = .ok ctx ∧
      txn = { unsignedTransfer env (selection wallet assetID mainAccount expected output)
              with Programs := ctx.GetPrograms } := by
  have hne : batchOut ≠ [] := by
    intro hnil
    subst hnil
    simp [MakeTransferTransaction, throw, throwThe, MonadExceptOf.throw, bind, Except.bind] at h
  refine ⟨hne, ?_⟩
  have hlen : batchOut.length ≠ 0 := by simpa using hne
  cases hmain : wallet.GetDefaultAccount with
  | error e =>
    simp [MakeTransferTransaction, hlen, hmain, throw, throwThe, MonadExceptOf.throw, bind,
      Except.bind, pure, Except.pure] at h
  | ok mainAccount =>
    cases hfee : getTransferTxnPerOutputFee env batchOut.length with
    | error e =>
      simp [MakeTransferTransaction, hlen, hmain, hfee, bind, Except.bind, pure, Except.pure] at h
    | ok f =>
      cases hout : outputLoop env assetID f batchOut 0 [] with
      | error e =>
        simp [MakeTransferTransaction, hlen, hmain, hfee, hout, bind, Except.bind, pure,
          Except.pure] at h
      | ok r =>
        obtain ⟨expected, output⟩ := r
        rw [MakeTransferTransaction_stages hne hmain hfee hout] at h
        refine ⟨mainAccount, f, expected, output, ?_⟩
        split at h
        · cases h
        · rename_i hexp
          cases hnew : env.newTransferError
              (selection wallet assetID mainAccount expected output).input
              (selection wallet assetID mainAccount expected output).output with
          | some e => simp [hnew] at h
          | none =>
            simp only [hnew] at h
            cases hacc : signerAccounts env wallet
                (selection wallet assetID mainAccount expected output).input with
            | error e => simp [hacc] at h
            | ok accounts =>
              simp only [hacc] at h
              cases hctx : signingContext env
                  (unsignedTransfer env (selection wallet assetID mainAccount expected output))
                  accounts with
              | error e => simp [hctx] at h
              | ok ctx =>
                simp only [hctx] at h
                refine ⟨accounts, ctx, rfl, rfl, hout, by omega, rfl, ?_, ?_⟩
                · exact hctx
                · cases h
                  rfl

/-! ## The sorted coins -/

theorem foldl_append_singleton {α β : Type} (g : α → β) :
    ∀ (l : List α) (acc : List β),
      l.foldl (fun acc e => acc ++ [g e]) acc = acc ++ l.map g
  | [], acc => by simp
  | x :: xs, acc => by
    simp only [List.foldl_cons, List.map_cons]
    rw [foldl_append_singleton g xs]
    simp

theorem sortCoinsByValue_perm (coins : List (UTXOTxInput × Coin)) :
    (sortCoinsByValue coins).Perm
      (coins.map (fun e => ({ input := e.1, coin := e.2 } : sortedCoinsItem))) := by
  unfold sortCoinsByValue
  have h := foldl_append_singleton
    (fun e : UTXOTxInput × Coin => ({ input := e.1, coin := e.2 } : sortedCoinsItem)) coins []
  simp only [List.nil_append] at h
  simp only [h]
  exact sortSort_perm _ _

theorem mem_sortCoinsByValue {coins : List (UTXOTxInput × Coin)} {c : sortedCoinsItem} :
    c ∈ sortCoinsByValue coins ↔ (c.input, c.coin) ∈ coins := by
  rw [(sortCoinsByValue_perm coins).mem_iff, List.mem_map]
  constructor
  · rintro ⟨e, he, rfl⟩
    exact he
  · intro h
    exact ⟨(c.input, c.coin), h, rfl⟩

/-- The coins leave `sortCoinsByValue` in non-decreasing order of value. -/
theorem sortCoinsByValue_sorted (coins : List (UTXOTxInput × Coin)) :
    (sortCoinsByValue coins).Pairwise
      (fun a b => a.coin.Output.Value ≤ b.coin.Output.Value) := by
  unfold sortCoinsByValue
  apply sortSort_pairwise sortedCoins.Less
  · intro a b h
    unfold sortedCoins.Less at h
    by_cases hab : a.coin.Output.Value > b.coin.Output.Value
    · omega
    · simp [hab] at h
  · intro a b h
    unfold sortedCoins.Less at h
    by_cases hab : a.coin.Output.Value > b.coin.Output.Value
    · simp [hab] at h
    · omega
  · intro a b c hab hbc
    omega

theorem mem_assetCoins {wallet : Client} {assetID : Uint256} {c : sortedCoinsItem} :
    c ∈ assetCoins wallet assetID ↔
      (c.input, c.coin) ∈ wallet.GetCoins ∧ c.coin.Output.AssetID = assetID := by
  unfold assetCoins
  rw [List.mem_filter, mem_sortCoinsByValue]
  simp

theorem assetCoins_sorted (wallet : Client) (assetID : Uint256) :
    (assetCoins wallet assetID).Pairwise
      (fun a b => a.coin.Output.Value ≤ b.coin.Output.Value) :=
  (sortCoinsByValue_sorted wallet.GetCoins).sublist (List.filter_sublist _)

theorem selection_eq (wallet : Client) (assetID : Uint256) (mainAccount : Account)
    (expected : Int) (output : List TxOutput) :
    selection wallet assetID mainAccount expected output =
      coinLoop assetID mainAccount (assetCoins wallet assetID)
        { input := [], output := output, transferred := 0, expected := expected } := by
  unfold selection assetCoins
  exact coinLoop_filter _ _ _ _

theorem take_of_map_take {α β : Type} (g : α → β) (l : List α) (k : Nat) (hk : k ≤ l.length)
    (inputs : List β) (h : inputs = (l.take k).map g) : l.take inputs.length = l.take k := by
  subst h
  simp [Nat.min_eq_left hk]

/-- The shape of a transfer that returns a transaction, whatever the values:
the payments are valid, the inputs belong to the coins at the front of
`assetCoins`, and the outputs are the payment outputs, followed by at most one
output to the main account. -/
theorem transfer_shape {env : Env} {wallet : Client} {assetID : Uint256}
    {batchOut : List BatchOut} {txn : Transaction}
    (h : MakeTransferTransaction env wallet assetID batchOut = .ok txn) :
    batchOut ≠ [] ∧ ∃ mainAccount f,
      wallet.GetDefaultAccount = .ok mainAccount ∧
      getTransferTxnPerOutputFee env batchOut.length = .ok f ∧
      (∀ o ∈ batchOut, ValidPayment env f o) ∧
      txn.UTXOInputs = (selectedCoins wallet assetID txn).map (fun c => c.input) ∧
      (txn.Outputs = paymentOutputs env assetID f batchOut ∨
        ∃ v, txn.Outputs = paymentOutputs env assetID f batchOut ++
          [{ AssetID := assetID, Value := v, ProgramHash := mainAccount.ProgramHash }]) := by
  obtain ⟨hne, mainAccount, f, expected, output, accounts, ctx, hmain, hfee, hout, _, _, _, htxn⟩ :=
    MakeTransferTransaction_ok h
  have hvalid := outputLoop_ok_valid env assetID f batchOut 0 [] _ hout
  rw [outputLoop_valid env assetID f batchOut 0 [] hvalid] at hout
  simp only [List.nil_append, Except.ok.injEq, Prod.mk.injEq] at hout
  obtain ⟨hexp, hpay⟩ := hout
  obtain ⟨k, hk, hin, hcase⟩ := coinLoop_shape assetID mainAccount (assetCoins wallet assetID)
    { input := [], output := output, transferred := 0, expected := expected }
    (fun c hc => (mem_assetCoins.1 hc).2)
  rw [← selection_eq] at hin hcase
  simp only [List.nil_append] at hin
  have hI : txn.UTXOInputs = (selection wallet assetID mainAccount expected output).input := by
    rw [htxn] ; rfl
  have hO : txn.Outputs = (selection wallet assetID mainAccount expected output).output := by
    rw [htxn] ; rfl
  refine ⟨hne, mainAccount, f, hmain, hfee, hvalid, ?_, ?_⟩
  · unfold selectedCoins
    rw [take_of_map_take _ _ k hk _ (hI.trans hin)]
    exact hI.trans hin
  · rw [hO, hpay]
    exact hcase

/-- The requirement handed to the selection loop is the total of the requested
values as long as that total is a fixed-point value. -/
theorem expected_exact (env : Env) (l : List BatchOut) (h0 : 0 ≤ requestedTotal env l)
    (h1 : requestedTotal env l < 2 ^ 63) :
    l.foldl (fun acc o => fixedAdd acc (parsedValue env o)) 0 = requestedTotal env l := by
  have h := foldl_fixedAdd env l 0
  rw [wrap64_zero, zero_add] at h
  rw [h]
  exact wrap64_of_range ⟨by omega, h1⟩

/-- The transfer in exact arithmetic. With a non-negative fee, a requested
total below `2 ^ 63` and coins of the asset whose values lie in
`[0, 2 ^ 63)`, a transfer that returns a transaction has stopped at the first
coin whose cumulative value reaches the requested total, and it has added a
change output exactly when that coin overshoots the total. -/
theorem transfer_exact {env : Env} {wallet : Client} {assetID : Uint256}
    {batchOut : List BatchOut} {txn : Transaction} {f : Int}
    (h : MakeTransferTransaction env wallet assetID batchOut = .ok txn)
    (hfee : getTransferTxnPerOutputFee env batchOut.length = .ok f)
    (hf0 : 0 ≤ f)
    (hsum : requestedTotal env batchOut < 2 ^ 63)
    (hcoins : ∀ e ∈ wallet.GetCoins, e.2.Output.AssetID = assetID →
      0 ≤ e.2.Output.Value ∧ e.2.Output.Value < 2 ^ 63) :
    ∃ mainAccount,
      wallet.GetDefaultAccount = .ok mainAccount ∧
      (∀ o ∈ batchOut, ValidPayment env f o) ∧
      0 < requestedTotal env batchOut ∧
      txn.UTXOInputs = (selectedCoins wallet assetID txn).map (fun c => c.input) ∧
      (∀ j, j < (selectedCoins wallet assetID txn).length →
        coinTotal ((selectedCoins wallet assetID txn).take j) < requestedTotal env batchOut) ∧
      ((paymentOutputs env assetID f batchOut).map (fun o => o.Value)).sum =
        requestedTotal env batchOut - batchOut.length * f ∧
      ((requestedTotal env batchOut < coinTotal (selectedCoins wallet assetID txn) ∧
          txn.Outputs = paymentOutputs env assetID f batchOut ++
            [{ AssetID := assetID,
               Value := coinTotal (selectedCoins wallet assetID txn) - requestedTotal env batchOut,
               ProgramHash := mainAccount.ProgramHash }]) ∨
        (coinTotal (selectedCoins wallet assetID txn) = requestedTotal env batchOut ∧
          txn.Outputs = paymentOutputs env assetID f batchOut)) := by
  obtain ⟨hne, mainAccount, f2, expected, output, accounts, ctx, hmain, hfee2, hout, hexp, _, _,
    htxn⟩ := MakeTransferTransaction_ok h
  have hff : f2 = f := by
    rw [hfee] at hfee2
    cases hfee2
    rfl
  subst hff
  have hvalid := outputLoop_ok_valid env assetID f2 batchOut 0 [] _ hout
  have hpos := requestedTotal_pos env f2 hf0 batchOut hne hvalid
  rw [outputLoop_valid env assetID f2 batchOut 0 [] hvalid] at hout
  simp only [List.nil_append, Except.ok.injEq, Prod.mk.injEq] at hout
  obtain ⟨hE, hpay⟩ := hout
  rw [expected_exact env batchOut (by omega) hsum] at hE
  subst hE
  subst hpay
  have hI : txn.UTXOInputs =
      (selection wallet assetID mainAccount (requestedTotal env batchOut)
        (paymentOutputs env assetID f2 batchOut)).input := by
    rw [htxn] ; rfl
  have hO : txn.Outputs =
      (selection wallet assetID mainAccount (requestedTotal env batchOut)
        (paymentOutputs env assetID f2 batchOut)).output := by
    rw [htxn] ; rfl
  obtain ⟨k, hk, hin, hpre, hcase⟩ := coinLoop_exact assetID mainAccount
    (assetCoins wallet assetID)
    { input := [], output := paymentOutputs env assetID f2 batchOut, transferred := 0,
      expected := requestedTotal env batchOut }
    (fun c hc => by
      obtain ⟨hm, ha⟩ := mem_assetCoins.1 hc
      exact ⟨ha, hcoins _ hm ha⟩)
    hpos hsum
  rw [← selection_eq] at hin hcase
  simp only [List.nil_append] at hin hpre hcase
  have hsel : selectedCoins wallet assetID txn = (assetCoins wallet assetID).take k := by
    unfold selectedCoins
    exact take_of_map_take _ _ k hk _ (hI.trans hin)
  have hexact : ∀ o ∈ batchOut, fixedSub (parsedValue env o) f2 = parsedValue env o - f2 := by
    intro o ho
    have h1 := parsedValue_le_total env f2 hf0 batchOut hvalid o ho
    obtain ⟨v, a, hv, hfv, _⟩ := hvalid o ho
    rw [parsedValue_of_ok hv] at h1 ⊢
    exact fixedSub_exact (by omega) (by omega)
  refine ⟨mainAccount, hmain, hvalid, hpos, ?_, ?_, sum_payment_outputs env assetID f2 batchOut hexact,
    ?_⟩
  · rw [hsel]
    exact hI.trans hin
  · intro j hj
    rw [hsel] at hj ⊢
    have hjk : j < k := by
      rw [List.length_take] at hj
      omega
    rw [List.take_take, Nat.min_eq_left (le_of_lt hjk)]
    exact hpre j hjk
  · rw [hsel, hO]
    rcases hcase with ⟨h1, _, h3⟩ | ⟨h1, _, h3⟩ | ⟨_, _, h3, _⟩
    · exact Or.inl ⟨h1, h3⟩
    · exact Or.inr ⟨h1, h3⟩
    · omega

/-! ## Totals -/

theorem coinTotal_assetCoins (wallet : Client) (assetID : Uint256) :
    coinTotal (assetCoins wallet assetID) = walletTotal wallet assetID := by
  unfold coinTotal assetCoins walletTotal
  have h1 := (sortCoinsByValue_perm wallet.GetCoins).filter
    (fun c => decide (c.coin.Output.AssetID = assetID))
  have h2 := (h1.map (fun c => c.coin.Output.Value)).sum_eq
  rw [h2, List.filter_map, List.map_map]
  rfl

theorem coinTotal_take_le :
    ∀ (l : List sortedCoinsItem) (k : Nat), (∀ c ∈ l, 0 ≤ c.coin.Output.Value) →
      0 ≤ coinTotal (l.take k) ∧ coinTotal (l.take k) ≤ coinTotal l
  | [], k, _ => by simp [coinTotal]
  | c :: rest, 0, h => by
    have h1 := h c (List.mem_cons_self _ _)
    have h2 := coinTotal_take_le rest rest.length (fun c hc => h c (List.mem_cons_of_mem _ hc))
    simp only [List.take_length] at h2
    simp only [List.take_zero, coinTotal_nil, coinTotal_cons]
    omega
  | c :: rest, k + 1, h => by
    have h1 := h c (List.mem_cons_self _ _)
    have h2 := coinTotal_take_le rest k (fun c hc => h c (List.mem_cons_of_mem _ hc))
    simp only [List.take_succ_cons, coinTotal_cons]
    omega

theorem coin_le_coinTotal :
    ∀ (l : List sortedCoinsItem), (∀ c ∈ l, 0 ≤ c.coin.Output.Value) →
      ∀ c ∈ l, c.coin.Output.Value ≤ coinTotal l
  | [], _ => by simp
  | d :: rest, h => by
    intro c hc
    have h1 := h d (List.mem_cons_self _ _)
    have hrest : ∀ c ∈ rest, 0 ≤ c.coin.Output.Value :=
      fun c hc => h c (List.mem_cons_of_mem _ hc)
    have h2 := (coinTotal_take_le rest 0 hrest)
    simp only [List.take_zero, coinTotal_nil] at h2
    rw [coinTotal_cons]
    rw [List.mem_cons] at hc
    rcases hc with hc | hc
    · subst hc ; omega
    · have := coin_le_coinTotal rest hrest c hc
      omega

theorem outputTotal_eq (txn : Transaction) (l : List TxOutput) (h : txn.Outputs = l) :
    outputTotal txn = (l.map (fun o => o.Value)).sum := by
  unfold outputTotal
  rw [h]

/-! ## The claims -/

/-- C1, amended. For every call of MakeTransferTransaction that returns a
transaction, with a non-negative per-output fee `f`, a requested total below
`2 ^ 63` (no fixed-point overflow) and wallet coins of the asset with values in
`[0, 2 ^ 63)`, the inputs are the references of the selected coins and the sum
of all output values plus `n * f` equals, as integers, the sum of the values of
the selected coins. -/
theorem transfer_conserves_value (env : Env) (wallet : Client) (assetID : Uint256)
    (batchOut : List BatchOut) (txn : Transaction) (f : Int)
    (h : MakeTransferTransaction env wallet assetID batchOut = .ok txn)
    (hfee : getTransferTxnPerOutputFee env batchOut.length = .ok f)
    (hf0 : 0 ≤ f)
    (hsum : requestedTotal env batchOut < 2 ^ 63)
    (hcoins : ∀ e ∈ wallet.GetCoins, e.2.Output.AssetID = assetID →
      0 ≤ e.2.Output.Value ∧ e.2.Output.Value < 2 ^ 63) :
    txn.UTXOInputs = (selectedCoins wallet assetID txn).map (fun c => c.input) ∧
    outputTotal txn + batchOut.length * f = coinTotal (selectedCoins wallet assetID txn) := by
  obtain ⟨mainAccount, _, _, _, hin, _, hpay, hcase⟩ :=
    transfer_exact h hfee hf0 hsum hcoins
  refine ⟨hin, ?_⟩
  rcases hcase with ⟨_, hO⟩ | ⟨heq, hO⟩
  · rw [outputTotal_eq txn _ hO, List.map_append, List.sum_append, hpay]
    simp
  · rw [outputTotal_eq txn _ hO, hpay, heq]
    ring

/-- C2, amended. When the wallet has a default account, the fee is `f`, every
payment is valid for `f`, the requested total is below `2 ^ 63` (no fixed-point
overflow), the wallet coins of the asset have non-negative values and the
requested total exceeds their total value, MakeTransferTransaction returns the
error "token is not enough". -/
theorem transfer_insufficient_funds (env : Env) (wallet : Client) (assetID : Uint256)
    (batchOut : List BatchOut) (mainAccount : Account) (f : Int)
    (hmain : wallet.GetDefaultAccount = .ok mainAccount)
    (hfee : getTransferTxnPerOutputFee env batchOut.length = .ok f)
    (hvalid : ∀ o ∈ batchOut, ValidPayment env f o)
    (hsum : requestedTotal env batchOut < 2 ^ 63)
    (hcoins : ∀ e ∈ wallet.GetCoins, e.2.Output.AssetID = assetID → 0 ≤ e.2.Output.Value)
    (hshort : walletTotal wallet assetID < requestedTotal env batchOut) :
    MakeTransferTransaction env wallet assetID batchOut =
      .error (Failure.error "token is not enough") := by
  have hnonneg : ∀ c ∈ assetCoins wallet assetID, 0 ≤ c.coin.Output.Value := by
    intro c hc
    obtain ⟨hm, ha⟩ := mem_assetCoins.1 hc
    exact hcoins _ hm ha
  rw [← coinTotal_assetCoins] at hshort
  have htot := coinTotal_take_le (assetCoins wallet assetID) 0 hnonneg
  simp only [List.take_zero, coinTotal_nil] at htot
  have hne : batchOut ≠ [] := by
    intro hnil
    subst hnil
    simp only [requestedTotal, List.map_nil, List.sum_nil] at hshort
    omega
  have hout := outputLoop_valid env assetID f batchOut 0 [] hvalid
  rw [expected_exact env batchOut (by omega) hsum, List.nil_append] at hout
  rw [MakeTransferTransaction_stages hne hmain hfee hout, selection_eq]
  obtain ⟨k, _, _, _, hcase⟩ := coinLoop_exact assetID mainAccount
    (assetCoins wallet assetID)
    { input := [], output := paymentOutputs env assetID f batchOut, transferred := 0,
      expected := requestedTotal env batchOut }
    (fun c hc => by
      have h1 := coin_le_coinTotal _ hnonneg c hc
      exact ⟨(mem_assetCoins.1 hc).2, hnonneg c hc, by omega⟩)
    (by simp only ; omega) hsum
  have hk := coinTotal_take_le (assetCoins wallet assetID) k hnonneg
  simp only at hcase
  rcases hcase with ⟨h1, _, _⟩ | ⟨h1, _, _⟩ | ⟨_, _, h3, _⟩
  · omega
  · omega
  · rw [if_pos (by rw [h3] ; omega)]

/-- C3, amended. When the wallet has a default account and the fee is `f`, a
request that holds a payment whose parsed value is at most `f`, all payments
before it being valid, makes MakeTransferTransaction return the error "token is
not enough for transaction fee", whatever coins the wallet holds. -/
theorem transfer_fee_exceeds_amount (env : Env) (wallet : Client) (assetID : Uint256)
    (pre : List BatchOut) (bad : BatchOut) (post : List BatchOut) (mainAccount : Account)
    (f v : Int)
    (hmain : wallet.GetDefaultAccount = .ok mainAccount)
    (hfee : getTransferTxnPerOutputFee env (pre ++ bad :: post).length = .ok f)
    (hpre : ∀ o ∈ pre, ValidPayment env f o)
    (hv : env.StringToFixed64 bad.Value = .ok v)
    (hle : v ≤ f) :
    MakeTransferTransaction env wallet assetID (pre ++ bad :: post) =
      .error (Failure.error "token is not enough for transaction fee") := by
  have hlen : (pre ++ bad :: post).length ≠ 0 := by simp
  unfold MakeTransferTransaction
  simp only [hlen, hmain, hfee, if_false, bind, Except.bind, pure, Except.pure,
    outputLoop_fee env assetID f pre bad post v 0 [] hpre hv hle]

/-- C4. In a transfer that returns a transaction for `n` payments and the fee
`f`, the first `n` outputs answer the payments one to one and in request order:
output `i` carries the asset, the script hash decoded from the address of
payment `i`, and the fixed-point difference of the parsed value of payment `i`
and `f`, which is their difference as integers when `f` is non-negative and
the value is below `2 ^ 63`. -/
theorem transfer_payment_outputs (env : Env) (wallet : Client) (assetID : Uint256)
    (batchOut : List BatchOut) (txn : Transaction) (f : Int)
    (h : MakeTransferTransaction env wallet assetID batchOut = .ok txn)
    (hfee : getTransferTxnPerOutputFee env batchOut.length = .ok f) :
    batchOut.length ≤ txn.Outputs.length ∧
    ∀ (i : Nat) (o : BatchOut), batchOut[i]? = some o →
      ∃ v hash, env.StringToFixed64 o.Value = .ok v ∧ env.ToScriptHash o.Address = .ok hash ∧
        f < v ∧
        txn.Outputs[i]? =
          some { AssetID := assetID, Value := fixedSub v f, ProgramHash := hash } ∧
        (0 ≤ f → v < 2 ^ 63 → fixedSub v f = v - f) := by
  obtain ⟨_, mainAccount, f2, _, hfee2, hvalid, _, hout⟩ := transfer_shape h
  have hff : f2 = f := by
    rw [hfee] at hfee2
    cases hfee2
    rfl
  subst hff
  have hpre : ∃ tail, txn.Outputs = paymentOutputs env assetID f2 batchOut ++ tail := by
    rcases hout with hout | ⟨v, hout⟩
    · exact ⟨[], by simpa using hout⟩
    · exact ⟨_, hout⟩
  obtain ⟨tail, htail⟩ := hpre
  have hlen : (paymentOutputs env assetID f2 batchOut).length = batchOut.length := by
    simp [paymentOutputs]
  refine ⟨by rw [htail, List.length_append, hlen] ; omega, ?_⟩
  intro i o hio
  have hi : i < batchOut.length := (List.getElem?_eq_some.1 hio).1
  obtain ⟨v, hash, hv, hfv, hh⟩ := hvalid o (List.getElem?_mem hio)
  refine ⟨v, hash, hv, hh, hfv, ?_, fun h0 h1 => fixedSub_exact (by omega) (by omega)⟩
  rw [htail, List.getElem?_append_left (by rw [hlen] ; exact hi)]
  simp [paymentOutputs, hio, parsedValue_of_ok hv, scriptHash_of_ok hh]

/-- C5, amended. In a transfer that returns a transaction for `n` payments,
with a non-negative per-output fee, a requested total below `2 ^ 63` (no
fixed-point overflow) and wallet coins of the asset with values in
`[0, 2 ^ 63)`, the outputs have length `n` or `n + 1`; the length is `n + 1`
exactly when the total value of the selected coins exceeds the requested
total, and then the last output pays the program hash of the default account,
carries the asset and has the value (selected total) - (requested total). -/
theorem transfer_change_output (env : Env) (wallet : Client) (assetID : Uint256)
    (batchOut : List BatchOut) (txn : Transaction) (mainAccount : Account) (f : Int)
    (h : MakeTransferTransaction env wallet assetID batchOut = .ok txn)
    (hmain : wallet.GetDefaultAccount = .ok mainAccount)
    (hfee : getTransferTxnPerOutputFee env batchOut.length = .ok f)
    (hf0 : 0 ≤ f)
    (hsum : requestedTotal env batchOut < 2 ^ 63)
    (hcoins : ∀ e ∈ wallet.GetCoins, e.2.Output.AssetID = assetID →
      0 ≤ e.2.Output.Value ∧ e.2.Output.Value < 2 ^ 63) :
    (txn.Outputs.length = batchOut.length ∨ txn.Outputs.length = batchOut.length + 1) ∧
    (txn.Outputs.length = batchOut.length + 1 ↔
      requestedTotal env batchOut < coinTotal (selectedCoins wallet assetID txn)) ∧
    (txn.Outputs.length = batchOut.length + 1 →
      txn.Outputs.getLast? =
        some { AssetID := assetID,
               Value := coinTotal (selectedCoins wallet assetID txn) -
                 requestedTotal env batchOut,
               ProgramHash := mainAccount.ProgramHash }) := by
  obtain ⟨main2, hmain2, _, _, _, _, _, hcase⟩ := transfer_exact h hfee hf0 hsum hcoins
  have hmm : main2 = mainAccount := by
    rw [hmain] at hmain2
    cases hmain2
    rfl
  subst hmm
  have hlen : (paymentOutputs env assetID f batchOut).length = batchOut.length := by
    simp [paymentOutputs]
  rcases hcase with ⟨hgt, hO⟩ | ⟨heq, hO⟩
  · have hl : txn.Outputs.length = batchOut.length + 1 := by
      rw [hO, List.length_append, hlen]
      rfl
    refine ⟨Or.inr hl, ⟨fun _ => hgt, fun _ => hl⟩, fun _ => ?_⟩
    rw [hO]
    simp
  · have hl : txn.Outputs.length = batchOut.length := by
      rw [hO, hlen]
    refine ⟨Or.inl hl, ⟨fun h1 => by omega, fun h1 => by omega⟩, fun h1 => by omega⟩

/-- C6. In a transfer that returns a transaction, the inputs are the references
of wallet coins of the asset, and the values of these coins, read in input
order, never decrease. -/
theorem transfer_inputs_ascending (env : Env) (wallet : Client) (assetID : Uint256)
    (batchOut : List BatchOut) (txn : Transaction)
    (h : MakeTransferTransaction env wallet assetID batchOut = .ok txn) :
    txn.UTXOInputs = (selectedCoins wallet assetID txn).map (fun c => c.input) ∧
    (∀ c ∈ selectedCoins wallet assetID txn, (c.input, c.coin) ∈ wallet.GetCoins) ∧
    ((selectedCoins wallet assetID txn).map (fun c => c.coin.Output.Value)).Pairwise
      (fun a b => a ≤ b) := by
  obtain ⟨_, _, _, _, _, _, hin, _⟩ := transfer_shape h
  refine ⟨hin, ?_, ?_⟩
  · intro c hc
    exact (mem_assetCoins.1 (List.mem_of_mem_take hc)).1
  · rw [List.pairwise_map]
    exact (assetCoins_sorted wallet assetID).sublist (List.take_sublist _ _)

/-- C7, amended. In a transfer that returns a transaction, with a non-negative
per-output fee, a requested total below `2 ^ 63` (no fixed-point overflow) and
wallet coins of the asset with values in `[0, 2 ^ 63)`, the inputs are the
shortest front part of the wallet coins, sorted by value and restricted to the
asset, whose cumulative value reaches the requested total: every selected coin
is a wallet coin of the asset, the selected coins reach the total, and no
shorter front part of them does. -/
theorem transfer_selects_shortest_front (env : Env) (wallet : Client) (assetID : Uint256)
    (batchOut : List BatchOut) (txn : Transaction) (f : Int)
    (h : MakeTransferTransaction env wallet assetID batchOut = .ok txn)
    (hfee : getTransferTxnPerOutputFee env batchOut.length = .ok f)
    (hf0 : 0 ≤ f)
    (hsum : requestedTotal env batchOut < 2 ^ 63)
    (hcoins : ∀ e ∈ wallet.GetCoins, e.2.Output.AssetID = assetID →
      0 ≤ e.2.Output.Value ∧ e.2.Output.Value < 2 ^ 63) :
    txn.UTXOInputs = (selectedCoins wallet assetID txn).map (fun c => c.input) ∧
    (∃ rest, assetCoins wallet assetID = selectedCoins wallet assetID txn ++ rest) ∧
    (∀ c ∈ selectedCoins wallet assetID txn,
      c.coin.Output.AssetID = assetID ∧ (c.input, c.coin) ∈ wallet.GetCoins) ∧
    requestedTotal env batchOut ≤ coinTotal (selectedCoins wallet assetID txn) ∧
    (∀ j, j < (selectedCoins wallet assetID txn).length →
      coinTotal ((selectedCoins wallet assetID txn).take j) < requestedTotal env batchOut) := by
  obtain ⟨_, _, _, _, hin, hpre, _, hcase⟩ := transfer_exact h hfee hf0 hsum hcoins
  refine ⟨hin, ⟨(assetCoins wallet assetID).drop txn.UTXOInputs.length, ?_⟩, ?_, ?_, hpre⟩
  · unfold selectedCoins
    exact (List.take_append_drop _ _).symm
  · intro c hc
    have hm := mem_assetCoins.1 (List.mem_of_mem_take hc)
    exact ⟨hm.2, hm.1⟩
  · rcases hcase with ⟨hgt, _⟩ | ⟨heq, _⟩
    · omega
    · omega

/-! ## The claims on sample runs -/

/-- Witness of C1: the sample transfer of 50 with a fee of one unit. -/
theorem transfer_conserves_value_witness :
    MakeTransferTransaction (sampleEnv feeOne) (sampleWallet [coinA, coinB]) 77 payFifty =
      .ok transferFifty ∧
    outputTotal transferFifty + payFifty.length * 1 =
      coinTotal (selectedCoins (sampleWallet [coinA, coinB]) 77 transferFifty) :=
  ⟨rfl, (transfer_conserves_value (sampleEnv feeOne) (sampleWallet [coinA, coinB]) 77 payFifty
    transferFifty 1 rfl rfl (by decide) (by decide) (by decide)).2⟩

/-- Counterexample to C1 as stated: two payments whose values add up to
`2 ^ 63` make the requirement wrap around to a negative number, so an empty
wallet returns a transaction without inputs; its outputs total `2 ^ 63`, which
is not the total of no coins, in the integers and modulo `2 ^ 64` alike. -/
theorem transfer_creates_value_on_overflow :
    MakeTransferTransaction (sampleEnv none) (sampleWallet []) 77 payTooMuch =
      .ok transferFromNothing ∧
    getTransferTxnPerOutputFee (sampleEnv none) payTooMuch.length = .ok 0 ∧
    transferFromNothing.UTXOInputs = [] ∧
    coinTotal (selectedCoins (sampleWallet []) 77 transferFromNothing) = 0 ∧
    outputTotal transferFromNothing + payTooMuch.length * 0 = 2 ^ 63 ∧
    wrap64 (outputTotal transferFromNothing + payTooMuch.length * 0) = -(2 ^ 63) :=
  ⟨rfl, rfl, rfl, by decide, by decide, by decide⟩

theorem payFifty_valid : ∀ o ∈ payFifty, ValidPayment (sampleEnv feeOne) 1 o := by
  intro o ho
  simp only [payFifty, List.mem_singleton] at ho
  subst ho
  exact ⟨50, 500, rfl, by decide, rfl⟩

theorem payTooMuch_valid : ∀ o ∈ payTooMuch, ValidPayment (sampleEnv none) 0 o := by
  intro o ho
  simp only [payTooMuch, List.mem_cons, List.mem_singleton, List.mem_nil_iff, or_false] at ho
  rcases ho with ho | ho
  · subst ho
    exact ⟨9223372036854775807, 500, rfl, by decide, rfl⟩
  · subst ho
    exact ⟨1, 501, rfl, by decide, rfl⟩

/-- Witness of C2: the sample wallet that holds the coin `B` of value 5 alone
is asked for 50. -/
theorem transfer_insufficient_funds_witness :
    walletTotal (sampleWallet [coinB]) 77 < requestedTotal (sampleEnv feeOne) payFifty ∧
    MakeTransferTransaction (sampleEnv feeOne) (sampleWallet [coinB]) 77 payFifty =
      .error (Failure.error "token is not enough") :=
  ⟨by decide,
   transfer_insufficient_funds (sampleEnv feeOne) (sampleWallet [coinB]) 77 payFifty
    { ProgramHash := 900, PublicKey := 9 } 1 rfl rfl payFifty_valid (by decide) (by decide)
    (by decide)⟩

/-- Counterexample to C2 as stated: the two payments of `payTooMuch` are valid
and ask for `2 ^ 63` in total, the wallet holds a single coin of value 1, and
yet a transaction is returned: the requirement has wrapped around to
`-(2 ^ 63)`, which the coin exceeds. -/
theorem transfer_overdraws_on_overflow :
    (∀ o ∈ payTooMuch, ValidPayment (sampleEnv none) 0 o) ∧
    getTransferTxnPerOutputFee (sampleEnv none) payTooMuch.length = .ok 0 ∧
    requestedTotal (sampleEnv none) payTooMuch = 2 ^ 63 ∧
    walletTotal (sampleWallet [coinOne]) 77 = 1 ∧
    MakeTransferTransaction (sampleEnv none) (sampleWallet [coinOne]) 77 payTooMuch =
      .ok (transferOverdrawn coinOne (-9223372036854775807)) :=
  ⟨payTooMuch_valid, rfl, by decide, by decide, rfl⟩

/-- Witness of C3: with a fee of one unit per output, the second payment asks
for 1. -/
theorem transfer_fee_exceeds_amount_witness :
    MakeTransferTransaction (sampleEnv feeTwo) (sampleWallet [coinA]) 77 payFiftyOne =
      .error (Failure.error "token is not enough for transaction fee") :=
  transfer_fee_exceeds_amount (sampleEnv feeTwo) (sampleWallet [coinA]) 77
    [{ Address := "500", Value := "50" }] { Address := "501", Value := "1" } []
    { ProgramHash := 900, PublicKey := 9 } 1 1 rfl rfl
    (by
      intro o ho
      simp only [List.mem_singleton] at ho
      subst ho
      exact ⟨50, 500, rfl, by decide, rfl⟩)
    rfl (by decide)

/-- Counterexample to C3 as stated: the only payment asks for 1, the fee is 1,
and the wallet has no default account; the call returns the error of
`GetDefaultAccount` (line 153), not the fee error. -/
theorem transfer_without_default_account :
    (sampleEnv feeOne).StringToFixed64 "1" = .ok 1 ∧
    getTransferTxnPerOutputFee (sampleEnv feeOne) 1 = .ok 1 ∧
    MakeTransferTransaction (sampleEnv feeOne) (lockedWallet [coinA]) 77
      [{ Address := "500", Value := "1" }] = .error (Failure.error "no default account") :=
  ⟨rfl, rfl, rfl⟩

/-- Witness of C4: the first output of the sample transfer of 50. -/
theorem transfer_payment_outputs_witness :
    MakeTransferTransaction (sampleEnv feeOne) (sampleWallet [coinA, coinB]) 77 payFifty =
      .ok transferFifty ∧
    ∃ v hash, (sampleEnv feeOne).StringToFixed64 "50" = .ok v ∧
      (sampleEnv feeOne).ToScriptHash "500" = .ok hash ∧ 1 < v ∧
      transferFifty.Outputs[0]? =
        some { AssetID := 77, Value := fixedSub v 1, ProgramHash := hash } ∧
      ((0 : Int) ≤ 1 → v < 2 ^ 63 → fixedSub v 1 = v - 1) :=
  ⟨rfl, (transfer_payment_outputs (sampleEnv feeOne) (sampleWallet [coinA, coinB]) 77 payFifty
    transferFifty 1 rfl rfl).2 0 { Address := "500", Value := "50" } rfl⟩

/-- Witness of C5: the sample transfer of 50 has a change output of 55. -/
theorem transfer_change_output_witness :
    MakeTransferTransaction (sampleEnv feeOne) (sampleWallet [coinA, coinB]) 77 payFifty =
      .ok transferFifty ∧
    transferFifty.Outputs.length = payFifty.length + 1 ∧
    transferFifty.Outputs.getLast? =
      some { AssetID := 77,
             Value := coinTotal (selectedCoins (sampleWallet [coinA, coinB]) 77 transferFifty) -
               requestedTotal (sampleEnv feeOne) payFifty,
             ProgramHash := 900 } :=
  ⟨rfl, rfl,
   (transfer_change_output (sampleEnv feeOne) (sampleWallet [coinA, coinB]) 77 payFifty
    transferFifty { ProgramHash := 900, PublicKey := 9 } 1 rfl rfl rfl (by decide) (by decide)
    (by decide)).2.2 rfl⟩

/-- Counterexample to C5 as stated: with a configured fee of -2 the payment of
-1 is accepted, the requested total is -1, and an empty wallet returns a
transaction; the selected coins total 0, which exceeds the requested total,
but the outputs have length `n = 1`: there is no change output. -/
theorem transfer_without_change_on_negative_total :
    getTransferTxnPerOutputFee (sampleEnv feeMinusTwo) payMinusOne.length = .ok (-2) ∧
    MakeTransferTransaction (sampleEnv feeMinusTwo) (sampleWallet []) 77 payMinusOne =
      .ok transferMinusOne ∧
    requestedTotal (sampleEnv feeMinusTwo) payMinusOne = -1 ∧
    coinTotal (selectedCoins (sampleWallet []) 77 transferMinusOne) = 0 ∧
    transferMinusOne.Outputs.length = payMinusOne.length :=
  ⟨rfl, rfl, by decide, by decide, rfl⟩

/-- Witness of C6: the sample transfer of 50 spends the coin of value 5 before
the coin of value 100. -/
theorem transfer_inputs_ascending_witness :
    MakeTransferTransaction (sampleEnv feeOne) (sampleWallet [coinA, coinB]) 77 payFifty =
      .ok transferFifty ∧
    ((selectedCoins (sampleWallet [coinA, coinB]) 77 transferFifty).map
      (fun c => c.coin.Output.Value)).Pairwise (fun a b => a ≤ b) :=
  ⟨rfl, (transfer_inputs_ascending (sampleEnv feeOne) (sampleWallet [coinA, coinB]) 77 payFifty
    transferFifty rfl).2.2⟩

/-- Witness of C7: the sample transfer of 50 needs both coins. -/
theorem transfer_selects_shortest_front_witness :
    MakeTransferTransaction (sampleEnv feeOne) (sampleWallet [coinA, coinB]) 77 payFifty =
      .ok transferFifty ∧
    requestedTotal (sampleEnv feeOne) payFifty ≤
      coinTotal (selectedCoins (sampleWallet [coinA, coinB]) 77 transferFifty) ∧
    coinTotal ((selectedCoins (sampleWallet [coinA, coinB]) 77 transferFifty).take 1) <
      requestedTotal (sampleEnv feeOne) payFifty :=
  ⟨rfl,
   (transfer_selects_shortest_front (sampleEnv feeOne) (sampleWallet [coinA, coinB]) 77 payFifty
    transferFifty 1 rfl rfl (by decide) (by decide) (by decide)).2.2.2.1,
   (transfer_selects_shortest_front (sampleEnv feeOne) (sampleWallet [coinA, coinB]) 77 payFifty
    transferFifty 1 rfl rfl (by decide) (by decide) (by decide)).2.2.2.2 1 (by decide)⟩

/-- Counterexample to C7 as stated: for `payTooMuch` the wallet that holds the
coin `B` of value 5 alone returns a transaction whose single input is `B`; the
selected coins total 5 and do not reach the requested total `2 ^ 63`. -/
theorem transfer_selection_short_on_overflow :
    MakeTransferTransaction (sampleEnv none) (sampleWallet [coinB]) 77 payTooMuch =
      .ok (transferOverdrawn coinB (-9223372036854775803)) ∧
    (transferOverdrawn coinB (-9223372036854775803)).UTXOInputs = [coinB.1] ∧
    coinTotal (selectedCoins (sampleWallet [coinB]) 77
      (transferOverdrawn coinB (-9223372036854775803))) = 5 ∧
    requestedTotal (sampleEnv none) payTooMuch = 2 ^ 63 :=
  ⟨rfl, rfl, by decide, by decide⟩

/-! ## The signer accounts -/

theorem foundDuplicate_true (h : Uint160) :
    ∀ accounts : List (Option Account), foundDuplicate h accounts = .ok true →
      ∃ a, some a ∈ accounts ∧ h = a.ProgramHash
  | [], hd => by simp [foundDuplicate, pure, Except.pure] at hd
  | none :: _, hd => by simp [foundDuplicate, throw, throwThe, MonadExceptOf.throw] at hd
  | some tmp :: rest, hd => by
    unfold foundDuplicate at hd
    by_cases ht : h = tmp.ProgramHash
    · exact ⟨tmp, List.mem_cons_self _ _, ht⟩
    · simp only [ht, if_false] at hd
      obtain ⟨a, ha, hh⟩ := foundDuplicate_true h rest hd
      exact ⟨a, List.mem_cons_of_mem _ ha, hh⟩

theorem foundDuplicate_false (h : Uint160) :
    ∀ accounts : List (Option Account), foundDuplicate h accounts = .ok false →
      ∀ a, some a ∈ accounts → h ≠ a.ProgramHash
  | [], _ => by simp
  | none :: _, hd => by simp [foundDuplicate, throw, throwThe, MonadExceptOf.throw] at hd
  | some tmp :: rest, hd => by
    unfold foundDuplicate at hd
    by_cases ht : h = tmp.ProgramHash
    · simp [ht, pure, Except.pure] at hd
    · simp only [ht, if_false] at hd
      intro a ha
      rw [List.mem_cons] at ha
      rcases ha with ha | ha
      · cases ha
        exact ht
      · exact foundDuplicate_false h rest hd a ha

/-- The accounts collected so far stay in the list. -/
theorem matchInputs_subset (wallet : Client) (ref : UTXOTxInput) (coin : Coin) :
    ∀ (input : List UTXOTxInput) (accounts result : List (Option Account)),
      matchInputs wallet ref coin input accounts = .ok result →
      ∀ x ∈ accounts, x ∈ result
  | [], accounts, result, h => by
    simp only [matchInputs, pure, Except.pure, Except.ok.injEq] at h
    subst h
    exact fun x hx => hx
  | inp :: rest, accounts, result, h => by
    unfold matchInputs at h
    split at h
    · cases hd : foundDuplicate coin.Output.ProgramHash accounts with
      | error e => simp [hd, bind, Except.bind] at h
      | ok dup =>
        simp only [hd, bind, Except.bind] at h
        cases dup with
        | true =>
          simp only [Bool.not_true, Bool.false_eq_true, if_false] at h
          exact matchInputs_subset wallet ref coin rest accounts result h
        | false =>
          simp only [Bool.not_false, if_true] at h
          intro x hx
          exact matchInputs_subset wallet ref coin rest _ result h x
            (List.mem_append_left _ hx)
    · exact matchInputs_subset wallet ref coin rest accounts result h

theorem collectAccounts_subset (wallet : Client) (input : List UTXOTxInput) :
    ∀ (entries : List (UTXOTxInput × Coin)) (accounts result : List (Option Account)),
      collectAccounts wallet input entries accounts = .ok result →
      ∀ x ∈ accounts, x ∈ result
  | [], accounts, result, h => by
    simp only [collectAccounts, pure, Except.pure, Except.ok.injEq] at h
    subst h
    exact fun x hx => hx
  | (ref, coin) :: rest, accounts, result, h => by
    unfold collectAccounts at h
    cases hm : matchInputs wallet ref coin input accounts with
    | error e => simp [hm, bind, Except.bind] at h
    | ok mid =>
      simp only [hm, bind, Except.bind] at h
      intro x hx
      exact collectAccounts_subset wallet input rest mid result h x
        (matchInputs_subset wallet ref coin input accounts mid hm x hx)

/-- One entry of the coin map: the list stays `Collected`, what is added is the
account of the entry, added only when an input refers to the entry, and after
such an entry the list holds an account with the program hash of its coin. -/
theorem matchInputs_collected (wallet : Client)
    (hlookup : ∀ h acc, wallet.GetAccountByProgramHash h = some acc → acc.ProgramHash = h)
    (ref : UTXOTxInput) (coin : Coin) (final : List (Option Account))
    (hfinal : ∀ x ∈ final, x ≠ none) :
    ∀ (input : List UTXOTxInput) (accounts result : List (Option Account)),
      matchInputs wallet ref coin input accounts = .ok result →
      (∀ x ∈ result, x ∈ final) →
      Collected wallet accounts →
      Collected wallet result ∧
      (∀ a, some a ∈ result → some a ∈ accounts ∨
        ((∃ inp ∈ input, RefersTo inp ref) ∧
          wallet.GetAccountByProgramHash coin.Output.ProgramHash = some a)) ∧
      ((∃ inp ∈ input, RefersTo inp ref) →
        ∃ a, some a ∈ result ∧ a.ProgramHash = coin.Output.ProgramHash)
  | [], accounts, result, h, _, hc => by
    simp only [matchInputs, pure, Except.pure, Except.ok.injEq] at h
    subst h
    exact ⟨hc, fun a ha => Or.inl ha, by simp⟩
  | inp :: rest, accounts, result, h, hsub, hc => by
    unfold matchInputs at h
    by_cases hm : inp.ReferTxID = ref.ReferTxID ∧ inp.ReferTxOutputIndex = ref.ReferTxOutputIndex
    · rw [if_pos hm] at h
      have hex : ∃ i ∈ inp :: rest, RefersTo i ref := ⟨inp, List.mem_cons_self _ _, hm⟩
      cases hd : foundDuplicate coin.Output.ProgramHash accounts with
      | error e => simp [hd, bind, Except.bind] at h
      | ok dup =>
        simp only [hd, bind, Except.bind] at h
        cases dup with
        | true =>
          simp only [Bool.not_true, Bool.false_eq_true, if_false] at h
          obtain ⟨h1, h2, _⟩ := matchInputs_collected wallet hlookup ref coin final hfinal rest
            accounts result h hsub hc
          refine ⟨h1, ?_, fun _ => ?_⟩
          · intro a ha
            rcases h2 a ha with h2 | ⟨_, h2⟩
            · exact Or.inl h2
            · exact Or.inr ⟨hex, h2⟩
          · obtain ⟨a, ha, hh⟩ := foundDuplicate_true _ _ hd
            exact ⟨a, matchInputs_subset wallet ref coin rest accounts result h _ ha, hh.symm⟩
        | false =>
          simp only [Bool.not_false, if_true] at h
          have hin : wallet.GetAccountByProgramHash coin.Output.ProgramHash ∈ result :=
            matchInputs_subset wallet ref coin rest _ result h _
              (List.mem_append_right _ (List.mem_singleton_self _))
          have hsome := hfinal _ (hsub _ hin)
          obtain ⟨a, ha⟩ := Option.ne_none_iff_exists'.1 hsome
          have hah := hlookup _ _ ha
          have hc2 : Collected wallet
              (accounts ++ [wallet.GetAccountByProgramHash coin.Output.ProgramHash]) := by
            refine ⟨?_, ?_⟩
            · intro x hx
              rw [List.mem_append, List.mem_singleton] at hx
              rcases hx with hx | hx
              · exact hc.1 x hx
              · exact ⟨a, hx.trans ha, by rw [hah] ; exact ha⟩
            · rw [List.pairwise_append]
              refine ⟨hc.2, List.pairwise_singleton _ _, ?_⟩
              intro x hx y hy b c hb hcy
              rw [List.mem_singleton] at hy
              subst hb
              have hca : c = a := by
                rw [hy, ha] at hcy
                cases hcy
                rfl
              subst hca
              rw [hah]
              exact fun hbc => foundDuplicate_false _ _ hd b hx hbc.symm
          obtain ⟨h1, h2, _⟩ := matchInputs_collected wallet hlookup ref coin final hfinal rest
            _ result h hsub hc2
          refine ⟨h1, ?_, fun _ => ⟨a, by rw [← ha] ; exact hin, hah⟩⟩
          intro b hb
          rcases h2 b hb with h2 | ⟨_, h2⟩
          · rw [List.mem_append, List.mem_singleton] at h2
            rcases h2 with h2 | h2
            · exact Or.inl h2
            · exact Or.inr ⟨hex, h2.symm⟩
          · exact Or.inr ⟨hex, h2⟩
    · rw [if_neg hm] at h
      obtain ⟨h1, h2, h3⟩ := matchInputs_collected wallet hlookup ref coin final hfinal rest
        accounts result h hsub hc
      refine ⟨h1, ?_, ?_⟩
      · intro a ha
        rcases h2 a ha with h2 | ⟨⟨i, hi, hr⟩, h2⟩
        · exact Or.inl h2
        · exact Or.inr ⟨⟨i, List.mem_cons_of_mem _ hi, hr⟩, h2⟩
      · rintro ⟨i, hi, hr⟩
        rw [List.mem_cons] at hi
        rcases hi with hi | hi
        · subst hi
          exact absurd hr hm
        · exact h3 ⟨i, hi, hr⟩

/-- The whole coin map: the collected accounts are the accounts of the entries
that an input refers to. -/
theorem collectAccounts_collected (wallet : Client)
    (hlookup : ∀ h acc, wallet.GetAccountByProgramHash h = some acc → acc.ProgramHash = h)
    (input : List UTXOTxInput) (final : List (Option Account))
    (hfinal : ∀ x ∈ final, x ≠ none) :
    ∀ (entries : List (UTXOTxInput × Coin)) (accounts result : List (Option Account)),
      collectAccounts wallet input entries accounts = .ok result →
      (∀ x ∈ result, x ∈ final) →
      Collected wallet accounts →
      Collected wallet result ∧
      (∀ a, some a ∈ result → some a ∈ accounts ∨
        ∃ e ∈ entries, (∃ inp ∈ input, RefersTo inp e.1) ∧
          wallet.GetAccountByProgramHash e.2.Output.ProgramHash = some a) ∧
      (∀ e ∈ entries, (∃ inp ∈ input, RefersTo inp e.1) →
        ∃ a, some a ∈ result ∧ a.ProgramHash = e.2.Output.ProgramHash)
  | [], accounts, result, h, _, hc => by
    simp only [collectAccounts, pure, Except.pure, Except.ok.injEq] at h
    subst h
    exact ⟨hc, fun a ha => Or.inl ha, by simp⟩
  | (ref, coin) :: rest, accounts, result, h, hsub, hc => by
    unfold collectAccounts at h
    cases hm : matchInputs wallet ref coin input accounts with
    | error e => simp [hm, bind, Except.bind] at h
    | ok mid =>
      simp only [hm, bind, Except.bind] at h
      have hmid : ∀ x ∈ mid, x ∈ final :=
        fun x hx => hsub x (collectAccounts_subset wallet input rest mid result h x hx)
      obtain ⟨m1, m2, m3⟩ := matchInputs_collected wallet hlookup ref coin final hfinal input
        accounts mid hm hmid hc
      obtain ⟨r1, r2, r3⟩ := collectAccounts_collected wallet hlookup input final hfinal rest
        mid result h hsub m1
      refine ⟨r1, ?_, ?_⟩
      · intro a ha
        rcases r2 a ha with r2 | ⟨e, he, hr, hl⟩
        · rcases m2 a r2 with m2 | ⟨hr, hl⟩
          · exact Or.inl m2
          · exact Or.inr ⟨(ref, coin), List.mem_cons_self _ _, hr, hl⟩
        · exact Or.inr ⟨e, List.mem_cons_of_mem _ he, hr, hl⟩
      · intro e he hr
        rw [List.mem_cons] at he
        rcases he with he | he
        · subst he
          obtain ⟨a, ha, hh⟩ := m3 hr
          exact ⟨a, collectAccounts_subset wallet input rest mid result h _ ha, hh⟩
        · exact r3 e he hr

theorem derefAccounts_ok :
    ∀ (raw : List (Option Account)) (accounts : List Account),
      derefAccounts raw = .ok accounts → raw = accounts.map some
  | [], accounts, h => by
    simp only [derefAccounts, pure, Except.pure, Except.ok.injEq] at h
    subst h
    rfl
  | none :: _, accounts, h => by simp [derefAccounts, throw, throwThe, MonadExceptOf.throw] at h
  | some a :: rest, accounts, h => by
    unfold derefAccounts at h
    cases hr : derefAccounts rest with
    | error e => simp [hr, bind, Except.bind] at h
    | ok tail =>
      simp only [hr, bind, Except.bind, pure, Except.pure, Except.ok.injEq] at h
      subst h
      rw [derefAccounts_ok rest tail hr]
      rfl

/-- The signer accounts of a list of inputs: no program hash occurs twice, and
the accounts are those the wallet returns for the owners of the map entries an
input refers to. -/
theorem signerAccounts_collected (env : Env) (wallet : Client) (input : List UTXOTxInput)
    (accounts : List Account)
    (hlookup : ∀ h acc, wallet.GetAccountByProgramHash h = some acc → acc.ProgramHash = h)
    (hrange : (env.rangeAgain wallet.GetCoins).Perm wallet.GetCoins)
    (h : signerAccounts env wallet input = .ok accounts) :
    (accounts.map (fun a => a.ProgramHash)).Nodup ∧
    (∀ acc, acc ∈ accounts ↔
      ∃ e ∈ wallet.GetCoins, (∃ inp ∈ input, RefersTo inp e.1) ∧
        wallet.GetAccountByProgramHash e.2.Output.ProgramHash = some acc) ∧
    (∀ e ∈ wallet.GetCoins, (∃ inp ∈ input, RefersTo inp e.1) →
      ∃ acc ∈ accounts, acc.ProgramHash = e.2.Output.ProgramHash) ∧
    ∃ collected : List Account, accounts = sortSort (sortedAccounts.Less env) collected := by
  unfold signerAccounts at h
  cases hc : collectAccounts wallet input (env.rangeAgain wallet.GetCoins) [] with
  | error e => simp [hc, bind, Except.bind] at h
  | ok raw =>
    simp only [hc, bind, Except.bind] at h
    cases hd : derefAccounts raw with
    | error e => simp [hd] at h
    | ok accs =>
      simp only [hd, pure, Except.pure, Except.ok.injEq] at h
      have hraw := derefAccounts_ok raw accs hd
      have hfinal : ∀ x ∈ raw, x ≠ none := by
        intro x hx
        rw [hraw, List.mem_map] at hx
        obtain ⟨a, _, ha⟩ := hx
        rw [← ha]
        exact Option.some_ne_none a
      obtain ⟨⟨c1, c2⟩, c3, c4⟩ := collectAccounts_collected wallet hlookup input raw hfinal
        (env.rangeAgain wallet.GetCoins) [] raw hc (fun x hx => hx)
        ⟨by simp, List.Pairwise.nil⟩
      have hperm := sortSort_perm (sortedAccounts.Less env) accs
      rw [h] at hperm
      have hmem : ∀ a, a ∈ accounts ↔ some a ∈ raw := by
        intro a
        rw [hperm.mem_iff, hraw, List.mem_map]
        constructor
        · intro ha
          exact ⟨a, ha, rfl⟩
        · rintro ⟨b, hb, hba⟩
          cases hba
          exact hb
      refine ⟨?_, ?_, ?_, accs, h.symm⟩
      · rw [(hperm.map (fun a => a.ProgramHash)).nodup_iff]
        rw [hraw, List.pairwise_map] at c2
        unfold List.Nodup
        rw [List.pairwise_map]
        exact c2.imp (fun hab => hab _ _ rfl rfl)
      · intro acc
        rw [hmem]
        constructor
        · intro ha
          rcases c3 acc ha with h0 | ⟨e, he, hr, hl⟩
          · simp at h0
          · exact ⟨e, hrange.mem_iff.1 he, hr, hl⟩
        · rintro ⟨e, he, hr, hl⟩
          obtain ⟨a, ha, hh⟩ := c4 e (hrange.mem_iff.2 he) hr
          obtain ⟨b, hb, hbl⟩ := c1 _ ha
          cases hb
          rw [hh, hl] at hbl
          cases hbl
          exact ha
      · intro e he hr
        obtain ⟨a, ha, hh⟩ := c4 e (hrange.mem_iff.2 he) hr
        exact ⟨a, (hmem a).2 ha, hh⟩

/-- With a comparison that orders the program hashes, `sort.Sort` leaves
the accounts in ascending order. -/
theorem sortedAccounts_sorted (env : Env)
    (htotal : ∀ a b, 0 < env.CompareTo a b → env.CompareTo b a ≤ 0)
    (htrans : ∀ a b c, env.CompareTo a b ≤ 0 → env.CompareTo b c ≤ 0 → env.CompareTo a c ≤ 0)
    (accounts : List Account) :
    (sortSort (sortedAccounts.Less env) accounts).Pairwise
      (fun a b => env.CompareTo a.ProgramHash b.ProgramHash ≤ 0) := by
  apply sortSort_pairwise (sortedAccounts.Less env)
  · intro a b h
    unfold sortedAccounts.Less at h
    by_cases hab : env.CompareTo a.ProgramHash b.ProgramHash > 0
    · exact htotal _ _ hab
    · simp [hab] at h
  · intro a b h
    unfold sortedAccounts.Less at h
    by_cases hab : env.CompareTo a.ProgramHash b.ProgramHash > 0
    · simp [hab] at h
    · omega
  · intro a b c hab hbc
    exact htrans _ _ _ hab hbc

/-- C8. In a transfer that returns a transaction, provided the lookup of the
wallet by program hash returns accounts that carry the hash asked for (and
given that the second `range` visits the entries of the coin map and that
`CompareTo` orders the program hashes), the signer list built for the
transaction holds no two accounts with the same program hash, holds exactly
the accounts of the owners of the coins the inputs refer to, in particular an
account for the owner of every selected coin, and only such accounts when the
references of the wallet are pairwise distinct, and is sorted ascending by
`CompareTo`. -/
theorem transfer_signers (env : Env) (wallet : Client) (assetID : Uint256)
    (batchOut : List BatchOut) (txn : Transaction)
    (h : MakeTransferTransaction env wallet assetID batchOut = .ok txn)
    (hlookup : ∀ h acc, wallet.GetAccountByProgramHash h = some acc → acc.ProgramHash = h)
    (hrange : (env.rangeAgain wallet.GetCoins).Perm wallet.GetCoins)
    (htotal : ∀ a b, 0 < env.CompareTo a b → env.CompareTo b a ≤ 0)
    (htrans : ∀ a b c, env.CompareTo a b ≤ 0 → env.CompareTo b c ≤ 0 →
      env.CompareTo a c ≤ 0) :
    ∃ accounts, signerAccounts env wallet txn.UTXOInputs = .ok accounts ∧
      (accounts.map (fun a => a.ProgramHash)).Nodup ∧
      (∀ acc, acc ∈ accounts ↔
        ∃ e ∈ wallet.GetCoins, (∃ inp ∈ txn.UTXOInputs, RefersTo inp e.1) ∧
          wallet.GetAccountByProgramHash e.2.Output.ProgramHash = some acc) ∧
      (∀ c ∈ selectedCoins wallet assetID txn,
        ∃ acc ∈ accounts, acc.ProgramHash = c.coin.Output.ProgramHash) ∧
      ((wallet.GetCoins.map (fun e => e.1)).Nodup →
        ∀ acc ∈ accounts, ∃ c ∈ selectedCoins wallet assetID txn,
          acc.ProgramHash = c.coin.Output.ProgramHash) ∧
      accounts.Pairwise (fun a b => env.CompareTo a.ProgramHash b.ProgramHash ≤ 0) := by
  obtain ⟨_, mainAccount, f, expected, output, accounts, ctx, _, _, _, _, hacc, _, htxn⟩ :=
    MakeTransferTransaction_ok h
  obtain ⟨_, _, _, _, _, _, hin, _⟩ := transfer_shape h
  have hI : txn.UTXOInputs = (selection wallet assetID mainAccount expected output).input := by
    rw [htxn] ; rfl
  rw [← hI] at hacc
  obtain ⟨hnodup, hiff, hown, collected, hsorted⟩ :=
    signerAccounts_collected env wallet txn.UTXOInputs accounts hlookup hrange hacc
  have hselmem : ∀ c ∈ selectedCoins wallet assetID txn,
      (c.input, c.coin) ∈ wallet.GetCoins ∧ c.input ∈ txn.UTXOInputs := by
    intro c hc
    refine ⟨(mem_assetCoins.1 (List.mem_of_mem_take hc)).1, ?_⟩
    rw [hin]
    exact List.mem_map_of_mem _ hc
  refine ⟨accounts, hacc, hnodup, hiff, ?_, ?_, ?_⟩
  · intro c hc
    obtain ⟨hm, hi⟩ := hselmem c hc
    exact hown (c.input, c.coin) hm ⟨c.input, hi, rfl, rfl⟩
  · intro hdistinct acc ha
    obtain ⟨e, he, ⟨inp, hinp, hr1, hr2⟩, hl⟩ := (hiff acc).1 ha
    rw [hin, List.mem_map] at hinp
    obtain ⟨c, hc, hci⟩ := hinp
    obtain ⟨hm, _⟩ := hselmem c hc
    have href : c.input = e.1 := by
      rw [hci]
      cases inp
      cases hx : e.1
      rw [hx] at hr1 hr2
      simp only at hr1 hr2
      rw [hr1, hr2]
    have hee : (c.input, c.coin) = e :=
      List.inj_on_of_nodup_map hdistinct hm he href
    refine ⟨c, hc, ?_⟩
    rw [hlookup _ _ hl, ← hee]
  · rw [hsorted]
    exact sortedAccounts_sorted env htotal htrans collected

/-! ## Runs in which the wallet knows its owners and the contracts are created -/

theorem foundDuplicate_total (h : Uint160) :
    ∀ accounts : List (Option Account), (∀ x ∈ accounts, x ≠ none) →
      ∃ dup, foundDuplicate h accounts = .ok dup
  | [], _ => ⟨false, rfl⟩
  | none :: _, hall => absurd rfl (hall none (List.mem_cons_self _ _))
  | some tmp :: rest, hall => by
    unfold foundDuplicate
    by_cases ht : h = tmp.ProgramHash
    · exact ⟨true, by simp [ht, pure, Except.pure]⟩
    · simp only [ht, if_false]
      exact foundDuplicate_total h rest (fun x hx => hall x (List.mem_cons_of_mem _ hx))

theorem matchInputs_total (wallet : Client) (ref : UTXOTxInput) (coin : Coin)
    (p : Account → Prop)
    (hl : ∃ acc, wallet.GetAccountByProgramHash coin.Output.ProgramHash = some acc ∧ p acc) :
    ∀ (input : List UTXOTxInput) (accounts : List (Option Account)),
      (∀ x ∈ accounts, ∃ a, x = some a ∧ p a) →
      ∃ result, matchInputs wallet ref coin input accounts = .ok result ∧
        ∀ x ∈ result, ∃ a, x = some a ∧ p a
  | [], accounts, hall => ⟨accounts, rfl, hall⟩
  | inp :: rest, accounts, hall => by
    unfold matchInputs
    split
    · obtain ⟨dup, hd⟩ := foundDuplicate_total coin.Output.ProgramHash accounts
        (fun x hx => by
          obtain ⟨a, ha, _⟩ := hall x hx
          rw [ha]
          exact Option.some_ne_none a)
      simp only [hd, bind, Except.bind]
      cases dup with
      | true =>
        simp only [Bool.not_true, Bool.false_eq_true, if_false]
        exact matchInputs_total wallet ref coin p hl rest accounts hall
      | false =>
        simp only [Bool.not_false, if_true]
        apply matchInputs_total wallet ref coin p hl rest
        intro x hx
        rw [List.mem_append, List.mem_singleton] at hx
        rcases hx with hx | hx
        · exact hall x hx
        · obtain ⟨acc, hacc, hp⟩ := hl
          exact ⟨acc, hx.trans hacc, hp⟩
    · exact matchInputs_total wallet ref coin p hl rest accounts hall

theorem collectAccounts_total (wallet : Client) (input : List UTXOTxInput)
    (p : Account → Prop) :
    ∀ (entries : List (UTXOTxInput × Coin)) (accounts : List (Option Account)),
      (∀ e ∈ entries, ∃ acc,
        wallet.GetAccountByProgramHash e.2.Output.ProgramHash = some acc ∧ p acc) →
      (∀ x ∈ accounts, ∃ a, x = some a ∧ p a) →
      ∃ result, collectAccounts wallet input entries accounts = .ok result ∧
        ∀ x ∈ result, ∃ a, x = some a ∧ p a
  | [], accounts, _, hall => ⟨accounts, rfl, hall⟩
  | (ref, coin) :: rest, accounts, hl, hall => by
    unfold collectAccounts
    obtain ⟨mid, hm, hmid⟩ := matchInputs_total wallet ref coin p
      (hl (ref, coin) (List.mem_cons_self _ _)) input accounts hall
    simp only [hm, bind, Except.bind]
    exact collectAccounts_total wallet input p rest mid
      (fun e he => hl e (List.mem_cons_of_mem _ he)) hmid

theorem derefAccounts_total (p : Account → Prop) :
    ∀ raw : List (Option Account), (∀ x ∈ raw, ∃ a, x = some a ∧ p a) →
      ∃ accounts, derefAccounts raw = .ok accounts ∧ ∀ a ∈ accounts, p a
  | [], _ => ⟨[], rfl, by simp⟩
  | none :: _, hall => by
    obtain ⟨a, ha, _⟩ := hall none (List.mem_cons_self _ _)
    cases ha
  | some a :: rest, hall => by
    obtain ⟨tail, ht, hp⟩ := derefAccounts_total p rest
      (fun x hx => hall x (List.mem_cons_of_mem _ hx))
    refine ⟨a :: tail, by simp [derefAccounts, ht, bind, Except.bind, pure, Except.pure], ?_⟩
    intro b hb
    rw [List.mem_cons] at hb
    rcases hb with hb | hb
    · obtain ⟨c, hc, hpc⟩ := hall (some a) (List.mem_cons_self _ _)
      cases hc
      rw [hb]
      exact hpc
    · exact hp b hb

/-- When the wallet returns an account for the owner of each of its coins, the
signer accounts are found, and they are among these accounts. -/
theorem signerAccounts_total (env : Env) (wallet : Client) (input : List UTXOTxInput)
    (p : Account → Prop)
    (hl : ∀ e ∈ env.rangeAgain wallet.GetCoins, ∃ acc,
      wallet.GetAccountByProgramHash e.2.Output.ProgramHash = some acc ∧ p acc) :
    ∃ accounts, signerAccounts env wallet input = .ok accounts ∧ ∀ a ∈ accounts, p a := by
  obtain ⟨raw, hr, hraw⟩ := collectAccounts_total wallet input p
    (env.rangeAgain wallet.GetCoins) [] hl (by simp)
  obtain ⟨accs, hd, hp⟩ := derefAccounts_total p raw hraw
  refine ⟨sortSort (sortedAccounts.Less env) accs, ?_, ?_⟩
  · simp [signerAccounts, hr, hd, bind, Except.bind, pure, Except.pure]
  · intro a ha
    exact hp a ((sortSort_perm _ accs).mem_iff.1 ha)

theorem signLoop_total (env : Env) (txn : Transaction) :
    ∀ (accounts : List Account) (i : Nat) (ctx : ContractContext),
      (∀ a ∈ accounts, ∃ c, env.CreateSignatureContract a.PublicKey = .ok c) →
      i + accounts.length ≤ ctx.Codes.length →
      i + accounts.length ≤ ctx.Parameters.length →
      ∃ result, signLoop env txn accounts i ctx = .ok result ∧
        result.Codes.length = ctx.Codes.length ∧
        result.Parameters.length = ctx.Parameters.length
  | [], _, ctx, _, _, _ => ⟨ctx, rfl, rfl, rfl⟩
  | a :: rest, i, ctx, hc, h1, h2 => by
    obtain ⟨c, hcc⟩ := hc a (List.mem_cons_self _ _)
    simp only [List.length_cons] at h1 h2
    have hi : i < ctx.Codes.length ∧ i < ctx.Parameters.length := ⟨by omega, by omega⟩
    unfold signLoop
    simp only [hcc, ContractContext.MyAdd, hi, and_self, if_true, bind, Except.bind, pure,
      Except.pure]
    obtain ⟨r, hr, hr1, hr2⟩ := signLoop_total env txn rest (i + 1)
      { Data := ctx.Data,
        Codes := ctx.Codes.set i c.Code,
        Parameters := ctx.Parameters.set i
          [match env.SignBySigner txn a with
            | .ok s => s
            | .error _ => []] }
      (fun b hb => hc b (List.mem_cons_of_mem _ hb))
      (by simp only [List.length_set] ; omega) (by simp only [List.length_set] ; omega)
    refine ⟨r, hr, ?_, ?_⟩
    · rw [hr1, List.length_set]
    · rw [hr2, List.length_set]

/-- When a contract is created for every signer, the verification context is
built and it has one slot for each signer. -/
theorem signingContext_total (env : Env) (txn : Transaction) (accounts : List Account)
    (hc : ∀ a ∈ accounts, ∃ c, env.CreateSignatureContract a.PublicKey = .ok c) :
    ∃ ctx, signingContext env txn accounts = .ok ctx ∧
      ctx.Codes.length = accounts.length ∧ ctx.Parameters.length = accounts.length := by
  obtain ⟨r, hr, h1, h2⟩ := signLoop_total env txn accounts 0
    (newContractContextWithoutProgramHashes txn accounts.length) hc
    (by simp [newContractContextWithoutProgramHashes])
    (by simp [newContractContextWithoutProgramHashes])
  refine ⟨r, hr, ?_, ?_⟩
  · rw [h1] ; simp [newContractContextWithoutProgramHashes]
  · rw [h2] ; simp [newContractContextWithoutProgramHashes]

theorem GetPrograms_length (ctx : ContractContext) (n : Nat) (h1 : ctx.Codes.length = n)
    (h2 : ctx.Parameters.length = n) : ctx.GetPrograms.length = n := by
  simp [ContractContext.GetPrograms, h1, h2]

/-! ## A wallet whose coins have one owner -/

theorem matchInputs_one_owner (wallet : Client) (ref : UTXOTxInput) (coin : Coin)
    (signer : Account)
    (hl : wallet.GetAccountByProgramHash coin.Output.ProgramHash = some signer)
    (hs : signer.ProgramHash = coin.Output.ProgramHash) :
    ∀ (input : List UTXOTxInput) (accounts : List (Option Account)),
      (accounts = [] ∨ accounts = [some signer]) →
      ∃ result, matchInputs wallet ref coin input accounts = .ok result ∧
        (result = [some signer] ∨
          (result = [] ∧ accounts = [] ∧ ¬ ∃ inp ∈ input, RefersTo inp ref))
  | [], accounts, hacc => by
    refine ⟨accounts, rfl, ?_⟩
    rcases hacc with hacc | hacc
    · exact Or.inr ⟨hacc, hacc, by simp⟩
    · exact Or.inl hacc
  | inp :: rest, accounts, hacc => by
    unfold matchInputs
    by_cases hm : inp.ReferTxID = ref.ReferTxID ∧ inp.ReferTxOutputIndex = ref.ReferTxOutputIndex
    · rw [if_pos hm]
      rcases hacc with hacc | hacc
      · subst hacc
        simp only [foundDuplicate, pure, Except.pure, bind, Except.bind, Bool.not_false, if_true,
          List.nil_append, hl]
        obtain ⟨r, hr, hcase⟩ := matchInputs_one_owner wallet ref coin signer hl hs rest
          [some signer] (Or.inr rfl)
        refine ⟨r, hr, Or.inl ?_⟩
        rcases hcase with hcase | ⟨_, hcase, _⟩
        · exact hcase
        · cases hcase
      · subst hacc
        simp only [foundDuplicate, hs, if_true, pure, Except.pure, bind, Except.bind,
          Bool.not_true, Bool.false_eq_true, if_false]
        obtain ⟨r, hr, hcase⟩ := matchInputs_one_owner wallet ref coin signer hl hs rest
          [some signer] (Or.inr rfl)
        refine ⟨r, hr, Or.inl ?_⟩
        rcases hcase with hcase | ⟨_, hcase, _⟩
        · exact hcase
        · cases hcase
    · rw [if_neg hm]
      obtain ⟨r, hr, hcase⟩ := matchInputs_one_owner wallet ref coin signer hl hs rest
        accounts hacc
      refine ⟨r, hr, ?_⟩
      rcases hcase with hcase | ⟨h1, h2, h3⟩
      · exact Or.inl hcase
      · refine Or.inr ⟨h1, h2, ?_⟩
        rintro ⟨i, hi, hr⟩
        rw [List.mem_cons] at hi
        rcases hi with hi | hi
        · subst hi
          exact hm hr
        · exact h3 ⟨i, hi, hr⟩

theorem collectAccounts_one_owner (wallet : Client) (input : List UTXOTxInput)
    (owner : Uint160) (signer : Account)
    (hl : wallet.GetAccountByProgramHash owner = some signer)
    (hs : signer.ProgramHash = owner) :
    ∀ (entries : List (UTXOTxInput × Coin)) (accounts : List (Option Account)),
      (∀ e ∈ entries, e.2.Output.ProgramHash = owner) →
      (accounts = [] ∨ accounts = [some signer]) →
      ∃ result, collectAccounts wallet input entries accounts = .ok result ∧
        (result = [some signer] ∨
          (result = [] ∧ ¬ ∃ e ∈ entries, ∃ inp ∈ input, RefersTo inp e.1))
  | [], accounts, _, hacc => by
    refine ⟨accounts, rfl, ?_⟩
    rcases hacc with hacc | hacc
    · exact Or.inr ⟨hacc, by simp⟩
    · exact Or.inl hacc
  | (ref, coin) :: rest, accounts, ho, hacc => by
    have hc : coin.Output.ProgramHash = owner := ho (ref, coin) (List.mem_cons_self _ _)
    obtain ⟨mid, hm, hmid⟩ := matchInputs_one_owner wallet ref coin signer
      (by rw [hc] ; exact hl) (by rw [hc] ; exact hs) input accounts hacc
    unfold collectAccounts
    simp only [hm, bind, Except.bind]
    have hmid2 : mid = [] ∨ mid = [some signer] := by
      rcases hmid with hmid | ⟨hmid, _, _⟩
      · exact Or.inr hmid
      · exact Or.inl hmid
    obtain ⟨r, hr, hcase⟩ := collectAccounts_one_owner wallet input owner signer hl hs rest mid
      (fun e he => ho e (List.mem_cons_of_mem _ he)) hmid2
    refine ⟨r, hr, ?_⟩
    rcases hcase with hcase | ⟨h1, h2⟩
    · exact Or.inl hcase
    · rcases hmid with hmid | ⟨_, _, h3⟩
      · subst hmid
        have := collectAccounts_subset wallet input rest _ r hr (some signer)
          (List.mem_singleton_self _)
        rw [h1] at this
        cases this
      · refine Or.inr ⟨h1, ?_⟩
        rintro ⟨e, he, hr⟩
        rw [List.mem_cons] at he
        rcases he with he | he
        · subst he
          exact h3 hr
        · exact h2 ⟨e, he, hr⟩

/-- When all coins of the wallet have one owner and an input refers to one of
them, the account of that owner is the only signer. -/
theorem signerAccounts_one_owner (env : Env) (wallet : Client) (input : List UTXOTxInput)
    (owner : Uint160) (signer : Account)
    (hl : wallet.GetAccountByProgramHash owner = some signer)
    (hs : signer.ProgramHash = owner)
    (ho : ∀ e ∈ env.rangeAgain wallet.GetCoins, e.2.Output.ProgramHash = owner)
    (hin : ∃ e ∈ env.rangeAgain wallet.GetCoins, ∃ inp ∈ input, RefersTo inp e.1) :
    signerAccounts env wallet input = .ok [signer] := by
  obtain ⟨r, hr, hcase⟩ := collectAccounts_one_owner wallet input owner signer hl hs
    (env.rangeAgain wallet.GetCoins) [] ho (Or.inl rfl)
  rcases hcase with hcase | ⟨_, hcase⟩
  · subst hcase
    simp [signerAccounts, hr, derefAccounts, sortSort, insertLeft, bind, Except.bind, pure,
      Except.pure]
  · exact absurd hin hcase

/-! ## The two worked examples -/

/-- The selection loop on a wallet that holds a coin of value 100 and a coin of
value 5 of the asset, for a requirement of 50: the small coin leaves 45 to
cover, the large coin covers it and 55 go back to the main account. -/
theorem selection_two_coins (wallet : Client) (assetID : Uint256) (mainAccount : Account)
    (output : List TxOutput) (a b : UTXOTxInput × Coin)
    (hcoins : wallet.GetCoins = [a, b] ∨ wallet.GetCoins = [b, a])
    (ha : a.2.Output.Value = 100) (hb : b.2.Output.Value = 5)
    (haa : a.2.Output.AssetID = assetID) (hba : b.2.Output.AssetID = assetID) :
    selection wallet assetID mainAccount 50 output =
      { input := [b.1, a.1],
        output := output ++ [{ AssetID := assetID, Value := 55,
                               ProgramHash := mainAccount.ProgramHash }],
        transferred := 50,
        expected := 0 } := by
  have h1 : fixedSub 50 5 = 45 := by decide
  have h2 : fixedSub 100 45 = 55 := by decide
  have h3 : fixedAdd 0 5 = 5 := by decide
  have h4 : fixedAdd 5 45 = 50 := by decide
  rcases hcoins with hc | hc
  · simp [selection, hc, sortCoinsByValue, sortSort, insertLeft, sortedCoins.Less, coinLoop,
      ha, hb, haa, hba, h1, h2, h3, h4]
  · simp [selection, hc, sortCoinsByValue, sortSort, insertLeft, sortedCoins.Less, coinLoop,
      ha, hb, haa, hba, h1, h2, h3, h4]

/-- A transfer whose selection is complete returns a transaction once the
signers are found and the verification context is built. -/
theorem MakeTransferTransaction_signed {env : Env} {wallet : Client} {assetID : Uint256}
    {batchOut : List BatchOut} {mainAccount : Account} {f expected : Int}
    {output : List TxOutput} {accounts : List Account} {ctx : ContractContext}
    (hne : batchOut ≠ [])
    (hmain : wallet.GetDefaultAccount = .ok mainAccount)
    (hfee : getTransferTxnPerOutputFee env batchOut.length = .ok f)
    (hout : outputLoop env assetID f batchOut 0 [] = .ok (expected, output))
    (hexp : (selection wallet assetID mainAccount expected output).expected ≤ 0)
    (hnew : env.newTransferError (selection wallet assetID mainAccount expected output).input
      (selection wallet assetID mainAccount expected output).output = none)
    (hacc : signerAccounts env wallet
      (selection wallet assetID mainAccount expected output).input = .ok accounts)
    (hctx : signingContext env
      (unsignedTransfer env (selection wallet assetID mainAccount expected output))
      accounts = .ok ctx) :
    MakeTransferTransaction env wallet assetID batchOut =
      .ok { unsignedTransfer env (selection wallet assetID mainAccount expected output)
            with Programs := ctx.GetPrograms } := by
  rw [MakeTransferTransaction_stages hne hmain hfee hout, if_neg (by omega)]
  simp only [hnew, hacc, hctx]

/-- C9, amended. For a wallet that holds exactly two coins `b` (value 5) and
`a` (value 100) of the same asset and the same owner, one requested payment of
value 50 and a per-output fee of 1, with a default account, an account for the
owner and a contract for that account, the transfer returns a transaction with
inputs `[b, a]` and outputs `[(destination, 49), (default account, 55)]`: the
remaining requirement after `b` is 45, the change is 55, and there is one
signer and one verification slot. -/
theorem transfer_example_one_payment (env : Env) (wallet : Client) (assetID : Uint256)
    (mainAccount signer : Account) (o : BatchOut) (dest owner : Uint160)
    (a b : UTXOTxInput × Coin)
    (hmain : wallet.GetDefaultAccount = .ok mainAccount)
    (hfee : getTransferTxnPerOutputFee env 1 = .ok 1)
    (hv : env.StringToFixed64 o.Value = .ok 50)
    (hd : env.ToScriptHash o.Address = .ok dest)
    (hcoins : wallet.GetCoins = [a, b] ∨ wallet.GetCoins = [b, a])
    (hrange : (env.rangeAgain wallet.GetCoins).Perm wallet.GetCoins)
    (ha : a.2.Output.Value = 100) (hb : b.2.Output.Value = 5)
    (haa : a.2.Output.AssetID = assetID) (hba : b.2.Output.AssetID = assetID)
    (hao : a.2.Output.ProgramHash = owner) (hbo : b.2.Output.ProgramHash = owner)
    (hl : wallet.GetAccountByProgramHash owner = some signer)
    (hs : signer.ProgramHash = owner)
    (hnew : ∀ i out, env.newTransferError i out = none)
    (hcontract : ∃ c, env.CreateSignatureContract signer.PublicKey = .ok c) :
    ∃ txn ctx, MakeTransferTransaction env wallet assetID [o] = .ok txn ∧
      txn.UTXOInputs = [b.1, a.1] ∧
      txn.Outputs = [{ AssetID := assetID, Value := 49, ProgramHash := dest },
                     { AssetID := assetID, Value := 55,
                       ProgramHash := mainAccount.ProgramHash }] ∧
      (coinLoop assetID mainAccount [{ input := b.1, coin := b.2 }]
        { input := [],
          output := [{ AssetID := assetID, Value := 49, ProgramHash := dest }],
          transferred := 0,
          expected := 50 }).expected = 45 ∧
      signerAccounts env wallet txn.UTXOInputs = .ok [signer] ∧
      signingContext env { txn with Programs := [] } [signer] = .ok ctx ∧
      ctx.Codes.length = 1 ∧ ctx.Parameters.length = 1 ∧
      txn.Programs = ctx.GetPrograms ∧ txn.Programs.length = 1 := by
  have h49 : fixedSub 50 1 = 49 := by decide
  have h50 : fixedAdd 0 50 = 50 := by decide
  have h45 : fixedSub 50 5 = 45 := by decide
  have hout : outputLoop env assetID 1 [o] 0 [] =
      .ok (50, [{ AssetID := assetID, Value := 49, ProgramHash := dest }]) := by
    simp [outputLoop, hv, hd, h49, h50, pure, Except.pure]
  have hsel := selection_two_coins wallet assetID mainAccount
    [{ AssetID := assetID, Value := 49, ProgramHash := dest }] a b hcoins ha hb haa hba
  have hmem : ∀ e ∈ env.rangeAgain wallet.GetCoins, e = a ∨ e = b := by
    intro e he
    have he2 := hrange.mem_iff.1 he
    rcases hcoins with hc | hc
    · rw [hc] at he2
      simpa using he2
    · rw [hc] at he2
      simpa [or_comm] using he2
  have hamem : a ∈ env.rangeAgain wallet.GetCoins := by
    apply hrange.mem_iff.2
    rcases hcoins with hc | hc
    · rw [hc] ; simp
    · rw [hc] ; simp
  have hacc : signerAccounts env wallet [b.1, a.1] = .ok [signer] :=
    signerAccounts_one_owner env wallet [b.1, a.1] owner signer hl hs
      (fun e he => by
        rcases hmem e he with h1 | h1
        · rw [h1] ; exact hao
        · rw [h1] ; exact hbo)
      ⟨a, hamem, a.1, by simp, rfl, rfl⟩
  obtain ⟨ctx, hctx, hc1, hc2⟩ := signingContext_total env
    (unsignedTransfer env (selection wallet assetID mainAccount 50
      [{ AssetID := assetID, Value := 49, ProgramHash := dest }])) [signer]
    (fun x hx => by
      rw [List.mem_singleton] at hx
      rw [hx]
      exact hcontract)
  have hM := @MakeTransferTransaction_signed env wallet assetID [o] mainAccount 1 50
    [{ AssetID := assetID, Value := 49, ProgramHash := dest }] [signer] ctx
    (by simp) hmain hfee hout (by rw [hsel]) (hnew _ _) (by rw [hsel] ; exact hacc) hctx
  refine ⟨_, ctx, hM, ?_, ?_, ?_, ?_, ?_, hc1, hc2, rfl, ?_⟩
  · simp [unsignedTransfer, hsel]
  · simp [unsignedTransfer, hsel]
  · simp [coinLoop, hb, hba, h45]
  · simpa [unsignedTransfer, hsel] using hacc
  · exact hctx
  · exact GetPrograms_length ctx 1 hc1 hc2

/-- C10, amended. For a wallet that holds exactly two coins `b` (value 5) and
`a` (value 100) of the same asset, two requested payments of values 30 and 20
and a per-output fee of 1 each, with a default account and, for the owner of
each coin, an account and a contract, the transfer returns a transaction with
the payment outputs `[(d1, 29), (d2, 19)]`; the amount to be covered by coins
is 50, both coins are selected in the order `[b, a]`, and the change output
has the value 100 + 5 - 50 = 55. -/
theorem transfer_example_two_payments (env : Env) (wallet : Client) (assetID : Uint256)
    (mainAccount : Account) (o1 o2 : BatchOut) (d1 d2 : Uint160)
    (a b : UTXOTxInput × Coin)
    (hmain : wallet.GetDefaultAccount = .ok mainAccount)
    (hfee : getTransferTxnPerOutputFee env 2 = .ok 1)
    (hv1 : env.StringToFixed64 o1.Value = .ok 30)
    (hd1 : env.ToScriptHash o1.Address = .ok d1)
    (hv2 : env.StringToFixed64 o2.Value = .ok 20)
    (hd2 : env.ToScriptHash o2.Address = .ok d2)
    (hcoins : wallet.GetCoins = [a, b] ∨ wallet.GetCoins = [b, a])
    (hrange : (env.rangeAgain wallet.GetCoins).Perm wallet.GetCoins)
    (ha : a.2.Output.Value = 100) (hb : b.2.Output.Value = 5)
    (haa : a.2.Output.AssetID = assetID) (hba : b.2.Output.AssetID = assetID)
    (hl : ∀ e ∈ wallet.GetCoins, ∃ acc,
      wallet.GetAccountByProgramHash e.2.Output.ProgramHash = some acc ∧
      ∃ c, env.CreateSignatureContract acc.PublicKey = .ok c)
    (hnew : ∀ i out, env.newTransferError i out = none) :
    ∃ txn, MakeTransferTransaction env wallet assetID [o1, o2] = .ok txn ∧
      outputLoop env assetID 1 [o1, o2] 0 [] =
        .ok (50, [{ AssetID := assetID, Value := 29, ProgramHash := d1 },
                  { AssetID := assetID, Value := 19, ProgramHash := d2 }]) ∧
      txn.UTXOInputs = [b.1, a.1] ∧
      txn.Outputs = [{ AssetID := assetID, Value := 29, ProgramHash := d1 },
                     { AssetID := assetID, Value := 19, ProgramHash := d2 },
                     { AssetID := assetID, Value := 100 + 5 - 50,
                       ProgramHash := mainAccount.ProgramHash }] := by
  have h29 : fixedSub 30 1 = 29 := by decide
  have h19 : fixedSub 20 1 = 19 := by decide
  have h30 : fixedAdd 0 30 = 30 := by decide
  have h50 : fixedAdd 30 20 = 50 := by decide
  have hout : outputLoop env assetID 1 [o1, o2] 0 [] =
      .ok (50, [{ AssetID := assetID, Value := 29, ProgramHash := d1 },
                { AssetID := assetID, Value := 19, ProgramHash := d2 }]) := by
    simp [outputLoop, hv1, hd1, hv2, hd2, h29, h19, h30, h50, pure, Except.pure]
  have hsel := selection_two_coins wallet assetID mainAccount
    [{ AssetID := assetID, Value := 29, ProgramHash := d1 },
     { AssetID := assetID, Value := 19, ProgramHash := d2 }] a b hcoins ha hb haa hba
  obtain ⟨accounts, hacc, hp⟩ := signerAccounts_total env wallet [b.1, a.1]
    (fun acc => ∃ c, env.CreateSignatureContract acc.PublicKey = .ok c)
    (fun e he => hl e (hrange.mem_iff.1 he))
  obtain ⟨ctx, hctx, _, _⟩ := signingContext_total env
    (unsignedTransfer env (selection wallet assetID mainAccount 50
      [{ AssetID := assetID, Value := 29, ProgramHash := d1 },
       { AssetID := assetID, Value := 19, ProgramHash := d2 }])) accounts hp
  have hM := @MakeTransferTransaction_signed env wallet assetID [o1, o2] mainAccount 1 50
    [{ AssetID := assetID, Value := 29, ProgramHash := d1 },
     { AssetID := assetID, Value := 19, ProgramHash := d2 }] accounts ctx
    (by simp) hmain hfee hout (by rw [hsel]) (hnew _ _) (by rw [hsel] ; exact hacc) hctx
  refine ⟨_, hM, hout, ?_, ?_⟩
  · simp [unsignedTransfer, hsel]
  · simp [unsignedTransfer, hsel]

theorem sampleEnv_lookup (coins : List (UTXOTxInput × Coin)) :
    ∀ h acc, (sampleWallet coins).GetAccountByProgramHash h = some acc →
      acc.ProgramHash = h := by
  intro h acc hacc
  simp only [sampleWallet, Option.some.injEq] at hacc
  rw [← hacc]

theorem compare_total (a b : Nat)
    (h : 0 < (if a < b then (-1 : Int) else if a = b then 0 else 1)) :
    (if b < a then (-1 : Int) else if b = a then 0 else 1) ≤ 0 := by
  split_ifs at h ⊢ <;> omega

theorem compare_trans (a b c : Nat)
    (h1 : (if a < b then (-1 : Int) else if a = b then 0 else 1) ≤ 0)
    (h2 : (if b < c then (-1 : Int) else if b = c then 0 else 1) ≤ 0) :
    (if a < c then (-1 : Int) else if a = c then 0 else 1) ≤ 0 := by
  split_ifs at h1 h2 ⊢ <;> omega

theorem sampleEnv_total (fee : Option ConfigFee) :
    ∀ a b, 0 < (sampleEnv fee).CompareTo a b → (sampleEnv fee).CompareTo b a ≤ 0 :=
  fun a b h => compare_total a b h

theorem sampleEnv_trans (fee : Option ConfigFee) :
    ∀ a b c, (sampleEnv fee).CompareTo a b ≤ 0 → (sampleEnv fee).CompareTo b c ≤ 0 →
      (sampleEnv fee).CompareTo a c ≤ 0 :=
  fun a b c h1 h2 => compare_trans a b c h1 h2

/-- Witness of C8: the sample transfer that spends coins of the owners 900 and
800 is signed by the account of 800 followed by the account of 900. -/
theorem transfer_signers_witness :
    MakeTransferTransaction (sampleEnv feeOne) (sampleWallet [coinA, coinB, coinC]) 77
      payFifty = .ok transferTwoOwners ∧
    signerAccounts (sampleEnv feeOne) (sampleWallet [coinA, coinB, coinC])
      transferTwoOwners.UTXOInputs =
      .ok [{ ProgramHash := 800, PublicKey := 801 }, { ProgramHash := 900, PublicKey := 901 }] ∧
    ∃ accounts, signerAccounts (sampleEnv feeOne) (sampleWallet [coinA, coinB, coinC])
        transferTwoOwners.UTXOInputs = .ok accounts ∧
      (accounts.map (fun a => a.ProgramHash)).Nodup ∧
      accounts.Pairwise
        (fun a b => (sampleEnv feeOne).CompareTo a.ProgramHash b.ProgramHash ≤ 0) := by
  obtain ⟨accounts, h1, h2, _, _, _, h3⟩ :=
    transfer_signers (sampleEnv feeOne) (sampleWallet [coinA, coinB, coinC]) 77 payFifty
      transferTwoOwners rfl (sampleEnv_lookup _) (List.Perm.refl _) (sampleEnv_total _)
      (sampleEnv_trans _)
  exact ⟨rfl, rfl, accounts, h1, h2, h3⟩

/-- Witness of C9: the sample wallet with the coins `A` and `B`, one payment of
50 and a fee of one unit. -/
theorem transfer_example_one_payment_witness :
    ∃ (txn : Transaction) (ctx : ContractContext),
      MakeTransferTransaction (sampleEnv feeOne) (sampleWallet [coinA, coinB]) 77
        [{ Address := "500", Value := "50" }] = .ok txn ∧
      txn.UTXOInputs = [coinB.1, coinA.1] ∧
      txn.Outputs = [{ AssetID := 77, Value := 49, ProgramHash := 500 },
                     { AssetID := 77, Value := 55, ProgramHash := 900 }] ∧
      signerAccounts (sampleEnv feeOne) (sampleWallet [coinA, coinB]) txn.UTXOInputs =
        .ok [{ ProgramHash := 900, PublicKey := 901 }] ∧
      signingContext (sampleEnv feeOne) { txn with Programs := [] }
        [{ ProgramHash := 900, PublicKey := 901 }] = .ok ctx ∧
      ctx.Codes.length = 1 ∧ ctx.Parameters.length = 1 ∧ txn.Programs.length = 1 := by
  obtain ⟨txn, ctx, h1, h2, h3, _, h5, h6, h7, h8, _, h10⟩ :=
    transfer_example_one_payment (sampleEnv feeOne) (sampleWallet [coinA, coinB]) 77
      { ProgramHash := 900, PublicKey := 9 } { ProgramHash := 900, PublicKey := 901 }
      { Address := "500", Value := "50" } 500 900 coinA coinB rfl rfl rfl rfl (Or.inl rfl)
      (List.Perm.refl _) rfl rfl rfl rfl rfl rfl rfl rfl (fun _ _ => rfl) ⟨_, rfl⟩
  exact ⟨txn, ctx, h1, h2, h3, h5, h6, h7, h8, h10⟩

/-- Counterexample to C9 as stated: in the sample run, in either order of the
coin map, the output to the default account is 55, not 56, and the requirement
left after the coin `B` is 45, not 44. -/
theorem transfer_example_one_change_is_55 :
    (sampleEnv feeOne).StringToFixed64 "50" = .ok 50 ∧
    getTransferTxnPerOutputFee (sampleEnv feeOne) payFifty.length = .ok 1 ∧
    MakeTransferTransaction (sampleEnv feeOne) (sampleWallet [coinA, coinB]) 77 payFifty =
      .ok transferFifty ∧
    MakeTransferTransaction (sampleEnv feeOne) (sampleWallet [coinB, coinA]) 77 payFifty =
      .ok transferFifty ∧
    transferFifty.Outputs = [{ AssetID := 77, Value := 49, ProgramHash := 500 },
                             { AssetID := 77, Value := 55, ProgramHash := 900 }] ∧
    transferFifty.Outputs ≠ [{ AssetID := 77, Value := 49, ProgramHash := 500 },
                             { AssetID := 77, Value := 56, ProgramHash := 900 }] ∧
    (coinLoop 77 { ProgramHash := 900, PublicKey := 9 } [{ input := coinB.1, coin := coinB.2 }]
      { input := [],
        output := [{ AssetID := 77, Value := 49, ProgramHash := 500 }],
        transferred := 0,
        expected := 50 }).expected = 45 :=
  ⟨rfl, rfl, rfl, rfl, rfl, by decide, by decide⟩

/-- Witness of C10: the sample wallet with the coins `A` and `B`, payments of
30 and 20 and a fee of one unit each. -/
theorem transfer_example_two_payments_witness :
    ∃ txn, MakeTransferTransaction (sampleEnv feeTwo) (sampleWallet [coinA, coinB]) 77
        [{ Address := "500", Value := "30" }, { Address := "501", Value := "20" }] = .ok txn ∧
      txn.UTXOInputs = [coinB.1, coinA.1] ∧
      txn.Outputs = [{ AssetID := 77, Value := 29, ProgramHash := 500 },
                     { AssetID := 77, Value := 19, ProgramHash := 501 },
                     { AssetID := 77, Value := 100 + 5 - 50, ProgramHash := 900 }] := by
  obtain ⟨txn, h1, _, h3, h4⟩ :=
    transfer_example_two_payments (sampleEnv feeTwo) (sampleWallet [coinA, coinB]) 77
      { ProgramHash := 900, PublicKey := 9 } { Address := "500", Value := "30" }
      { Address := "501", Value := "20" } 500 501 coinA coinB rfl rfl rfl rfl rfl rfl
      (Or.inl rfl) (List.Perm.refl _) rfl rfl rfl rfl (fun _ _ => ⟨_, rfl, _, rfl⟩)
      (fun _ _ => rfl)
  exact ⟨txn, h1, h3, h4⟩

/-- Counterexample to C10 as stated: in the sample run the amount to be
covered by coins is 50, not 48, and the change output is 55, not 57. -/
theorem transfer_example_two_change_is_55 :
    getTransferTxnPerOutputFee (sampleEnv feeTwo) payThirtyTwenty.length = .ok 1 ∧
    outputLoop (sampleEnv feeTwo) 77 1 payThirtyTwenty 0 [] =
      .ok (50, [{ AssetID := 77, Value := 29, ProgramHash := 500 },
                { AssetID := 77, Value := 19, ProgramHash := 501 }]) ∧
    MakeTransferTransaction (sampleEnv feeTwo) (sampleWallet [coinA, coinB]) 77
      payThirtyTwenty = .ok transferThirtyTwenty ∧
    MakeTransferTransaction (sampleEnv feeTwo) (sampleWallet [coinB, coinA]) 77
      payThirtyTwenty = .ok transferThirtyTwenty ∧
    transferThirtyTwenty.Outputs.getLast? =
      some { AssetID := 77, Value := 55, ProgramHash := 900 } ∧
    transferThirtyTwenty.Outputs.getLast? ≠
      some { AssetID := 77, Value := 57, ProgramHash := 900 } :=
  ⟨rfl, rfl, rfl, rfl, rfl, by decide⟩

/-! ## The ways a transfer fails -/

theorem getTransferTxnPerOutputFee_error {env : Env} {n : Int} {e : Failure}
    (h : getTransferTxnPerOutputFee env n = .error e) (hn : n ≠ 0) :
    e = Failure.error "invalid transaction fee" := by
  unfold getTransferTxnPerOutputFee at h
  cases hc : env.TransferFee with
  | none => simp [hc, hn, bind, Except.bind, pure, Except.pure] at h
  | some v =>
    cases hm : v.isMinusOne with
    | true => simp [hc, hm, hn, bind, Except.bind, pure, Except.pure] at h
    | false =>
      cases hp : env.StringToFixed64 v.formatted with
      | error msg =>
        simp [hc, hm, hp, bind, Except.bind, throw, throwThe, MonadExceptOf.throw] at h
        exact h.symm
      | ok fee => simp [hc, hm, hp, hn, bind, Except.bind, pure, Except.pure] at h

theorem outputLoop_error (env : Env) (assetID : Uint256) (f : Int) :
    ∀ (l : List BatchOut) (expected : Int) (output : List TxOutput) (e : Failure),
      outputLoop env assetID f l expected output = .error e → ∃ msg, e = Failure.error msg
  | [], _, _, _, h => by simp [outputLoop, pure, Except.pure] at h
  | o :: rest, expected, output, e, h => by
    unfold outputLoop at h
    cases hv : env.StringToFixed64 o.Value with
    | error msg =>
      simp [hv, throw, throwThe, MonadExceptOf.throw] at h
      exact ⟨msg, h.symm⟩
    | ok v =>
      simp only [hv] at h
      by_cases hfv : v ≤ f
      · simp [hfv, throw, throwThe, MonadExceptOf.throw] at h
        exact ⟨_, h.symm⟩
      · simp only [hfv, if_false] at h
        cases ha : env.ToScriptHash o.Address with
        | error msg =>
          simp [ha, throw, throwThe, MonadExceptOf.throw] at h
          exact ⟨_, h.symm⟩
        | ok a =>
          simp only [ha] at h
          exact outputLoop_error env assetID f rest _ _ e h

theorem foundDuplicate_error (h : Uint160) :
    ∀ (accounts : List (Option Account)) (e : Failure),
      foundDuplicate h accounts = .error e → e = nilDereference
  | [], _, hd => by simp [foundDuplicate, pure, Except.pure] at hd
  | none :: _, e, hd => by
    simp [foundDuplicate, throw, throwThe, MonadExceptOf.throw] at hd
    exact hd.symm
  | some tmp :: rest, e, hd => by
    unfold foundDuplicate at hd
    by_cases ht : h = tmp.ProgramHash
    · simp [ht, pure, Except.pure] at hd
    · simp only [ht, if_false] at hd
      exact foundDuplicate_error h rest e hd

theorem matchInputs_error (wallet : Client) (ref : UTXOTxInput) (coin : Coin) :
    ∀ (input : List UTXOTxInput) (accounts : List (Option Account)) (e : Failure),
      matchInputs wallet ref coin input accounts = .error e → e = nilDereference
  | [], _, _, h => by simp [matchInputs, pure, Except.pure] at h
  | inp :: rest, accounts, e, h => by
    unfold matchInputs at h
    split at h
    · cases hd : foundDuplicate coin.Output.ProgramHash accounts with
      | error e2 =>
        simp only [hd, bind, Except.bind, Except.error.injEq] at h
        rw [← h]
        exact foundDuplicate_error _ _ _ hd
      | ok dup =>
        simp only [hd, bind, Except.bind] at h
        cases dup with
        | true =>
          simp only [Bool.not_true, Bool.false_eq_true, if_false] at h
          exact matchInputs_error wallet ref coin rest accounts e h
        | false =>
          simp only [Bool.not_false, if_true] at h
          exact matchInputs_error wallet ref coin rest _ e h
    · exact matchInputs_error wallet ref coin rest accounts e h

theorem collectAccounts_error (wallet : Client) (input : List UTXOTxInput) :
    ∀ (entries : List (UTXOTxInput × Coin)) (accounts : List (Option Account)) (e : Failure),
      collectAccounts wallet input entries accounts = .error e → e = nilDereference
  | [], _, _, h => by simp [collectAccounts, pure, Except.pure] at h
  | (ref, coin) :: rest, accounts, e, h => by
    unfold collectAccounts at h
    cases hm : matchInputs wallet ref coin input accounts with
    | error e2 =>
      simp only [hm, bind, Except.bind, Except.error.injEq] at h
      rw [← h]
      exact matchInputs_error wallet ref coin input accounts e2 hm
    | ok mid =>
      simp only [hm, bind, Except.bind] at h
      exact collectAccounts_error wallet input rest mid e h

theorem derefAccounts_error :
    ∀ (raw : List (Option Account)) (e : Failure),
      derefAccounts raw = .error e → e = nilDereference
  | [], _, h => by simp [derefAccounts, pure, Except.pure] at h
  | none :: _, e, h => by
    simp [derefAccounts, throw, throwThe, MonadExceptOf.throw] at h
    exact h.symm
  | some a :: rest, e, h => by
    unfold derefAccounts at h
    cases hr : derefAccounts rest with
    | error e2 =>
      simp only [hr, bind, Except.bind, Except.error.injEq] at h
      rw [← h]
      exact derefAccounts_error rest e2 hr
    | ok tail => simp [hr, bind, Except.bind, pure, Except.pure] at h

/-- The signer accounts are found unless a nil account is dereferenced. -/
theorem signerAccounts_error {env : Env} {wallet : Client} {input : List UTXOTxInput}
    {e : Failure} (h : signerAccounts env wallet input = .error e) : e = nilDereference := by
  unfold signerAccounts at h
  cases hc : collectAccounts wallet input (env.rangeAgain wallet.GetCoins) [] with
  | error e2 =>
    simp only [hc, bind, Except.bind, Except.error.injEq] at h
    rw [← h]
    exact collectAccounts_error _ _ _ _ _ hc
  | ok raw =>
    simp only [hc, bind, Except.bind] at h
    cases hd : derefAccounts raw with
    | error e2 =>
      simp only [hd, Except.error.injEq] at h
      rw [← h]
      exact derefAccounts_error _ _ hd
    | ok accs => simp [hd, pure, Except.pure] at h

theorem signLoop_error (env : Env) (txn : Transaction) :
    ∀ (accounts : List Account) (i : Nat) (ctx : ContractContext) (e : Failure),
      signLoop env txn accounts i ctx = .error e →
      e = nilDereference ∨ e = Failure.panic "index out of range"
  | [], _, _, _, h => by simp [signLoop, pure, Except.pure] at h
  | a :: rest, i, ctx, e, h => by
    unfold signLoop at h
    simp only [bind, Except.bind] at h
    split at h
    · rename_i e2 hm
      cases h
      unfold ContractContext.MyAdd at hm
      split at hm
      · simp [throw, throwThe, MonadExceptOf.throw] at hm
        exact Or.inl hm.symm
      · split at hm
        · simp [pure, Except.pure] at hm
        · simp [throw, throwThe, MonadExceptOf.throw] at hm
          exact Or.inr hm.symm
    · exact signLoop_error env txn rest (i + 1) _ e h

/-- The verification context is built unless a nil contract is dereferenced or
a slot is missing. -/
theorem signingContext_error {env : Env} {txn : Transaction} {accounts : List Account}
    {e : Failure} (h : signingContext env txn accounts = .error e) :
    e = nilDereference ∨ e = Failure.panic "index out of range" :=
  signLoop_error env txn accounts 0 _ e h

/-- A transfer that returns no transaction returns an error, or panics on a nil
pointer or on a missing slot. -/
theorem MakeTransferTransaction_error {env : Env} {wallet : Client} {assetID : Uint256}
    {batchOut : List BatchOut} {e : Failure}
    (h : MakeTransferTransaction env wallet assetID batchOut = .error e) :
    (∃ msg, e = Failure.error msg) ∨ e = nilDereference ∨
      e = Failure.panic "index out of range" := by
  by_cases hne : batchOut = []
  · subst hne
    simp [MakeTransferTransaction, throw, throwThe, MonadExceptOf.throw, bind, Except.bind] at h
    exact Or.inl ⟨_, h.symm⟩
  · have hlen : batchOut.length ≠ 0 := by simpa using hne
    have hlen2 : (batchOut.length : Int) ≠ 0 := by exact_mod_cast hlen
    cases hmain : wallet.GetDefaultAccount with
    | error msg =>
      simp [MakeTransferTransaction, hlen, hmain, throw, throwThe, MonadExceptOf.throw, bind,
        Except.bind, pure, Except.pure] at h
      exact Or.inl ⟨_, h.symm⟩
    | ok mainAccount =>
      cases hfee : getTransferTxnPerOutputFee env batchOut.length with
      | error e2 =>
        simp [MakeTransferTransaction, hlen, hmain, hfee, bind, Except.bind, pure,
          Except.pure] at h
        rw [← h]
        exact Or.inl ⟨_, getTransferTxnPerOutputFee_error hfee hlen2⟩
      | ok f =>
        cases hout : outputLoop env assetID f batchOut 0 [] with
        | error e2 =>
          simp [MakeTransferTransaction, hlen, hmain, hfee, hout, bind, Except.bind, pure,
            Except.pure] at h
          rw [← h]
          exact Or.inl (outputLoop_error env assetID f batchOut 0 [] e2 hout)
        | ok r =>
          obtain ⟨expected, output⟩ := r
          rw [MakeTransferTransaction_stages hne hmain hfee hout] at h
          split at h
          · cases h
            exact Or.inl ⟨_, rfl⟩
          · cases hnew : env.newTransferError
                (selection wallet assetID mainAccount expected output).input
                (selection wallet assetID mainAccount expected output).output with
            | some msg =>
              simp only [hnew, Except.error.injEq] at h
              exact Or.inl ⟨_, h.symm⟩
            | none =>
              simp only [hnew] at h
              cases hacc : signerAccounts env wallet
                  (selection wallet assetID mainAccount expected output).input with
              | error e2 =>
                simp only [hacc, Except.error.injEq] at h
                rw [← h]
                exact Or.inr (Or.inl (signerAccounts_error hacc))
              | ok accounts =>
                simp only [hacc] at h
                cases hctx : signingContext env
                    (unsignedTransfer env (selection wallet assetID mainAccount expected output))
                    accounts with
                | error e2 =>
                  simp only [hctx, Except.error.injEq] at h
                  rw [← h]
                  exact Or.inr (signingContext_error hctx)
                | ok ctx => simp [hctx] at h

/-- C11. For every environment (fee configuration included), wallet and asset,
MakeTransferTransaction with no requested payment returns the error "nil
outputs" and no transaction, whatever the wallet and the fee configuration
are; and no call of MakeTransferTransaction ends in the panic of a division by
zero, the divisor of `getTransferTxnPerOutputFee` being the number of payments
of a request that has passed this test. -/
theorem transfer_without_outputs :
    (∀ (env : Env) (wallet : Client) (assetID : Uint256),
      MakeTransferTransaction env wallet assetID [] = .error (Failure.error "nil outputs")) ∧
    (∀ (env : Env) (wallet : Client) (assetID : Uint256) (batchOut : List BatchOut),
      MakeTransferTransaction env wallet assetID batchOut ≠
        .error (Failure.panic "integer divide by zero")) ∧
    (∀ (env : Env) (batchOut : List BatchOut), batchOut ≠ [] →
      getTransferTxnPerOutputFee env batchOut.length ≠
        .error (Failure.panic "integer divide by zero")) := by
  refine ⟨fun env wallet assetID => rfl, ?_, ?_⟩
  · intro env wallet assetID batchOut h
    rcases MakeTransferTransaction_error h with ⟨msg, h1⟩ | h1 | h1
    · cases h1
    · exact absurd h1 (by decide)
    · exact absurd h1 (by decide)
  · intro env batchOut hne h
    have hlen : (batchOut.length : Int) ≠ 0 := by
      have : batchOut.length ≠ 0 := by simpa using hne
      exact_mod_cast this
    exact absurd (getTransferTxnPerOutputFee_error h hlen) (by decide)

/-- Witness of C11: the request `payFifty` has one payment. -/
theorem transfer_without_outputs_witness :
    payFifty ≠ [] ∧
    getTransferTxnPerOutputFee (sampleEnv feeOne) payFifty.length ≠
      .error (Failure.panic "integer divide by zero") :=
  ⟨by decide, transfer_without_outputs.2.2 (sampleEnv feeOne) payFifty (by decide)⟩

theorem fixedDiv_exact {a n : Int} (ha : IsFixed64 a) (hn : 1 ≤ n) :
    fixedDiv a n = Int.tdiv a n := by
  unfold IsFixed64 at ha
  unfold fixedDiv
  apply wrap64_of_range
  unfold IsFixed64
  rcases Int.le_total 0 a with h0 | h0
  · have h1 : 0 ≤ Int.tdiv a n := Int.tdiv_nonneg h0 (by omega)
    have h2 : Int.tdiv a n ≤ a := by
      rw [Int.tdiv_eq_ediv h0 (by omega)]
      exact Int.ediv_le_self n h0
    omega
  · have h3 : Int.tdiv a n = -(Int.tdiv (-a) n) := by
      rw [Int.neg_tdiv, neg_neg]
    have h0' : 0 ≤ -a := by omega
    have h1 : 0 ≤ Int.tdiv (-a) n := Int.tdiv_nonneg h0' (by omega)
    have h2 : Int.tdiv (-a) n ≤ -a := by
      rw [Int.tdiv_eq_ediv h0' (by omega)]
      exact Int.ediv_le_self n h0'
    omega

/-- C12, amended. For every output count `n >= 1`, getTransferTxnPerOutputFee
returns 0 when no Transfer fee is configured; when the configured value is not
the sentinel -1 and parses to the fixed-point value `F`, it returns `F` divided
by `n` in fixed-point arithmetic, which is the truncated integer quotient; and
when the configured value is not the sentinel, it returns the error "invalid
transaction fee" exactly when the value cannot be parsed. -/
theorem per_output_fee (env : Env) (n : Int) (hn : 1 ≤ n) :
    (env.TransferFee = none → getTransferTxnPerOutputFee env n = .ok 0) ∧
    (∀ v F, env.TransferFee = some v → v.isMinusOne = false →
      env.StringToFixed64 v.formatted = .ok F →
      getTransferTxnPerOutputFee env n = .ok (fixedDiv F n) ∧
      (IsFixed64 F → fixedDiv F n = Int.tdiv F n)) ∧
    (∀ v, env.TransferFee = some v → v.isMinusOne = false →
      (getTransferTxnPerOutputFee env n = .error (Failure.error "invalid transaction fee") ↔
        ∃ msg, env.StringToFixed64 v.formatted = .error msg)) := by
  have hn0 : n ≠ 0 := by omega
  have hzero : fixedDiv 0 n = 0 := by
    unfold fixedDiv
    rw [Int.zero_tdiv]
    rfl
  refine ⟨?_, ?_, ?_⟩
  · intro hc
    simp [getTransferTxnPerOutputFee, hc, hn0, hzero, bind, Except.bind, pure, Except.pure]
  · intro v F hc hm hp
    refine ⟨?_, fun hF => fixedDiv_exact hF hn⟩
    simp [getTransferTxnPerOutputFee, hc, hm, hp, hn0, bind, Except.bind, pure, Except.pure]
  · intro v hc hm
    cases hp : env.StringToFixed64 v.formatted with
    | error msg =>
      simp [getTransferTxnPerOutputFee, hc, hm, hp, bind, Except.bind, throw, throwThe,
        MonadExceptOf.throw]
    | ok F =>
      simp [getTransferTxnPerOutputFee, hc, hm, hp, hn0, bind, Except.bind, pure, Except.pure]

/-- Witness of C12: a configured fee of two units shared by two outputs. -/
theorem per_output_fee_witness :
    (1 : Int) ≤ 2 ∧
    getTransferTxnPerOutputFee (sampleEnv feeTwo) 2 = .ok (fixedDiv 2 2) ∧
    fixedDiv 2 2 = 1 :=
  ⟨by decide,
   ((per_output_fee (sampleEnv feeTwo) 2 (by decide)).2.1
      { isMinusOne := false, formatted := "2" } 2 rfl rfl rfl).1,
   by decide⟩

/-- Counterexample to C12 as stated: the configured value -1 is rendered
`-1.0000` and parses to -100000000, yet for one output the function returns 0,
not -100000000 divided by 1. -/
theorem per_output_fee_of_sentinel :
    sentinelEnv.TransferFee = some { isMinusOne := true, formatted := "-1.0000" } ∧
    sentinelEnv.StringToFixed64 "-1.0000" = .ok (-100000000) ∧
    fixedDiv (-100000000) 1 = -100000000 ∧
    getTransferTxnPerOutputFee sentinelEnv 1 = .ok 0 :=
  ⟨rfl, rfl, by decide, rfl⟩

/-- C13, the code at a failing input. The signing service of
`failingSignerEnv` fails for every signer; `signTransaction` returns its error
(line 263), but MakeTransferTransaction drops it (line 251) and returns a
transaction whose verification program carries a nil signature. -/
theorem transfer_ignores_signing_failure :
    (failingSignerEnv feeOne).SignBySigner (unsignedTransfer (failingSignerEnv feeOne)
        (selection (sampleWallet [coinA, coinB]) 77 { ProgramHash := 900, PublicKey := 9 } 50
          [{ AssetID := 77, Value := 49, ProgramHash := 500 }]))
      { ProgramHash := 900, PublicKey := 901 } = .error "signing failed" ∧
    signTransaction (failingSignerEnv feeOne) { ProgramHash := 900, PublicKey := 901 }
      (unsignedTransfer (failingSignerEnv feeOne)
        (selection (sampleWallet [coinA, coinB]) 77 { ProgramHash := 900, PublicKey := 9 } 50
          [{ AssetID := 77, Value := 49, ProgramHash := 500 }])) =
      .error (Failure.error "signing failed") ∧
    MakeTransferTransaction (failingSignerEnv feeOne) (sampleWallet [coinA, coinB]) 77
      payFifty =
      .ok { transferFifty with Programs := [{ Code := [901], Parameter := [[]] }] } :=
  ⟨rfl, rfl, rfl⟩

/-- C14, the code at a failing input. The wallet `strangerWallet` resolves no
program hash: for the owner 900 of the selected coins it returns nil, the nil
account is appended to the signers (line 240) and dereferenced (line 252), and
the call panics instead of returning an error. -/
theorem transfer_panics_on_unknown_owner :
    (strangerWallet [coinA, coinB]).GetAccountByProgramHash 900 = none ∧
    (selection (strangerWallet [coinA, coinB]) 77 { ProgramHash := 900, PublicKey := 9 } 50
      [{ AssetID := 77, Value := 49, ProgramHash := 500 }]).expected = 0 ∧
    MakeTransferTransaction (sampleEnv feeOne) (strangerWallet [coinA, coinB]) 77 payFifty =
      .error (Failure.panic "nil pointer dereference") :=
  ⟨rfl, by decide, rfl⟩

/-! ## The signer list does not depend on the order of the walk -/

theorem matchInputs_resolved (wallet : Client) (ref : UTXOTxInput) (coin : Coin) :
    ∀ (input : List UTXOTxInput) (accounts : List (Option Account)),
      ((∃ inp ∈ input, RefersTo inp ref) →
        ∃ acc, wallet.GetAccountByProgramHash coin.Output.ProgramHash = some acc) →
      (∀ x ∈ accounts, x ≠ none) →
      ∃ result, matchInputs wallet ref coin input accounts = .ok result ∧
        ∀ x ∈ result, x ≠ none
  | [], accounts, _, hall => ⟨accounts, rfl, hall⟩
  | inp :: rest, accounts, hl, hall => by
    have hrest : (∃ i ∈ rest, RefersTo i ref) →
        ∃ acc, wallet.GetAccountByProgramHash coin.Output.ProgramHash = some acc := by
      rintro ⟨i, hi, hr⟩
      exact hl ⟨i, List.mem_cons_of_mem _ hi, hr⟩
    unfold matchInputs
    by_cases hm : inp.ReferTxID = ref.ReferTxID ∧ inp.ReferTxOutputIndex = ref.ReferTxOutputIndex
    · rw [if_pos hm]
      obtain ⟨dup, hd⟩ := foundDuplicate_total coin.Output.ProgramHash accounts hall
      simp only [hd, bind, Except.bind]
      cases dup with
      | true =>
        simp only [Bool.not_true, Bool.false_eq_true, if_false]
        exact matchInputs_resolved wallet ref coin rest accounts hrest hall
      | false =>
        simp only [Bool.not_false, if_true]
        apply matchInputs_resolved wallet ref coin rest _ hrest
        intro x hx
        rw [List.mem_append, List.mem_singleton] at hx
        rcases hx with hx | hx
        · exact hall x hx
        · obtain ⟨acc, hacc⟩ := hl ⟨inp, List.mem_cons_self _ _, hm⟩
          rw [hx, hacc]
          exact Option.some_ne_none acc
    · rw [if_neg hm]
      exact matchInputs_resolved wallet ref coin rest accounts hrest hall

theorem collectAccounts_resolved (wallet : Client) (input : List UTXOTxInput) :
    ∀ (entries : List (UTXOTxInput × Coin)) (accounts : List (Option Account)),
      (∀ e ∈ entries, (∃ inp ∈ input, RefersTo inp e.1) →
        ∃ acc, wallet.GetAccountByProgramHash e.2.Output.ProgramHash = some acc) →
      (∀ x ∈ accounts, x ≠ none) →
      ∃ result, collectAccounts wallet input entries accounts = .ok result ∧
        ∀ x ∈ result, x ≠ none
  | [], accounts, _, hall => ⟨accounts, rfl, hall⟩
  | (ref, coin) :: rest, accounts, hl, hall => by
    unfold collectAccounts
    obtain ⟨mid, hm, hmid⟩ := matchInputs_resolved wallet ref coin input accounts
      (hl (ref, coin) (List.mem_cons_self _ _)) hall
    simp only [hm, bind, Except.bind]
    exact collectAccounts_resolved wallet input rest mid
      (fun e he => hl e (List.mem_cons_of_mem _ he)) hmid

/-- The signer accounts are found as soon as the wallet resolves the owner of
every map entry that an input refers to. -/
theorem signerAccounts_resolved (env : Env) (wallet : Client) (input : List UTXOTxInput)
    (hl : ∀ e ∈ env.rangeAgain wallet.GetCoins, (∃ inp ∈ input, RefersTo inp e.1) →
      ∃ acc, wallet.GetAccountByProgramHash e.2.Output.ProgramHash = some acc) :
    ∃ accounts, signerAccounts env wallet input = .ok accounts := by
  obtain ⟨raw, hr, hraw⟩ := collectAccounts_resolved wallet input
    (env.rangeAgain wallet.GetCoins) [] hl (by simp)
  obtain ⟨accs, hd, _⟩ := derefAccounts_total (fun _ => True) raw
    (fun x hx => by
      obtain ⟨a, ha⟩ := Option.ne_none_iff_exists'.1 (hraw x hx)
      exact ⟨a, ha, trivial⟩)
  exact ⟨sortSort (sortedAccounts.Less env) accs,
    by simp [signerAccounts, hr, hd, bind, Except.bind, pure, Except.pure]⟩

/-- One direction of the independence: a signer list found in one order of the
walk is found in every other order. -/
theorem signerAccounts_reorder (env1 env2 : Env) (wallet : Client)
    (input1 input2 : List UTXOTxInput) (accounts : List Account)
    (hcmp : env1.CompareTo = env2.CompareTo)
    (hr1 : (env1.rangeAgain wallet.GetCoins).Perm wallet.GetCoins)
    (hr2 : (env2.rangeAgain wallet.GetCoins).Perm wallet.GetCoins)
    (hin : input1.Perm input2)
    (hlookup : ∀ h acc, wallet.GetAccountByProgramHash h = some acc → acc.ProgramHash = h)
    (htotal : ∀ a b, 0 < env1.CompareTo a b → env1.CompareTo b a ≤ 0)
    (htrans : ∀ a b c, env1.CompareTo a b ≤ 0 → env1.CompareTo b c ≤ 0 →
      env1.CompareTo a c ≤ 0)
    (hanti : ∀ a b, env1.CompareTo a b ≤ 0 → env1.CompareTo b a ≤ 0 → a = b)
    (h1 : signerAccounts env1 wallet input1 = .ok accounts) :
    signerAccounts env2 wallet input2 = .ok accounts := by
  obtain ⟨nd1, iff1, own1, c1, hc1⟩ :=
    signerAccounts_collected env1 wallet input1 accounts hlookup hr1 h1
  have hres : ∀ e ∈ env2.rangeAgain wallet.GetCoins, (∃ inp ∈ input2, RefersTo inp e.1) →
      ∃ acc, wallet.GetAccountByProgramHash e.2.Output.ProgramHash = some acc := by
    rintro e he ⟨inp, hinp, hr⟩
    obtain ⟨acc, hacc, hh⟩ := own1 e (hr2.mem_iff.1 he) ⟨inp, hin.mem_iff.2 hinp, hr⟩
    obtain ⟨e2, _, _, hl2⟩ := (iff1 acc).1 hacc
    have := hlookup _ _ hl2
    rw [← hh, this]
    exact ⟨acc, hl2⟩
  obtain ⟨accounts2, h2⟩ := signerAccounts_resolved env2 wallet input2 hres
  obtain ⟨nd2, iff2, _, c2, hc2⟩ :=
    signerAccounts_collected env2 wallet input2 accounts2 hlookup hr2 h2
  have hmem : ∀ a, a ∈ accounts ↔ a ∈ accounts2 := by
    intro a
    rw [iff1, iff2]
    constructor
    · rintro ⟨e, he, ⟨inp, hinp, hr⟩, hl⟩
      exact ⟨e, he, ⟨inp, hin.mem_iff.1 hinp, hr⟩, hl⟩
    · rintro ⟨e, he, ⟨inp, hinp, hr⟩, hl⟩
      exact ⟨e, he, ⟨inp, hin.mem_iff.2 hinp, hr⟩, hl⟩
  have hperm : accounts.Perm accounts2 :=
    (List.perm_ext_iff_of_nodup (List.Nodup.of_map _ nd1) (List.Nodup.of_map _ nd2)).2 hmem
  have hs1 : accounts.Pairwise
      (fun a b => env1.CompareTo a.ProgramHash b.ProgramHash ≤ 0) := by
    rw [hc1]
    exact sortedAccounts_sorted env1 htotal htrans c1
  have hs2 : accounts2.Pairwise
      (fun a b => env1.CompareTo a.ProgramHash b.ProgramHash ≤ 0) := by
    rw [hc2, hcmp]
    exact sortedAccounts_sorted env2 (by rw [← hcmp] ; exact htotal)
      (by rw [← hcmp] ; exact htrans) c2
  have heq : accounts = accounts2 :=
    List.Perm.eq_of_sorted
      (fun a b ha hb hab hba =>
        List.inj_on_of_nodup_map nd1 ha ((hmem b).2 hb) (hanti _ _ hab hba))
      hs1 hs2 hperm
  rw [h2, heq]

/-- C15, amended. For a fixed list of selected inputs and a fixed wallet whose
lookup by program hash returns accounts that carry the hash asked for, the
sorted signer list is the same for every order in which the coin map is walked
and every order of the inputs: two runs that differ only in these orders end
alike, with identical signer lists (`CompareTo` being a total order of the
program hashes). -/
theorem signers_order_independent (env1 env2 : Env) (wallet : Client)
    (input1 input2 : List UTXOTxInput)
    (hcmp : env1.CompareTo = env2.CompareTo)
    (hr1 : (env1.rangeAgain wallet.GetCoins).Perm wallet.GetCoins)
    (hr2 : (env2.rangeAgain wallet.GetCoins).Perm wallet.GetCoins)
    (hin : input1.Perm input2)
    (hlookup : ∀ h acc, wallet.GetAccountByProgramHash h = some acc → acc.ProgramHash = h)
    (htotal : ∀ a b, 0 < env1.CompareTo a b → env1.CompareTo b a ≤ 0)
    (htrans : ∀ a b c, env1.CompareTo a b ≤ 0 → env1.CompareTo b c ≤ 0 →
      env1.CompareTo a c ≤ 0)
    (hanti : ∀ a b, env1.CompareTo a b ≤ 0 → env1.CompareTo b a ≤ 0 → a = b) :
    signerAccounts env1 wallet input1 = signerAccounts env2 wallet input2 := by
  cases h1 : signerAccounts env1 wallet input1 with
  | ok accounts =>
    exact (signerAccounts_reorder env1 env2 wallet input1 input2 accounts hcmp hr1 hr2 hin
      hlookup htotal htrans hanti h1).symm
  | error e1 =>
    cases h2 : signerAccounts env2 wallet input2 with
    | ok accounts =>
      have := signerAccounts_reorder env2 env1 wallet input2 input1 accounts hcmp.symm hr2 hr1
        hin.symm hlookup (by rw [← hcmp] ; exact htotal) (by rw [← hcmp] ; exact htrans)
        (by rw [← hcmp] ; exact hanti) h2
      rw [h1] at this
      cases this
    | error e2 =>
      rw [signerAccounts_error h1, signerAccounts_error h2]

theorem compare_anti (a b : Nat)
    (h1 : (if a < b then (-1 : Int) else if a = b then 0 else 1) ≤ 0)
    (h2 : (if b < a then (-1 : Int) else if b = a then 0 else 1) ≤ 0) : a = b := by
  split_ifs at h1 h2 <;> omega

/-- Witness of C15: the coin map of the sample wallet walked forwards and
backwards, with the inputs in either order. -/
theorem signers_order_independent_witness :
    signerAccounts (sampleEnv feeOne) (sampleWallet [coinA, coinB, coinC])
        [coinB.1, coinC.1, coinA.1] =
      signerAccounts (reversedEnv feeOne) (sampleWallet [coinA, coinB, coinC])
        [coinA.1, coinC.1, coinB.1] ∧
    signerAccounts (sampleEnv feeOne) (sampleWallet [coinA, coinB, coinC])
        [coinB.1, coinC.1, coinA.1] =
      .ok [{ ProgramHash := 800, PublicKey := 801 }, { ProgramHash := 900, PublicKey := 901 }] :=
  ⟨signers_order_independent (sampleEnv feeOne) (reversedEnv feeOne)
    (sampleWallet [coinA, coinB, coinC]) [coinB.1, coinC.1, coinA.1]
    [coinA.1, coinC.1, coinB.1] rfl (List.Perm.refl _) (List.reverse_perm _)
    (List.reverse_perm [coinA.1, coinC.1, coinB.1]) (sampleEnv_lookup _)
    (sampleEnv_total _) (sampleEnv_trans _) (fun a b h1 h2 => compare_anti a b h1 h2), rfl⟩

/-- Counterexample to C15 as stated: the wallet `aliasWallet` resolves the
owners 1 and 2 of its two coins to the same account, whose program hash is 2.
Walking the coin map forwards the duplicate test finds the account when the
second coin is met and the signer list has one entry; walking it backwards the
test compares the owner 1 with the hash 2 and the account is listed twice. -/
theorem signers_depend_on_order_for_alias :
    (sampleEnv feeOne).rangeAgain (aliasWallet [coinP, coinQ]).GetCoins = [coinP, coinQ] ∧
    (reversedEnv feeOne).rangeAgain (aliasWallet [coinP, coinQ]).GetCoins = [coinQ, coinP] ∧
    signerAccounts (sampleEnv feeOne) (aliasWallet [coinP, coinQ]) [coinP.1, coinQ.1] =
      .ok [accountX] ∧
    signerAccounts (reversedEnv feeOne) (aliasWallet [coinP, coinQ]) [coinP.1, coinQ.1] =
      .ok [accountX, accountX] :=
  ⟨rfl, rfl, rfl, rfl⟩

/-! ## The selection and the order of the coin map -/

theorem assetCoins_perm (wallet : Client) (assetID : Uint256) :
    (assetCoins wallet assetID).Perm
      ((wallet.GetCoins.filter (fun e => decide (e.2.Output.AssetID = assetID))).map
        (fun e => ({ input := e.1, coin := e.2 } : sortedCoinsItem))) := by
  unfold assetCoins
  have h1 := (sortCoinsByValue_perm wallet.GetCoins).filter
    (fun c => decide (c.coin.Output.AssetID = assetID))
  rw [List.filter_map] at h1
  exact h1

/-- When the coins of the asset have pairwise distinct values, the order in
which the selection loop meets them does not depend on the order of the coin
map. -/
theorem assetCoins_order_independent (wallet1 wallet2 : Client) (assetID : Uint256)
    (hperm : wallet2.GetCoins.Perm wallet1.GetCoins)
    (hdistinct : ((wallet1.GetCoins.filter
      (fun e => decide (e.2.Output.AssetID = assetID))).map
        (fun e => e.2.Output.Value)).Nodup) :
    assetCoins wallet1 assetID = assetCoins wallet2 assetID := by
  have p1 := assetCoins_perm wallet1 assetID
  have p2 := assetCoins_perm wallet2 assetID
  have p12 : (assetCoins wallet1 assetID).Perm (assetCoins wallet2 assetID) :=
    p1.trans (((hperm.symm.filter _).map _).trans p2.symm)
  have hnd : ((assetCoins wallet1 assetID).map (fun c => c.coin.Output.Value)).Nodup := by
    have := (p1.map (fun c => c.coin.Output.Value)).nodup_iff.2
    apply this
    rw [List.map_map]
    exact hdistinct
  exact List.Perm.eq_of_sorted
    (fun a b ha hb hab hba =>
      List.inj_on_of_nodup_map hnd ha (p12.mem_iff.2 hb) (by omega))
    (assetCoins_sorted wallet1 assetID) (assetCoins_sorted wallet2 assetID) p12

/-- C16, amended. The code has no secondary sort key. For two wallets that
differ only in the order in which the coin map is enumerated, and whose coins
of the asset have pairwise distinct values, the selection loop meets the same
coins in the same order, and two transfers that return transactions have the
same inputs and the same outputs. -/
theorem selection_order_independent (env : Env) (wallet1 wallet2 : Client)
    (assetID : Uint256) (batchOut : List BatchOut)
    (hperm : wallet2.GetCoins.Perm wallet1.GetCoins)
    (hmain : wallet2.GetDefaultAccount = wallet1.GetDefaultAccount)
    (hdistinct : ((wallet1.GetCoins.filter
      (fun e => decide (e.2.Output.AssetID = assetID))).map
        (fun e => e.2.Output.Value)).Nodup) :
    assetCoins wallet1 assetID = assetCoins wallet2 assetID ∧
    ∀ t1 t2, MakeTransferTransaction env wallet1 assetID batchOut = .ok t1 →
      MakeTransferTransaction env wallet2 assetID batchOut = .ok t2 →
      t1.UTXOInputs = t2.UTXOInputs ∧ t1.Outputs = t2.Outputs := by
  have hEq := assetCoins_order_independent wallet1 wallet2 assetID hperm hdistinct
  refine ⟨hEq, ?_⟩
  intro t1 t2 h1 h2
  obtain ⟨_, m1, f1, e1, o1, _, _, hm1, hf1, ho1, _, _, _, ht1⟩ := MakeTransferTransaction_ok h1
  obtain ⟨_, m2, f2, e2, o2, _, _, hm2, hf2, ho2, _, _, _, ht2⟩ := MakeTransferTransaction_ok h2
  have hmm : m2 = m1 := by
    rw [hmain, hm1] at hm2
    cases hm2
    rfl
  subst hmm
  have hff : f2 = f1 := by
    rw [hf1] at hf2
    cases hf2
    rfl
  subst hff
  have heo : e2 = e1 ∧ o2 = o1 := by
    rw [ho1] at ho2
    cases ho2
    exact ⟨rfl, rfl⟩
  obtain ⟨he, ho⟩ := heo
  subst he
  subst ho
  have hsel : selection wallet1 assetID m2 e2 o2 = selection wallet2 assetID m2 e2 o2 := by
    rw [selection_eq, selection_eq, hEq]
  rw [ht1, ht2]
  simp [unsignedTransfer, hsel]

/-- Witness of C16: the coins `A` and `B` have the values 100 and 5. -/
theorem selection_order_independent_witness :
    MakeTransferTransaction (sampleEnv feeOne) (sampleWallet [coinA, coinB]) 77 payFifty =
      .ok transferFifty ∧
    MakeTransferTransaction (sampleEnv feeOne) (sampleWallet [coinB, coinA]) 77 payFifty =
      .ok transferFifty ∧
    assetCoins (sampleWallet [coinA, coinB]) 77 = assetCoins (sampleWallet [coinB, coinA]) 77 :=
  ⟨rfl, rfl,
   (selection_order_independent (sampleEnv feeOne) (sampleWallet [coinA, coinB])
    (sampleWallet [coinB, coinA]) 77 payFifty (List.Perm.swap _ _ _) rfl (by decide)).1⟩

/-- Counterexample to C16 as stated: the coins `A` and `Twin` both have the
value 100. Enumerated as `[A, Twin]` the sort puts `Twin` first and the
transfer spends `Twin`; enumerated as `[Twin, A]` it spends `A`. -/
theorem selection_depends_on_order_for_ties :
    sortCoinsByValue [coinA, coinTwin] =
      [{ input := coinTwin.1, coin := coinTwin.2 }, { input := coinA.1, coin := coinA.2 }] ∧
    sortCoinsByValue [coinTwin, coinA] =
      [{ input := coinA.1, coin := coinA.2 }, { input := coinTwin.1, coin := coinTwin.2 }] ∧
    MakeTransferTransaction (sampleEnv feeOne) (sampleWallet [coinA, coinTwin]) 77 payFifty =
      .ok { transferFifty with
            UTXOInputs := [coinTwin.1],
            Outputs := [{ AssetID := 77, Value := 49, ProgramHash := 500 },
                        { AssetID := 77, Value := 50, ProgramHash := 900 }] } ∧
    MakeTransferTransaction (sampleEnv feeOne) (sampleWallet [coinTwin, coinA]) 77 payFifty =
      .ok { transferFifty with
            UTXOInputs := [coinA.1],
            Outputs := [{ AssetID := 77, Value := 49, ProgramHash := 500 },
                        { AssetID := 77, Value := 50, ProgramHash := 900 }] } ∧
    coinTwin.1 ≠ coinA.1 :=
  ⟨rfl, rfl, rfl, rfl, by decide⟩

/-- C17. In a transfer that returns a transaction, when the entries of the coin
map of the wallet have pairwise distinct input references, no input reference
occurs twice among the inputs of the transaction. -/
theorem transfer_inputs_distinct (env : Env) (wallet : Client) (assetID : Uint256)
    (batchOut : List BatchOut) (txn : Transaction)
    (h : MakeTransferTransaction env wallet assetID batchOut = .ok txn)
    (hdistinct : (wallet.GetCoins.map (fun e => e.1)).Nodup) :
    txn.UTXOInputs.Nodup := by
  obtain ⟨_, _, _, _, _, _, hin, _⟩ := transfer_shape h
  rw [hin]
  have hall : ((sortCoinsByValue wallet.GetCoins).map (fun c => c.input)).Nodup := by
    have hp := (sortCoinsByValue_perm wallet.GetCoins).map (fun c => c.input)
    rw [hp.nodup_iff, List.map_map]
    exact hdistinct
  have hsub : (selectedCoins wallet assetID txn).Sublist (sortCoinsByValue wallet.GetCoins) :=
    (List.take_sublist _ _).trans (List.filter_sublist _)
  exact List.Nodup.sublist (hsub.map _) hall

/-- Witness of C17: the sample transfer of 50. -/
theorem transfer_inputs_distinct_witness :
    MakeTransferTransaction (sampleEnv feeOne) (sampleWallet [coinA, coinB]) 77 payFifty =
      .ok transferFifty ∧
    transferFifty.UTXOInputs.Nodup :=
  ⟨rfl, transfer_inputs_distinct (sampleEnv feeOne) (sampleWallet [coinA, coinB]) 77 payFifty
    transferFifty rfl (by decide)⟩

/-! ## Verification slots -/

theorem signLoop_length (env : Env) (txn : Transaction) :
    ∀ (accounts : List Account) (i : Nat) (ctx result : ContractContext),
      signLoop env txn accounts i ctx = .ok result →
      result.Codes.length = ctx.Codes.length ∧
        result.Parameters.length = ctx.Parameters.length
  | [], _, ctx, result, h => by
    simp only [signLoop, pure, Except.pure, Except.ok.injEq] at h
    subst h
    exact ⟨rfl, rfl⟩
  | a :: rest, i, ctx, result, h => by
    unfold signLoop at h
    simp only [bind, Except.bind] at h
    split at h
    · cases h
    · rename_i mid hm
      obtain ⟨h1, h2⟩ := signLoop_length env txn rest (i + 1) mid result h
      unfold ContractContext.MyAdd at hm
      split at hm
      · simp [throw, throwThe, MonadExceptOf.throw] at hm
      · split at hm
        · simp only [pure, Except.pure, Except.ok.injEq] at hm
          subst hm
          simp only [List.length_set] at h1 h2
          exact ⟨h1, h2⟩
        · simp [throw, throwThe, MonadExceptOf.throw] at hm

/-- The verification context of a transfer has one slot for each signer. -/
theorem signingContext_length {env : Env} {txn : Transaction} {accounts : List Account}
    {ctx : ContractContext} (h : signingContext env txn accounts = .ok ctx) :
    ctx.Codes.length = accounts.length ∧ ctx.Parameters.length = accounts.length := by
  obtain ⟨h1, h2⟩ := signLoop_length env txn accounts 0 _ ctx h
  simp only [newContractContextWithoutProgramHashes, List.length_replicate] at h1 h2
  exact ⟨h1, h2⟩

/-- The verification context of `signTransaction` has one slot. -/
theorem signTransactionContext_length {env : Env} {signer : Account} {tx : Transaction}
    {ctx : ContractContext} (h : signTransactionContext env signer tx = .ok ctx) :
    ctx.Codes.length = 1 ∧ ctx.Parameters.length = 1 := by
  unfold signTransactionContext at h
  cases hs : env.SignBySigner tx signer with
  | error e => simp [hs] at h
  | ok signature =>
    simp only [hs] at h
    cases hc : env.CreateSignatureContract signer.PublicKey with
    | error e => simp [hc] at h
    | ok contract =>
      simp only [hc] at h
      unfold ContractContext.AddContract at h
      cases ha : env.addContractError contract with
      | some e => simp [ha] at h
      | none =>
        simp only [ha, Except.ok.injEq] at h
        subst h
        simp [newContractContextWithoutProgramHashes]

theorem signTransaction_programs {env : Env} {signer : Account} {tx result : Transaction}
    (h : signTransaction env signer tx = .ok result) : result.Programs.length = 1 := by
  unfold signTransaction at h
  cases hc : signTransactionContext env signer tx with
  | error e => simp [hc, bind, Except.bind] at h
  | ok ctx =>
    simp only [hc, bind, Except.bind, pure, Except.pure, Except.ok.injEq] at h
    subst h
    obtain ⟨h1, h2⟩ := signTransactionContext_length hc
    exact GetPrograms_length ctx 1 h1 h2

theorem MakeRegTransaction_programs {env : Env} {wallet : Client} {name value : String}
    {tx : Transaction} (h : MakeRegTransaction env wallet name value = .ok tx) :
    tx.Programs.length = 1 := by
  unfold MakeRegTransaction at h
  cases hm : wallet.GetDefaultAccount with
  | error e => simp [hm, bind, Except.bind, throw, throwThe, MonadExceptOf.throw] at h
  | ok admin =>
    cases hc : env.CreateSignatureContract admin.PublicKey with
    | error e => simp [hm, hc, bind, Except.bind, throw, throwThe, MonadExceptOf.throw,
        pure, Except.pure] at h
    | ok c =>
      cases hv : env.StringToFixed64 value with
      | error e => simp [hm, hc, hv, bind, Except.bind, throw, throwThe, MonadExceptOf.throw,
          pure, Except.pure] at h
      | ok v =>
        cases hn : NewRegisterAssetTransaction env name v with
        | none => simp [hm, hc, hv, hn, bind, Except.bind, throw, throwThe,
            MonadExceptOf.throw, pure, Except.pure] at h
        | some t =>
          simp only [hm, hc, hv, hn, bind, Except.bind, pure, Except.pure] at h
          exact signTransaction_programs h

theorem MakeIssueTransaction_programs {env : Env} {wallet : Client} {assetID : Uint256}
    {address value : String} {tx : Transaction}
    (h : MakeIssueTransaction env wallet assetID address value = .ok tx) :
    tx.Programs.length = 1 := by
  unfold MakeIssueTransaction at h
  cases hm : wallet.GetDefaultAccount with
  | error e => simp [hm, bind, Except.bind, throw, throwThe, MonadExceptOf.throw] at h
  | ok admin =>
    cases hc : env.ToScriptHash address with
    | error e => simp [hm, hc, bind, Except.bind, throw, throwThe, MonadExceptOf.throw,
        pure, Except.pure] at h
    | ok c =>
      cases hv : env.StringToFixed64 value with
      | error e => simp [hm, hc, hv, bind, Except.bind, throw, throwThe, MonadExceptOf.throw,
          pure, Except.pure] at h
      | ok v =>
        cases hn : NewIssueAssetTransaction env
            [{ AssetID := assetID, Value := v, ProgramHash := c }] with
        | none => simp [hm, hc, hv, hn, bind, Except.bind, throw, throwThe,
            MonadExceptOf.throw, pure, Except.pure] at h
        | some t =>
          simp only [hm, hc, hv, hn, bind, Except.bind, pure, Except.pure] at h
          exact signTransaction_programs h

theorem mem_referredOwners {wallet : Client} {input : List UTXOTxInput} {h : Uint160} :
    h ∈ referredOwners wallet input ↔
      ∃ e ∈ wallet.GetCoins, (∃ inp ∈ input, RefersTo inp e.1) ∧ e.2.Output.ProgramHash = h := by
  unfold referredOwners
  rw [List.mem_dedup, List.mem_map]
  constructor
  · rintro ⟨e, he, hh⟩
    rw [List.mem_filter, List.any_eq_true] at he
    obtain ⟨hm, inp, hinp, hr⟩ := he
    exact ⟨e, hm, ⟨inp, hinp, of_decide_eq_true hr⟩, hh⟩
  · rintro ⟨e, hm, ⟨inp, hinp, hr⟩, hh⟩
    refine ⟨e, ?_, hh⟩
    rw [List.mem_filter, List.any_eq_true]
    exact ⟨hm, inp, hinp, decide_eq_true hr⟩

/-- The signers of a transfer that returns a transaction, for a wallet whose
lookup returns accounts that carry the hash asked for: their program hashes
are distinct and are the owner hashes of the coins the inputs refer to. -/
theorem transfer_signer_hashes {env : Env} {wallet : Client} {assetID : Uint256}
    {batchOut : List BatchOut} {txn : Transaction}
    (h : MakeTransferTransaction env wallet assetID batchOut = .ok txn)
    (hlookup : ∀ h acc, wallet.GetAccountByProgramHash h = some acc → acc.ProgramHash = h)
    (hrange : (env.rangeAgain wallet.GetCoins).Perm wallet.GetCoins) :
    ∃ accounts ctx, signerAccounts env wallet txn.UTXOInputs = .ok accounts ∧
      signingContext env { txn with Programs := [] } accounts = .ok ctx ∧
      txn.Programs = ctx.GetPrograms ∧
      (accounts.map (fun a => a.ProgramHash)).Nodup ∧
      (∀ h, h ∈ accounts.map (fun a => a.ProgramHash) ↔ h ∈ referredOwners wallet txn.UTXOInputs) ∧
      ((wallet.GetCoins.map (fun e => e.1)).Nodup →
        ∀ h, h ∈ accounts.map (fun a => a.ProgramHash) ↔
          h ∈ selectedOwners wallet assetID txn) := by
  obtain ⟨_, mainAccount, f, expected, output, accounts, ctx, _, _, _, _, hacc, hctx, htxn⟩ :=
    MakeTransferTransaction_ok h
  obtain ⟨_, _, _, _, _, _, hin, _⟩ := transfer_shape h
  have hI : txn.UTXOInputs = (selection wallet assetID mainAccount expected output).input := by
    rw [htxn] ; rfl
  have hU : ({ txn with Programs := [] } : Transaction) =
      unsignedTransfer env (selection wallet assetID mainAccount expected output) := by
    rw [htxn] ; rfl
  rw [← hI] at hacc
  obtain ⟨hnodup, hiff, hown, _, _⟩ :=
    signerAccounts_collected env wallet txn.UTXOInputs accounts hlookup hrange hacc
  have hmemref : ∀ h, h ∈ accounts.map (fun a => a.ProgramHash) ↔
      h ∈ referredOwners wallet txn.UTXOInputs := by
    intro h
    rw [mem_referredOwners, List.mem_map]
    constructor
    · rintro ⟨acc, ha, hh⟩
      obtain ⟨e, he, hr, hl⟩ := (hiff acc).1 ha
      exact ⟨e, he, hr, by rw [← hlookup _ _ hl, hh]⟩
    · rintro ⟨e, he, hr, hh⟩
      obtain ⟨acc, ha, hh2⟩ := hown e he hr
      exact ⟨acc, ha, hh2.trans hh⟩
  refine ⟨accounts, ctx, hacc, by rw [hU] ; exact hctx, by rw [htxn], hnodup, hmemref, ?_⟩
  intro hdistinct h
  rw [hmemref, mem_referredOwners]
  unfold selectedOwners
  rw [List.mem_dedup, List.mem_map]
  have hselmem : ∀ c ∈ selectedCoins wallet assetID txn,
      (c.input, c.coin) ∈ wallet.GetCoins ∧ c.input ∈ txn.UTXOInputs := by
    intro c hc
    refine ⟨(mem_assetCoins.1 (List.mem_of_mem_take hc)).1, ?_⟩
    rw [hin]
    exact List.mem_map_of_mem _ hc
  constructor
  · rintro ⟨e, he, ⟨inp, hinp, hr1, hr2⟩, hh⟩
    rw [hin, List.mem_map] at hinp
    obtain ⟨c, hc, hci⟩ := hinp
    obtain ⟨hm, _⟩ := hselmem c hc
    have href : c.input = e.1 := by
      rw [hci]
      cases inp
      cases hx : e.1
      rw [hx] at hr1 hr2
      simp only at hr1 hr2
      rw [hr1, hr2]
    have hee : (c.input, c.coin) = e := List.inj_on_of_nodup_map hdistinct hm he href
    exact ⟨c, hc, by rw [← hh, ← hee]⟩
  · rintro ⟨c, hc, hh⟩
    obtain ⟨hm, hi⟩ := hselmem c hc
    exact ⟨(c.input, c.coin), hm, ⟨c.input, hi, rfl, rfl⟩, hh⟩

theorem length_eq_of_same_members {l1 l2 : List Uint160} (d1 : l1.Nodup) (d2 : l2.Nodup)
    (h : ∀ x, x ∈ l1 ↔ x ∈ l2) : l1.length = l2.length :=
  ((List.perm_ext_iff_of_nodup d1 d2).2 h).length_eq

/-- C18, amended. The verification context built for a transaction has `Codes`
and `Parameters` of the same length, the number of signers. For a transfer that
returns a transaction, provided the lookup of the wallet by program hash
returns accounts that carry the hash asked for, the signers have distinct
program hashes and their number is the number of distinct owner program hashes
among the coins the inputs refer to (the selected coins, when the references of
the wallet are pairwise distinct). For `signTransaction`, hence for Register
and Issue transactions, it is exactly 1. -/
theorem verification_slots (env : Env) (wallet : Client) (assetID : Uint256)
    (batchOut : List BatchOut) (txn : Transaction)
    (h : MakeTransferTransaction env wallet assetID batchOut = .ok txn)
    (hlookup : ∀ h acc, wallet.GetAccountByProgramHash h = some acc → acc.ProgramHash = h)
    (hrange : (env.rangeAgain wallet.GetCoins).Perm wallet.GetCoins) :
    (∃ accounts ctx, signerAccounts env wallet txn.UTXOInputs = .ok accounts ∧
      signingContext env { txn with Programs := [] } accounts = .ok ctx ∧
      txn.Programs = ctx.GetPrograms ∧
      ctx.Codes.length = accounts.length ∧
      ctx.Parameters.length = accounts.length ∧
      txn.Programs.length = accounts.length ∧
      (accounts.map (fun a => a.ProgramHash)).Nodup ∧
      accounts.length = (referredOwners wallet txn.UTXOInputs).length ∧
      ((wallet.GetCoins.map (fun e => e.1)).Nodup →
        accounts.length = (selectedOwners wallet assetID txn).length)) ∧
    (∀ signer tx ctx, signTransactionContext env signer tx = .ok ctx →
      ctx.Codes.length = 1 ∧ ctx.Parameters.length = 1) ∧
    (∀ signer tx result, signTransaction env signer tx = .ok result →
      result.Programs.length = 1) ∧
    (∀ w name value tx, MakeRegTransaction env w name value = .ok tx →
      tx.Programs.length = 1) ∧
    (∀ w asset address value tx, MakeIssueTransaction env w asset address value = .ok tx →
      tx.Programs.length = 1) := by
  refine ⟨?_, fun _ _ _ hc => signTransactionContext_length hc,
    fun _ _ _ hs => signTransaction_programs hs,
    fun _ _ _ _ hr => MakeRegTransaction_programs hr,
    fun _ _ _ _ _ hi => MakeIssueTransaction_programs hi⟩
  obtain ⟨accounts, ctx, hacc, hctx, hprog, hnodup, href, hsel⟩ :=
    transfer_signer_hashes h hlookup hrange
  obtain ⟨h1, h2⟩ := signingContext_length hctx
  have hlen : accounts.length = (accounts.map (fun a => a.ProgramHash)).length := by simp
  refine ⟨accounts, ctx, hacc, hctx, hprog, h1, h2, ?_, hnodup, ?_, ?_⟩
  · rw [hprog]
    exact GetPrograms_length ctx accounts.length h1 h2
  · rw [hlen]
    exact length_eq_of_same_members hnodup (List.nodup_dedup _) href
  · intro hdistinct
    rw [hlen]
    exact length_eq_of_same_members hnodup (List.nodup_dedup _) (hsel hdistinct)

/-- Witness of C18: the sample transfer that spends coins of two owners has two
verification programs. -/
theorem verification_slots_witness :
    MakeTransferTransaction (sampleEnv feeOne) (sampleWallet [coinA, coinB, coinC]) 77
      payFifty = .ok transferTwoOwners ∧
    transferTwoOwners.Programs.length = 2 ∧
    (selectedOwners (sampleWallet [coinA, coinB, coinC]) 77 transferTwoOwners).length = 2 ∧
    ∃ (accounts : List Account) (ctx : ContractContext),
      signerAccounts (sampleEnv feeOne) (sampleWallet [coinA, coinB, coinC])
        transferTwoOwners.UTXOInputs = .ok accounts ∧
      signingContext (sampleEnv feeOne) { transferTwoOwners with Programs := [] } accounts =
        .ok ctx ∧
      ctx.Codes.length = accounts.length ∧
      ctx.Parameters.length = accounts.length ∧
      transferTwoOwners.Programs.length = accounts.length ∧
      accounts.length =
        (selectedOwners (sampleWallet [coinA, coinB, coinC]) 77 transferTwoOwners).length := by
  obtain ⟨⟨accounts, ctx, h1, h2, _, h4, h5, h6, _, _, h9⟩, _⟩ :=
    verification_slots (sampleEnv feeOne) (sampleWallet [coinA, coinB, coinC]) 77 payFifty
      transferTwoOwners rfl (sampleEnv_lookup _) (List.Perm.refl _)
  exact ⟨rfl, rfl, by decide, accounts, ctx, h1, h2, h4, h5, h6, h9 (by decide)⟩

/-- Counterexample to C18 as stated: the wallet `aliasWallet` resolves the
owners 1 and 2 of its coins to one account. The transfer spends both coins;
walking the coin map forwards it is signed once, so that there is one slot for
two distinct owner hashes, and walking it backwards the same account signs
twice, so that there are two slots for one signer. -/
theorem verification_slots_for_alias :
    MakeTransferTransaction (sampleEnv feeOne) (aliasWallet [coinP, coinQ]) 77 payFifty =
      .ok { transferFifty with
            UTXOInputs := [coinP.1, coinQ.1],
            Programs := [{ Code := [3], Parameter := [[3]] }] } ∧
    (selectedOwners (aliasWallet [coinP, coinQ]) 77
      { transferFifty with
        UTXOInputs := [coinP.1, coinQ.1],
        Programs := [{ Code := [3], Parameter := [[3]] }] }) = [1, 2] ∧
    MakeTransferTransaction (reversedEnv feeOne) (aliasWallet [coinP, coinQ]) 77 payFifty =
      .ok { transferFifty with
            UTXOInputs := [coinP.1, coinQ.1],
            Programs := [{ Code := [3], Parameter := [[3]] },
                         { Code := [3], Parameter := [[3]] }] } ∧
    signerAccounts (reversedEnv feeOne) (aliasWallet [coinP, coinQ]) [coinP.1, coinQ.1] =
      .ok [accountX, accountX] :=
  ⟨rfl, by decide, rfl, rfl⟩

/-! ## Sufficient funds and positive outputs -/

/-- With enough coins the selection loop covers the requirement. -/
theorem selection_covers (wallet : Client) (assetID : Uint256) (mainAccount : Account)
    (expected : Int) (output : List TxOutput)
    (hpos : 0 < expected) (hlt : expected < 2 ^ 63)
    (hcoins : ∀ e ∈ wallet.GetCoins, e.2.Output.AssetID = assetID →
      0 ≤ e.2.Output.Value ∧ e.2.Output.Value < 2 ^ 63)
    (henough : expected ≤ walletTotal wallet assetID) :
    (selection wallet assetID mainAccount expected output).expected = 0 := by
  rw [selection_eq]
  obtain ⟨k, _, _, _, hcase⟩ := coinLoop_exact assetID mainAccount
    (assetCoins wallet assetID)
    { input := [], output := output, transferred := 0, expected := expected }
    (fun c hc => by
      obtain ⟨hm, ha⟩ := mem_assetCoins.1 hc
      exact ⟨ha, hcoins _ hm ha⟩)
    hpos hlt
  rw [← coinTotal_assetCoins] at henough
  simp only at hcase
  rcases hcase with ⟨_, h2, _⟩ | ⟨_, h2, _⟩ | ⟨_, h2, _, _⟩
  · exact h2
  · exact h2
  · omega

/-- C19. For every transfer request whose payments all parse, have a valid
address and a value greater than the per-output fee `f`, with `f`
non-negative, wallet coins of the asset with values in `[0, 2 ^ 63)` and a
requested total below `2 ^ 63` (no fixed-point overflow), if the total value of
the wallet coins of the asset is at least the requested total, then the
selection loop covers the requirement and MakeTransferTransaction does not
return the error "token is not enough". Errors are told apart by their text:
the wallet and the transaction constructor are taken not to use this text for
errors of their own. -/
theorem transfer_sufficient_funds (env : Env) (wallet : Client) (assetID : Uint256)
    (batchOut : List BatchOut) (f : Int)
    (hfee : getTransferTxnPerOutputFee env batchOut.length = .ok f)
    (hvalid : ∀ o ∈ batchOut, ValidPayment env f o)
    (hf0 : 0 ≤ f)
    (hsum : requestedTotal env batchOut < 2 ^ 63)
    (hcoins : ∀ e ∈ wallet.GetCoins, e.2.Output.AssetID = assetID →
      0 ≤ e.2.Output.Value ∧ e.2.Output.Value < 2 ^ 63)
    (henough : requestedTotal env batchOut ≤ walletTotal wallet assetID)
    (hw : wallet.GetDefaultAccount ≠ .error "token is not enough")
    (hn : ∀ i out, env.newTransferError i out ≠ some "token is not enough") :
    MakeTransferTransaction env wallet assetID batchOut ≠
      .error (Failure.error "token is not enough") ∧
    (batchOut ≠ [] → ∀ mainAccount, wallet.GetDefaultAccount = .ok mainAccount →
      (selection wallet assetID mainAccount (requestedTotal env batchOut)
        (paymentOutputs env assetID f batchOut)).expected = 0) := by
  have hcover : batchOut ≠ [] → ∀ mainAccount,
      (selection wallet assetID mainAccount (requestedTotal env batchOut)
        (paymentOutputs env assetID f batchOut)).expected = 0 := by
    intro hne mainAccount
    exact selection_covers wallet assetID mainAccount _ _
      (requestedTotal_pos env f hf0 batchOut hne hvalid) hsum hcoins henough
  refine ⟨?_, fun hne mainAccount _ => hcover hne mainAccount⟩
  intro h
  by_cases hne : batchOut = []
  · subst hne
    simp [MakeTransferTransaction, throw, throwThe, MonadExceptOf.throw, bind,
      Except.bind] at h
  · cases hmain : wallet.GetDefaultAccount with
    | error msg =>
      have hlen : batchOut.length ≠ 0 := by simpa using hne
      simp [MakeTransferTransaction, hlen, hmain, throw, throwThe, MonadExceptOf.throw, bind,
        Except.bind, pure, Except.pure] at h
      rw [h] at hmain
      exact hw hmain
    | ok mainAccount =>
      have hout := outputLoop_valid env assetID f batchOut 0 [] hvalid
      have hpos := requestedTotal_pos env f hf0 batchOut hne hvalid
      rw [expected_exact env batchOut (by omega) hsum, List.nil_append] at hout
      rw [MakeTransferTransaction_stages hne hmain hfee hout,
        if_neg (by rw [hcover hne mainAccount] ; decide)] at h
      cases hnew : env.newTransferError
          (selection wallet assetID mainAccount (requestedTotal env batchOut)
            (paymentOutputs env assetID f batchOut)).input
          (selection wallet assetID mainAccount (requestedTotal env batchOut)
            (paymentOutputs env assetID f batchOut)).output with
      | some msg =>
        simp only [hnew, Except.error.injEq, Failure.error.injEq] at h
        rw [h] at hnew
        exact hn _ _ hnew
      | none =>
        simp only [hnew] at h
        cases hacc : signerAccounts env wallet
            (selection wallet assetID mainAccount (requestedTotal env batchOut)
              (paymentOutputs env assetID f batchOut)).input with
        | error e2 =>
          simp only [hacc, Except.error.injEq] at h
          have := signerAccounts_error hacc
          rw [h] at this
          exact absurd this (by decide)
        | ok accounts =>
          simp only [hacc] at h
          cases hctx : signingContext env
              (unsignedTransfer env (selection wallet assetID mainAccount
                (requestedTotal env batchOut) (paymentOutputs env assetID f batchOut)))
              accounts with
          | error e2 =>
            simp only [hctx, Except.error.injEq] at h
            have := signingContext_error hctx
            rw [h] at this
            rcases this with this | this
            · exact absurd this (by decide)
            · exact absurd this (by decide)
          | ok ctx => simp [hctx] at h

/-- Witness of C19: the sample wallet with the coins `A` and `B` holds 105 and
is asked for 50. -/
theorem transfer_sufficient_funds_witness :
    requestedTotal (sampleEnv feeOne) payFifty ≤ walletTotal (sampleWallet [coinA, coinB]) 77 ∧
    MakeTransferTransaction (sampleEnv feeOne) (sampleWallet [coinA, coinB]) 77 payFifty ≠
      .error (Failure.error "token is not enough") :=
  ⟨by decide,
   (transfer_sufficient_funds (sampleEnv feeOne) (sampleWallet [coinA, coinB]) 77 payFifty 1
    rfl payFifty_valid (by decide) (by decide) (by decide) (by decide)
    (fun h => by cases h) (fun _ _ h => by cases h)).1⟩

/-- C20, amended. In a transfer that returns a transaction, computed with a
non-negative per-output fee, a requested total below `2 ^ 63` (no fixed-point
overflow) and wallet coins of the asset with values in `[0, 2 ^ 63)`, every
output of the transaction, the change output included, has a strictly positive
value. -/
theorem transfer_outputs_positive (env : Env) (wallet : Client) (assetID : Uint256)
    (batchOut : List BatchOut) (txn : Transaction) (f : Int)
    (h : MakeTransferTransaction env wallet assetID batchOut = .ok txn)
    (hfee : getTransferTxnPerOutputFee env batchOut.length = .ok f)
    (hf0 : 0 ≤ f)
    (hsum : requestedTotal env batchOut < 2 ^ 63)
    (hcoins : ∀ e ∈ wallet.GetCoins, e.2.Output.AssetID = assetID →
      0 ≤ e.2.Output.Value ∧ e.2.Output.Value < 2 ^ 63) :
    ∀ o ∈ txn.Outputs, 0 < o.Value := by
  obtain ⟨mainAccount, _, hvalid, _, _, _, _, hcase⟩ :=
    transfer_exact h hfee hf0 hsum hcoins
  have hpay : ∀ o ∈ paymentOutputs env assetID f batchOut, 0 < o.Value := by
    intro o ho
    unfold paymentOutputs at ho
    rw [List.mem_map] at ho
    obtain ⟨b, hb, hbo⟩ := ho
    have h1 := parsedValue_le_total env f hf0 batchOut hvalid b hb
    obtain ⟨v, a, hv, hfv, _⟩ := hvalid b hb
    rw [parsedValue_of_ok hv] at h1
    rw [← hbo]
    simp only [parsedValue_of_ok hv]
    rw [fixedSub_exact (by omega) (by omega)]
    omega
  intro o ho
  rcases hcase with ⟨hgt, hO⟩ | ⟨_, hO⟩
  · rw [hO, List.mem_append, List.mem_singleton] at ho
    rcases ho with ho | ho
    · exact hpay o ho
    · rw [ho]
      simp only
      omega
  · rw [hO] at ho
    exact hpay o ho

/-- Witness of C20: the outputs 49 and 55 of the sample transfer of 50. -/
theorem transfer_outputs_positive_witness :
    MakeTransferTransaction (sampleEnv feeOne) (sampleWallet [coinA, coinB]) 77 payFifty =
      .ok transferFifty ∧
    ∀ o ∈ transferFifty.Outputs, 0 < o.Value :=
  ⟨rfl, transfer_outputs_positive (sampleEnv feeOne) (sampleWallet [coinA, coinB]) 77 payFifty
    transferFifty 1 rfl rfl (by decide) (by decide) (by decide)⟩

/-- Counterexample to C20 as stated: without fee (a non-negative fee) the
payments of `payTooMuch` wrap the requirement around to `-(2 ^ 63)`; the coin
of value 1 exceeds it and the change output is `1 + 2 ^ 63` reduced to the
64-bit range, a negative value. -/
theorem transfer_negative_change_on_overflow :
    getTransferTxnPerOutputFee (sampleEnv none) payTooMuch.length = .ok 0 ∧
    MakeTransferTransaction (sampleEnv none) (sampleWallet [coinOne]) 77 payTooMuch =
      .ok (transferOverdrawn coinOne (-9223372036854775807)) ∧
    (transferOverdrawn coinOne (-9223372036854775807)).Outputs.getLast? =
      some { AssetID := 77, Value := -9223372036854775807, ProgramHash := 900 } ∧
    fixedSub 1 (-(2 ^ 63)) = -9223372036854775807 :=
  ⟨rfl, rfl, rfl, by decide⟩

end Sdk
